import Mathlib

/-!
# Word Jungle (script.js): a shallow embedding

The game of `script.js` is a single-threaded, event-driven program over one
mutable `state` object, two module-level variables (`noCount`,
`revealedByGiveUp`), the page, the pending `setTimeout` callbacks and the
global random source.  All of these are gathered in the record `World`; every
function of the script becomes a function on `World`.

Modelling conventions.

* JavaScript numbers that serve as counters and indices (`nextId`, `noCount`,
  tile ids, `activeIdx`) are exact integers: `Nat`, and `Int` for `activeIdx`
  and the argument of `switchWord`, which the script compares with `0`.  The
  counters grow by one per tile, answer or heart and stay in the range in
  which JavaScript numbers are exact.
* `Math.random()` is the stream `World.rand` of raw draws; the one use the
  script makes of it, `Math.floor(Math.random() * k)`, is the head of the
  stream reduced modulo `k`, so every index below `k` is a possible outcome.
* `state.found` (a `Set`) is a duplicate-free list in insertion order.
* A tile is an object shared between `state.pool` and `state.filled`.  Its
  `letter` and `id` never change; `used` is written through the pool
  (`setUsed`) and never read through `state.filled`, which therefore stores
  the tile as it was when it was pushed (`used = true`).
* The pending timers are the list `World.timers`; a timer may fire whenever
  it is pending, which covers every order the real delays allow.
* The page is reduced to the texts and flags the script writes; the elements
  the script looks up by id are taken to exist.  The three
  renderers `renderBoxes`, `renderTiles` and `renderWordList` only rebuild
  markup from `state` and attach the click handlers `tapTile` and
  `switchWord`, which are events of the model.
* A key event carries what the listener reads of it: the tag name of its
  target (`e.target.tagName`) and its key (`e.key`).
-/

namespace WordJungle

/-! ## Constants -/

/-- The target words, `WORDS`. -/
def WORDS : List String := ["WILL", "YOU", "BE", "MY", "VALENTINE"]

/-- The question shown by the reveal, `PHRASE`. -/
def PHRASE : String := "Will you be my Valentine? 🥺"

/-- The fixed number of letter tiles of a round, `TILE_COUNT`. -/
def TILE_COUNT : Nat := 12

/-- The clue of each word, `HINTS`. -/
def HINTS : List (String × String) :=
  [("WILL", "A document read after someone is gone"),
   ("YOU", "The 7th vowel pair in the English alphabet reversed"),
   ("BE", "A striped insect minus its tail"),
   ("MY", "The 13th and 25th letters standing together"),
   ("VALENTINE", "A patron saint once imprisoned in Rome, 3rd century")]

/-- The string indexed by `randomLetter`. -/
def ALPHABET : String := "ABCDEFGHIJKLMNOPQRSTUVWXYZ"

/-- The number of hearts of `spawnHearts` (`total`). -/
def HEART_TOTAL : Nat := 35

/-- The length of `HEART_EMOJIS`. -/
def HEART_EMOJI_COUNT : Nat := 10

/-! ## Data -/

/-- A letter tile `{ letter, id, used }`. -/
structure Tile where
  letter : Char
  id : Nat
  used : Bool
deriving DecidableEq, Repr

/-- The `state` object. -/
structure State where
  found : List String
  activeIdx : Int
  filled : List Tile
  pool : List Tile
  nextId : Nat
deriving DecidableEq, Repr

/-- A pending `setTimeout` callback: the one of the match branch and the one
of the mismatch branch of `checkAnswer`, the one of `giveUp`, the one of the
closing branch of `handleNo`, and `addHeart` with the value of its `count`. -/
inductive Timer where
  | afterMatch
  | afterWrong
  | giveUpReveal
  | closeWindow
  | addHeart (count : Nat)
deriving DecidableEq, Repr

/-- One call of `saveAnswer`, with the values it writes. -/
structure Answer where
  answer : String
  noPressCount : Nat
  completedWithoutGiveUp : Bool
deriving DecidableEq, Repr

/-- The random source: the raw draws still to come. -/
abbrev Rand := Nat → Nat

/-- Everything the script reads and writes.  `checkCalls` and `revealCalls`
are history variables: the number of entries into `checkAnswer`, and the
argument of every call of `showReveal` in order. -/
structure World where
  state : State
  noCount : Nat
  revealedByGiveUp : Bool
  rand : Rand
  timers : List Timer
  statusText : String
  statusTone : String
  hintText : String
  phrase : String
  overlayVisible : Bool
  overlayWon : Bool
  revealActionsDisplay : String
  playAgainBtnDisplay : String
  nextBtnDisplay : String
  saved : List Answer
  checkCalls : Nat
  revealCalls : List Bool

/-! ## Helpers -/

/-- Source: `Math.floor(Math.random() * k)`: the index drawn and the rest of the source. -/
def randomBelow (k : Nat) (r : Rand) : Nat × Rand :=
  (r 0 % k, fun n => r (n + 1))

/-- The exchange `[a[i], a[j]] = [a[j], a[i]]` on indices of the array. -/
def swap {α : Type} (a : List α) (i j : Nat) : List α :=
  match a[i]?, a[j]? with
  | some x, some y => (a.set i y).set j x
  | _, _ => a

/-- The loop of `shuffle`, entered with the current value of `i`. -/
def shuffleLoop {α : Type} : Nat → List α → Rand → List α × Rand
  | 0, a, r => (a, r)
  | i + 1, a, r =>
    let (j, r1) := randomBelow (i + 2) r
    shuffleLoop i (swap a (i + 1) j) r1

/-- Source: `shuffle(arr)`: works on a copy, `i` runs from `a.length - 1` down to `1`. -/
def shuffle {α : Type} (arr : List α) (r : Rand) : List α × Rand :=
  shuffleLoop (arr.length - 1) arr r

/-- Source: `randomLetter()`. -/
def randomLetter (r : Rand) : Char × Rand :=
  let (i, r1) := randomBelow 26 r
  (ALPHABET.toList.getD i 'A', r1)

/-- Source: `WORDS[idx]`, absent outside the list. -/
def wordAt (idx : Int) : Option String :=
  if 0 ≤ idx then WORDS[idx.toNat]? else none

/-- Source: `activeWord()`: `WORDS[state.activeIdx] ?? null`. -/
def activeWord (s : State) : Option String :=
  wordAt s.activeIdx

/-- Source: `found.has(x)`, where `x` may be `undefined`. -/
def setHas (found : List String) (x : Option String) : Bool :=
  match x with
  | some v => found.contains v
  | none => false

/-- Source: `found.add(x)`. -/
def setAdd (found : List String) (x : String) : List String :=
  if found.contains x then found else found ++ [x]

/-- The effect of `const item = state.pool.find((p) => p.id === id);
if (item) item.used = b`: the first tile of the pool with that id is written. -/
def setUsed : List Tile → Nat → Bool → List Tile
  | [], _, _ => []
  | p :: ps, id, b =>
    if p.id = id then { p with used := b } :: ps else p :: setUsed ps id b

/-! ## Pool generation -/

/-- The loop `while (letters.length < TILE_COUNT) letters.push(randomLetter())`. -/
@[semireducible] def padLetters (letters : List Char) (r : Rand) : List Char × Rand :=
  if letters.length < TILE_COUNT then
    let (c, r1) := randomLetter r
    padLetters (letters ++ [c]) r1
  else (letters, r)
termination_by TILE_COUNT - letters.length
decreasing_by simp_wf; simp [TILE_COUNT] at *; omega

/-- The map `shuffled.map((ch) => ({ letter: ch, id: state.nextId++, used: false }))`:
the tiles and the final value of `nextId`. -/
def makeTiles : List Char → Nat → List Tile × Nat
  | [], n => ([], n)
  | ch :: rest, n =>
    let (ts, m) := makeTiles rest (n + 1)
    ({ letter := ch, id := n, used := false } :: ts, m)

/-- Source: `buildPool(word)`.  The argument is `activeWord()`, which may be `null`;
`null.split` throws, which is the result `none`. -/
def buildPool (w : World) (word : Option String) : Option World :=
  match word with
  | none => none
  | some wd =>
    let (letters, r1) := padLetters wd.toList w.rand
    let (shuffled, r2) := shuffle letters r1
    let (pool, n) := makeTiles shuffled w.state.nextId
    some { w with
      rand := r2
      state := { w.state with pool := pool, nextId := n, filled := [] } }

/-! ## Rendering -/

/-- Source: `setStatus(msg, tone)`. -/
def setStatus (w : World) (msg : String) (tone : String) : World :=
  { w with statusText := msg, statusTone := tone }

/-- Source: `showReveal(won)`. -/
def showReveal (w : World) (won : Bool) : World :=
  { w with
    noCount := 0
    revealedByGiveUp := if won then false else w.revealedByGiveUp
    phrase := PHRASE
    overlayVisible := true
    overlayWon := won
    revealActionsDisplay := "flex"
    playAgainBtnDisplay := "none"
    revealCalls := w.revealCalls ++ [won] }

/-- Source: `renderStats()`. -/
def renderStats (w : World) : World :=
  if w.state.found.length = WORDS.length ∧ w.revealedByGiveUp = false then
    showReveal { w with hintText := "All done!" } true
  else
    match activeWord w.state with
    | some wd =>
      if wd ≠ "" then { w with hintText := (HINTS.lookup wd).getD "???" }
      else { w with hintText := "—" }
    | none => { w with hintText := "—" }

/-- Source: `render()`: of the four renderers only `renderStats` writes anything
other than markup derived from `state`. -/
def render (w : World) : World :=
  renderStats w

/-! ## Game actions -/

/-- Source: `pickNextUnfound()`. -/
def pickNextUnfound (w : World) : World :=
  let idx := WORDS.findIdx? (fun x => !(w.state.found.contains x))
  { w with state := { w.state with
      activeIdx := match idx with
        | none => 0
        | some i => (i : Int) } }

/-- Source: `clearFilled()`. -/
def clearFilled (w : World) : World :=
  setStatus
    { w with state := { w.state with
        pool := w.state.filled.foldl (fun pool f => setUsed pool f.id false) w.state.pool
        filled := [] } }
    "" ""

/-- The callback that the match branch of `checkAnswer` schedules. -/
def afterMatch (w : World) : World :=
  if w.state.found.length < WORDS.length then
    let w1 := pickNextUnfound w
    match buildPool w1 (activeWord w1.state) with
    | none => w1
    | some w2 => render (setStatus w2 "" "")
  else render w

/-- The callback that the mismatch branch of `checkAnswer` schedules. -/
def afterWrong (w : World) : World :=
  render (clearFilled w)

/-- Source: `checkAnswer()`. -/
def checkAnswer (w : World) : World :=
  let w0 := { w with checkCalls := w.checkCalls + 1 }
  let guess := String.mk (w0.state.filled.map (fun f => f.letter))
  let wrong :=
    { setStatus w0 "Wrong! Try again." "bad" with timers := w0.timers ++ [Timer.afterWrong] }
  match activeWord w0.state with
  | some word =>
    if guess = word then
      { setStatus { w0 with state := { w0.state with found := setAdd w0.state.found word } }
          "Correct!" "good" with timers := w0.timers ++ [Timer.afterMatch] }
    else wrong
  | none => wrong

/-- Source: `tapTile(id)`. -/
def tapTile (w : World) (id : Nat) : World :=
  match activeWord w.state with
  | none => w
  | some word =>
    if word = "" then w
    else if w.state.filled.length ≥ word.length then w
    else
      match w.state.pool.find? (fun p => p.id == id) with
      | none => w
      | some item =>
        if item.used then w
        else
          let w1 := setStatus
            { w with state := { w.state with
                pool := setUsed w.state.pool id true
                filled := w.state.filled ++ [{ item with used := true }] } }
            "" ""
          if w1.state.filled.length = word.length then checkAnswer w1 else w1

/-- Source: `undo()`. -/
def undo (w : World) : World :=
  match w.state.filled.getLast? with
  | none => w
  | some last =>
    setStatus
      { w with state := { w.state with
          filled := w.state.filled.dropLast
          pool := setUsed w.state.pool last.id false } }
      "" ""

/-- Source: `clearAction()`. -/
def clearAction (w : World) : World :=
  render (clearFilled w)

/-- Source: `switchWord(idx)`. -/
def switchWord (w : World) (idx : Int) : World :=
  if idx < 0 ∨ idx ≥ (WORDS.length : Int) then w
  else if setHas w.state.found (wordAt idx) then w
  else
    let w1 := { w with state := { w.state with activeIdx := idx } }
    match buildPool w1 (activeWord w1.state) with
    | none => w1
    | some w2 => render (setStatus w2 "" "")

/-- The loop of `skipWord`: `i` is the loop variable, the first argument the
number of values of `i` still to visit. -/
def skipWordLoop (w : World) : Nat → Nat → World
  | 0, _ => w
  | k + 1, i =>
    let idx := Int.tmod (w.state.activeIdx + (i : Int)) (WORDS.length : Int)
    if !(setHas w.state.found (wordAt idx)) then switchWord w idx
    else skipWordLoop w k (i + 1)

/-- Source: `skipWord()`: `for (let i = 1; i <= WORDS.length; i++)`. -/
def skipWord (w : World) : World :=
  skipWordLoop w WORDS.length 1

/-- Source: `giveUp()`. -/
def giveUp (w : World) : World :=
  let w1 := { w with
    revealedByGiveUp := true
    state := { w.state with found := WORDS.foldl setAdd w.state.found } }
  let w2 := render w1
  { w2 with timers := w2.timers ++ [Timer.giveUpReveal] }

/-- Source: `saveAnswer(answer, noPressCount, completedGame)`: the values handed to
the datastore; the write itself is asynchronous and touches nothing else. -/
def saveAnswer (w : World) (answer : String) (noPressCount : Nat) (completedGame : Bool) : World :=
  { w with saved := w.saved ++ [{ answer := answer, noPressCount := noPressCount,
                                  completedWithoutGiveUp := completedGame }] }

/-- Source: `addHeart()` of `spawnHearts`, with the current `count`: five draws style
the heart, a sixth one sets the delay of the next call. -/
def addHeart (w : World) (count : Nat) : World :=
  if count ≥ HEART_TOTAL then w
  else
    let (_, r1) := randomBelow HEART_EMOJI_COUNT w.rand
    { w with
      rand := fun n => r1 (n + 5)
      timers := w.timers ++ [Timer.addHeart (count + 1)] }

/-- Source: `spawnHearts()`. -/
def spawnHearts (w : World) : World :=
  addHeart w 0

/-- Source: `handleYes()`. -/
def handleYes (w : World) : World :=
  let w1 := { w with
    phrase := "<span class=\"phraseText\">Yayyy!</span> 🥰🥳🎉"
    overlayWon := true
    revealActionsDisplay := "none"
    nextBtnDisplay := "inline-block" }
  let w2 := spawnHearts w1
  saveAnswer w2 "YES" w2.noCount (!w2.revealedByGiveUp)

/-- Source: `handleNo()`. -/
def handleNo (w : World) : World :=
  let w1 := { w with noCount := w.noCount + 1 }
  if w1.noCount ≥ 3 then
    let w2 := { w1 with
      phrase := "Oki... goodbyeee 😭💔"
      revealActionsDisplay := "none" }
    let w3 := saveAnswer w2 ("NO (x" ++ toString w2.noCount ++ ") — closed tab 💔")
      w2.noCount (!w2.revealedByGiveUp)
    { w3 with timers := w3.timers ++ [Timer.closeWindow] }
  else if w1.noCount = 2 then
    { w1 with phrase := "Will you be my Valentine? Pleaseee 😭🙏" }
  else
    { w1 with phrase := "Will you be my Valentine? Please 🥺🙏" }

/-! ## Input and the event loop -/

/-- Source: `toUpperCase()` of JavaScript on one character of a key.  The
characters that JavaScript maps to a letter `A` to `Z` are `a` to `z`, the
dotless i (U+0131, mapped to `I`) and the long s (U+017F, mapped to `S`);
these are mapped as JavaScript maps them.  Every other character is mapped by
JavaScript to itself or to characters that are not one letter `A` to `Z`
(`ß` to `SS`, `é` to `É`); it is kept as it is here, which the test
`upper.length === 1 && upper >= "A" && upper <= "Z"` of the listener does not
tell apart. -/
def upperChar (c : Char) : Char :=
  if c = Char.ofNat 0x131 then 'I'
  else if c = Char.ofNat 0x17F then 'S'
  else c.toUpper

/-- Source: `e.key.toUpperCase()`, character by character with `upperChar`. -/
def toUpperCase (key : String) : String :=
  String.mk (key.toList.map upperChar)

/-- The `keydown` listener of the window for an event with target tag
`tagName` (`e.target.tagName`) and key `key` (`e.key`), given the value
`upper` of `e.key.toUpperCase()`:
`if (e.target.tagName === "INPUT" || e.target.tagName === "TEXTAREA") return;`
then `Backspace`, `Escape`, and the test
`upper.length === 1 && upper >= "A" && upper <= "Z"`.  A string of one
character beyond U+FFFF has length 2 in JavaScript and is no letter `A` to
`Z` here: both ways the listener does nothing. -/
def keydownUpper (w : World) (tagName : String) (key : String) (upper : String) : World :=
  if tagName = "INPUT" ∨ tagName = "TEXTAREA" then w
  else if key = "Backspace" then undo w
  else if key = "Escape" then clearAction w
  else
    match upper.toList with
    | [c] =>
      if 'A' ≤ c ∧ c ≤ 'Z' then
        match w.state.pool.find? (fun p => !p.used && p.letter == c) with
        | some item => tapTile w item.id
        | none => w
      else w
    | _ => w

/-- The `keydown` listener of the window, with the upper-casing of `toUpperCase`. -/
def keydown (w : World) (tagName : String) (key : String) : World :=
  keydownUpper w tagName key (toUpperCase key)

/-- The end of `submitNickname()` for a non-empty nickname:
`buildPool(activeWord()); render()`. -/
def submitNickname (w : World) : World :=
  match buildPool w (activeWord w.state) with
  | none => w
  | some w1 => render w1

/-- The callback of a timer.  The callback of `handleNo` closes the window. -/
def runTimer (w : World) : Timer → World
  | Timer.afterMatch => afterMatch w
  | Timer.afterWrong => afterWrong w
  | Timer.giveUpReveal => showReveal w false
  | Timer.closeWindow => w
  | Timer.addHeart count => addHeart w count

/-- What can happen to the page: a click on a tile, a key pressed on an
element with tag `tagName`, the buttons, a click on an entry of the word list,
the nickname form, and the firing of the `k`-th pending timer. -/
inductive Event where
  | tapTile (id : Nat)
  | keydown (tagName : String) (key : String)
  | undo
  | clearAction
  | skipWord
  | giveUp
  | handleYes
  | handleNo
  | switchWord (idx : Int)
  | submitNickname
  | fire (k : Nat)

/-- One turn of the event loop. -/
def step (w : World) : Event → World
  | Event.tapTile id => tapTile w id
  | Event.keydown tagName key => keydown w tagName key
  | Event.undo => undo w
  | Event.clearAction => clearAction w
  | Event.skipWord => skipWord w
  | Event.giveUp => giveUp w
  | Event.handleYes => handleYes w
  | Event.handleNo => handleNo w
  | Event.switchWord idx => switchWord w idx
  | Event.submitNickname => submitNickname w
  | Event.fire k =>
    match w.timers[k]? with
    | none => w
    | some t => runTimer { w with timers := w.timers.eraseIdx k } t

/-- A run of the event loop. -/
def run (w : World) (evs : List Event) : World :=
  evs.foldl step w

/-- The page as loaded, before any event, for a given random source. -/
def initWorld (r : Rand) : World :=
  { state := { found := [], activeIdx := 0, filled := [], pool := [], nextId := 0 }
    noCount := 0
    revealedByGiveUp := false
    rand := r
    timers := []
    statusText := ""
    statusTone := ""
    hintText := ""
    phrase := ""
    overlayVisible := false
    overlayWon := false
    revealActionsDisplay := ""
    playAgainBtnDisplay := ""
    nextBtnDisplay := ""
    saved := []
    checkCalls := 0
    revealCalls := [] }

/-- The worlds the page can be in. -/
def Reachable (w : World) : Prop :=
  ∃ r evs, w = run (initWorld r) evs

/-! ## Notions used to state the properties -/

/-- A tile with its `used` flag set, as `tapTile` leaves it. -/
def markUsed (t : Tile) : Tile :=
  { t with used := true }

/-- How one turn of the event loop can change `state`: not at all, by placing
a tile (with the word added to the found set when the placement spells it), by
withdrawing the last tile, by clearing the placement, by building a pool for
the word of some index, or by giving up. -/
inductive StateStep : State → State → Prop where
  | same (s : State) : StateStep s s
  | place (s : State) (id : Nat) (item : Tile) (word : String) (found : List String)
      (hw : activeWord s = some word) (hne : word ≠ "")
      (hlen : s.filled.length < word.length)
      (hfind : s.pool.find? (fun p => p.id == id) = some item)
      (hused : item.used = false)
      (hfound : found = s.found ∨
        (found = setAdd s.found word ∧ s.filled.length + 1 = word.length ∧
          String.mk ((s.filled ++ [markUsed item]).map (fun f => f.letter)) = word)) :
      StateStep s { s with
        pool := setUsed s.pool id true
        filled := s.filled ++ [markUsed item]
        found := found }
  | undo (s : State) (last : Tile) (h : s.filled.getLast? = some last) :
      StateStep s { s with
        filled := s.filled.dropLast
        pool := setUsed s.pool last.id false }
  | clear (s : State) :
      StateStep s { s with
        pool := s.filled.foldl (fun pool f => setUsed pool f.id false) s.pool
        filled := [] }
  | rebuild (s : State) (idx : Int) (word : String) (letters : List Char) (pool : List Tile)
      (hw : wordAt idx = some word)
      (hpre : ∃ extra, letters = word.toList ++ extra)
      (hlen : word.length ≤ TILE_COUNT → letters.length = TILE_COUNT)
      (hperm : (pool.map Tile.letter).Perm letters)
      (hids : pool.map Tile.id = List.range' s.nextId letters.length)
      (hunused : ∀ t ∈ pool, t.used = false) :
      StateStep s { s with
        activeIdx := idx
        pool := pool
        nextId := s.nextId + letters.length
        filled := [] }
  | giveUp (s : State) :
      StateStep s { s with found := WORDS.foldl setAdd s.found }

/-- Well-formedness of `state`: the found set holds words of `WORDS` without
repetition, the ids of the pool are pairwise distinct, and a used tile of the
pool is a tile of the placement. -/
def Inv (s : State) : Prop :=
  (∀ x ∈ s.found, x ∈ WORDS) ∧ s.found.Nodup ∧ (s.pool.map Tile.id).Nodup ∧
    (∀ p ∈ s.pool, p.used = true → p.id ∈ s.filled.map Tile.id)

/-- The step leaves the reveal alone: the give-up flag and the history of
`showReveal` are unchanged and no give-up timer is added. -/
def Quiet (w w1 : World) : Prop :=
  w1.revealedByGiveUp = w.revealedByGiveUp ∧ w1.revealCalls = w.revealCalls ∧
    (Timer.giveUpReveal ∈ w1.timers → Timer.giveUpReveal ∈ w.timers)

/-- The footprint of one turn of the event loop on the reveal: nothing; the
won variant, shown by `renderStats` while the give-up flag is off; a give-up,
which sets the flag; the give-up variant, shown by a pending give-up timer. -/
def RevealStep (w w1 : World) : Prop :=
  Quiet w w1 ∨
  (w.revealedByGiveUp = false ∧ w1.revealedByGiveUp = false ∧
    w1.revealCalls = w.revealCalls ++ [true] ∧
    (Timer.giveUpReveal ∈ w1.timers → Timer.giveUpReveal ∈ w.timers)) ∨
  (w1.revealedByGiveUp = true ∧ w1.revealCalls = w.revealCalls) ∨
  (Timer.giveUpReveal ∈ w.timers ∧ w1.revealedByGiveUp = w.revealedByGiveUp ∧
    w1.revealCalls = w.revealCalls ++ [false] ∧
    (Timer.giveUpReveal ∈ w1.timers → Timer.giveUpReveal ∈ w.timers))

/-- The world in which `tapTile` has marked and pushed `item`, before the
check of the length of the placement. -/
def placed (w : World) (id : Nat) (item : Tile) : World :=
  setStatus
    { w with state := { w.state with
        pool := setUsed w.state.pool id true
        filled := w.state.filled ++ [markUsed item] } }
    "" ""

/-- A random source for the worked examples. -/
def sampleRand : Rand := fun n => n * 7 + 3

/-- The world of the worked examples: the page as loaded, after the nickname
was submitted; the word is `"WILL"` and the pool reads `TILDRKMYFLWA`. -/
def sampleWorld : World :=
  run (initWorld sampleRand) [Event.submitNickname]

/-- The tiles `W`, `I`, `L`, `L` of the pool of `sampleWorld`. -/
def sampleTiles : List Tile :=
  [{ letter := 'W', id := 10, used := false }, { letter := 'I', id := 1, used := false },
   { letter := 'L', id := 2, used := false }, { letter := 'L', id := 9, used := false }]

/-- The index that `skipWord` looks at for the value `i` of its loop variable:
`(state.activeIdx + i) % WORDS.length`. -/
def scanIdx (w : World) (i : Nat) : Int :=
  Int.tmod (w.state.activeIdx + (i : Int)) (WORDS.length : Int)

/-- The events of a player who types the first four words one after the
other, the callback of each match firing before the next key. -/
def fourWordsEvents : List Event :=
  [Event.submitNickname,
   Event.keydown "BODY" "W", Event.keydown "BODY" "I", Event.keydown "BODY" "L", Event.keydown "BODY" "L", Event.fire 0,
   Event.keydown "BODY" "Y", Event.keydown "BODY" "O", Event.keydown "BODY" "U", Event.fire 0,
   Event.keydown "BODY" "B", Event.keydown "BODY" "E", Event.fire 0,
   Event.keydown "BODY" "M", Event.keydown "BODY" "Y", Event.fire 0]

/-- The world after `fourWordsEvents`: only `"VALENTINE"`, the active word,
is left to find. -/
def lastWordWorld : World :=
  run (initWorld sampleRand) fourWordsEvents

/-- The events of a player who types all five words. -/
def wonEvents : List Event :=
  fourWordsEvents ++
    [Event.keydown "BODY" "V", Event.keydown "BODY" "A", Event.keydown "BODY" "L", Event.keydown "BODY" "E",
     Event.keydown "BODY" "N", Event.keydown "BODY" "T", Event.keydown "BODY" "I", Event.keydown "BODY" "N",
     Event.keydown "BODY" "E", Event.fire 0]

/-! ## The arrays of `shuffle`, its draws, and further invariants -/

/-- The two arrays `shuffle` has in hand: its argument `arr` and the copy `a`
made by `const a = [...arr]`, on which it works and which it returns. -/
structure ShuffleMem (α : Type) where
  arr : List α
  a : List α

/-- The loop of `shuffle` on the two arrays: every write goes to `a`. -/
def shuffleMemLoop {α : Type} : Nat → ShuffleMem α → Rand → ShuffleMem α × Rand
  | 0, m, r => (m, r)
  | i + 1, m, r =>
    let (j, r1) := randomBelow (i + 2) r
    shuffleMemLoop i { m with a := swap m.a (i + 1) j } r1

/-- The function `shuffle(arr)` on the two arrays. -/
def shuffleMem {α : Type} (arr : List α) (r : Rand) : ShuffleMem α × Rand :=
  shuffleMemLoop (arr.length - 1) { arr := arr, a := arr } r

/-- The random source that yields the draws of `ds` in order (and `0` after them). -/
def streamOf (ds : List Nat) : Rand :=
  fun k => ds.getD k 0

/-- The sequences of index draws of a run of the loop of `shuffle` entered with
`i`: one draw `j` in `0 .. i`, then one in `0 .. i - 1`, and so on down to the
draw of the last round, in `0 .. 1`. -/
def validDraws : Nat → List Nat → Bool
  | 0, ds => ds.isEmpty
  | _ + 1, [] => false
  | i + 1, d :: ds => decide (d ≤ i + 1) && validDraws i ds

/-- The letters of the tiles of the pool that are not used. -/
def unusedLetters (s : State) : List Char :=
  (s.pool.filter (fun p => !p.used)).map Tile.letter

/-- Consistency of pool and placement: the placement consists of pairwise
distinct tiles of the pool, a tile of the pool is used exactly when it is in
the placement, and the placement is not longer than the active word. -/
def Consistent (s : State) : Prop :=
  s.filled.Nodup ∧ (∀ f ∈ s.filled, f ∈ s.pool) ∧
    (∀ p ∈ s.pool, p.used = true ↔ p ∈ s.filled) ∧
    (∀ word, activeWord s = some word → s.filled.length ≤ word.length)

/-- The active index is an index of `WORDS`. -/
def ActiveValid (s : State) : Prop :=
  0 ≤ s.activeIdx ∧ s.activeIdx < (WORDS.length : Int)

/-- The round can be solved: the letters of the pool, used or not, contain the
letters of the active word with their multiplicities. -/
def Solvable (s : State) : Prop :=
  ∃ word, activeWord s = some word ∧
    ∀ c, word.toList.count c ≤ (s.pool.map Tile.letter).count c

/-- The found set after a step contains the found set before it and holds
words of `WORDS` only. -/
def FoundGrows (w w1 : World) : Prop :=
  (∀ x ∈ w.state.found, x ∈ w1.state.found) ∧ (∀ x ∈ w1.state.found, x ∈ WORDS)

/-! ## Lemmas on the helpers -/

theorem swap_perm {α : Type} (a : List α) (i j : Nat) : (swap a i j).Perm a := by
  classical
  unfold swap
  split
  · rename_i x y hx hy
    obtain ⟨hi, hxi⟩ := List.getElem?_eq_some_iff.mp hx
    obtain ⟨hj, hyj⟩ := List.getElem?_eq_some_iff.mp hy
    rw [List.perm_iff_count]
    intro b
    have hj2 : j < (a.set i y).length := by simpa using hj
    rw [List.count_set _ _ _ _ hj2, List.count_set _ _ _ _ hi]
    have hget : (a.set i y)[j] = y := by
      rw [List.getElem_set]
      split
      · rfl
      · exact hyj
    rw [hget, hxi]
    have hle : (if (x == b) = true then 1 else 0) ≤ List.count b a := by
      split
      · rename_i hxb
        have hxb2 : x = b := by simpa using hxb
        have : b ∈ a := by
          rw [← hxb2, ← hxi]
          exact List.getElem_mem hi
        exact List.count_pos_iff.mpr this
      · exact Nat.zero_le _
    omega
  · exact List.Perm.refl a

theorem shuffleLoop_perm {α : Type} (i : Nat) (a : List α) (r : Rand) :
    (shuffleLoop i a r).1.Perm a := by
  induction i generalizing a r with
  | zero => exact List.Perm.refl a
  | succ i ih =>
    simp only [shuffleLoop]
    exact (ih _ _).trans (swap_perm a (i + 1) _)

theorem shuffle_perm {α : Type} (arr : List α) (r : Rand) : (shuffle arr r).1.Perm arr :=
  shuffleLoop_perm _ arr r

theorem padLetters_spec (letters : List Char) (r : Rand) :
    (∃ extra, (padLetters letters r).1 = letters ++ extra) ∧
    (letters.length ≤ TILE_COUNT → (padLetters letters r).1.length = TILE_COUNT) := by
  generalize hn : TILE_COUNT - letters.length = n
  induction n generalizing letters r with
  | zero =>
    rw [padLetters]
    have : ¬ letters.length < TILE_COUNT := by omega
    simp only [this, if_false]
    exact ⟨⟨[], by simp⟩, fun h => by omega⟩
  | succ n ih =>
    rw [padLetters]
    have hlt : letters.length < TILE_COUNT := by omega
    simp only [hlt, if_true]
    have hn2 : TILE_COUNT - (letters ++ [(randomLetter r).1]).length = n := by
      simp; omega
    obtain ⟨⟨extra, he⟩, hl⟩ := ih (letters ++ [(randomLetter r).1]) (randomLetter r).2 hn2
    refine ⟨⟨(randomLetter r).1 :: extra, ?_⟩, fun _ => ?_⟩
    · rw [he]; simp
    · apply hl; simp; omega

theorem makeTiles_spec (cs : List Char) (n : Nat) :
    (makeTiles cs n).1.map Tile.letter = cs ∧
    (makeTiles cs n).1.map Tile.id = List.range' n cs.length ∧
    (∀ t ∈ (makeTiles cs n).1, t.used = false) ∧
    (makeTiles cs n).2 = n + cs.length := by
  induction cs generalizing n with
  | nil => simp [makeTiles]
  | cons c cs ih =>
    obtain ⟨h1, h2, h3, h4⟩ := ih (n + 1)
    simp only [makeTiles, List.map_cons, List.length_cons, List.range'_succ, List.mem_cons]
    refine ⟨by rw [h1], by rw [h2], ?_, by rw [h4]; omega⟩
    intro t ht
    rcases ht with rfl | ht
    · rfl
    · exact h3 t ht

/-- What `buildPool` does with a word, in full: the new pool is `makeTiles` of a
rearrangement of the word followed by filler letters. -/
theorem buildPool_some (w : World) (wd : String) :
    ∃ w1 letters, buildPool w (some wd) = some w1 ∧
      (∃ extra, letters = wd.toList ++ extra) ∧
      (wd.length ≤ TILE_COUNT → letters.length = TILE_COUNT) ∧
      (w1.state.pool.map Tile.letter).Perm letters ∧
      w1.state.pool.map Tile.id = List.range' w.state.nextId letters.length ∧
      (∀ t ∈ w1.state.pool, t.used = false) ∧
      w1.state.nextId = w.state.nextId + letters.length ∧
      w1.state.filled = [] ∧
      w1.state.found = w.state.found ∧
      w1.state.activeIdx = w.state.activeIdx ∧
      w1.noCount = w.noCount ∧ w1.revealedByGiveUp = w.revealedByGiveUp ∧
      w1.timers = w.timers ∧ w1.saved = w.saved ∧
      w1.checkCalls = w.checkCalls ∧ w1.revealCalls = w.revealCalls := by
  have hb : buildPool w (some wd) = some { w with
      rand := (shuffle (padLetters wd.toList w.rand).1 (padLetters wd.toList w.rand).2).2
      state := { w.state with
        pool := (makeTiles (shuffle (padLetters wd.toList w.rand).1
                  (padLetters wd.toList w.rand).2).1 w.state.nextId).1
        nextId := (makeTiles (shuffle (padLetters wd.toList w.rand).1
                  (padLetters wd.toList w.rand).2).1 w.state.nextId).2
        filled := [] } } := rfl
  rw [hb]
  obtain ⟨hpre, hlen⟩ := padLetters_spec wd.toList w.rand
  generalize padLetters wd.toList w.rand = pl at hpre hlen
  have hperm := shuffle_perm pl.1 pl.2
  generalize shuffle pl.1 pl.2 = sh at hperm
  obtain ⟨h1, h2, h3, h4⟩ := makeTiles_spec sh.1 w.state.nextId
  generalize makeTiles sh.1 w.state.nextId = mt at h1 h2 h3 h4
  refine ⟨{ w with rand := sh.2,
                   state := { w.state with pool := mt.1, nextId := mt.2, filled := [] } },
    pl.1, rfl, hpre, ?_, ?_, ?_, h3, ?_, rfl, rfl, rfl, rfl, rfl, rfl, rfl, rfl, rfl⟩
  · intro h; exact hlen (by simpa using h)
  · show (mt.1.map Tile.letter).Perm _
    rw [h1]; exact hperm
  · show mt.1.map Tile.id = _
    rw [h2, hperm.length_eq]
  · show mt.2 = _
    rw [h4, hperm.length_eq]

/-! ## C1 -/

/-- C1: for every non-empty uppercase word of at most `TILE_COUNT` letters, every
prior world and every random source, `buildPool` returns, and leaves a pool of
exactly `TILE_COUNT` tiles whose letters contain the letters of the word with
their multiplicities, whose ids are pairwise distinct and which are all unused,
and an empty placement. -/
theorem buildPool_contract (w : World) (wd : String)
    (_hne : wd ≠ "") (hlen : wd.length ≤ TILE_COUNT)
    (_hup : ∀ c ∈ wd.toList, 'A' ≤ c ∧ c ≤ 'Z') :
    ∃ w1, buildPool w (some wd) = some w1 ∧
      w1.state.pool.length = TILE_COUNT ∧
      (∀ c, wd.toList.count c ≤ (w1.state.pool.map Tile.letter).count c) ∧
      (w1.state.pool.map Tile.id).Nodup ∧
      (∀ t ∈ w1.state.pool, t.used = false) ∧
      w1.state.filled = [] := by
  obtain ⟨w1, letters, hb, ⟨extra, hpre⟩, hl, hperm, hids, hused, -, hfilled, -⟩ :=
    buildPool_some w wd
  refine ⟨w1, hb, ?_, ?_, ?_, hused, hfilled⟩
  · have := hperm.length_eq
    rw [List.length_map] at this
    rw [this]; exact hl hlen
  · intro c
    rw [hperm.count_eq, hpre, List.count_append]
    exact Nat.le_add_right _ _
  · rw [hids]; exact List.nodup_range' _ _

/-- C1 at the word `"BE"`, from the page as loaded. -/
theorem buildPool_contract_witness :
    ∃ w1, buildPool (initWorld (fun n => n * 7 + 3)) (some "BE") = some w1 ∧
      w1.state.pool.length = TILE_COUNT ∧
      (∀ c, "BE".toList.count c ≤ (w1.state.pool.map Tile.letter).count c) ∧
      (w1.state.pool.map Tile.id).Nodup ∧
      (∀ t ∈ w1.state.pool, t.used = false) ∧
      w1.state.filled = [] :=
  buildPool_contract (initWorld (fun n => n * 7 + 3)) "BE" (by decide) (by decide) (by decide)

/-! ## The tiles written by `setUsed` -/

@[simp] theorem setUsed_map_id (pool : List Tile) (id : Nat) (b : Bool) :
    (setUsed pool id b).map Tile.id = pool.map Tile.id := by
  induction pool with
  | nil => rfl
  | cons p ps ih =>
    simp only [setUsed]
    split
    · rfl
    · simp [ih]

@[simp] theorem setUsed_map_letter (pool : List Tile) (id : Nat) (b : Bool) :
    (setUsed pool id b).map Tile.letter = pool.map Tile.letter := by
  induction pool with
  | nil => rfl
  | cons p ps ih =>
    simp only [setUsed]
    split
    · rfl
    · simp [ih]

@[simp] theorem setUsed_length (pool : List Tile) (id : Nat) (b : Bool) :
    (setUsed pool id b).length = pool.length := by
  have := congrArg List.length (setUsed_map_id pool id b)
  rwa [List.length_map, List.length_map] at this

/-- Writing the flag twice through the same id keeps the second value. -/
theorem setUsed_setUsed (pool : List Tile) (id : Nat) (b c : Bool) :
    setUsed (setUsed pool id b) id c = setUsed pool id c := by
  induction pool with
  | nil => rfl
  | cons p ps ih =>
    simp only [setUsed]
    split
    · rename_i h; simp [setUsed, h]
    · rename_i h; simp [setUsed, h, ih]

/-- Writing the value the tile found by `find` already has changes nothing. -/
theorem setUsed_of_find (pool : List Tile) (id : Nat) (item : Tile)
    (h : pool.find? (fun p => p.id == id) = some item) :
    setUsed pool id item.used = pool := by
  induction pool with
  | nil => rfl
  | cons p ps ih =>
    simp only [setUsed]
    by_cases hp : p.id = id
    · simp [List.find?, hp] at h
      subst h
      rw [if_pos hp]
    · have hne : (p.id == id) = false := by simpa using hp
      simp only [List.find?, hne] at h
      simp [hp, ih h]

/-- Nothing is written when no tile has the id. -/
theorem setUsed_of_find_none (pool : List Tile) (id : Nat) (b : Bool)
    (h : pool.find? (fun p => p.id == id) = none) :
    setUsed pool id b = pool := by
  induction pool with
  | nil => rfl
  | cons p ps ih =>
    by_cases hp : p.id = id
    · simp [List.find?, hp] at h
    · have hne : (p.id == id) = false := by simpa using hp
      simp only [List.find?, hne] at h
      simp [setUsed, hp, ih h]

/-- With pairwise distinct ids, `setUsed` writes every tile with the id. -/
theorem setUsed_eq_map (pool : List Tile) (id : Nat) (b : Bool)
    (hnd : (pool.map Tile.id).Nodup) :
    setUsed pool id b = pool.map (fun p => if p.id = id then { p with used := b } else p) := by
  induction pool with
  | nil => rfl
  | cons p ps ih =>
    simp only [List.map_cons, List.nodup_cons, List.mem_map, not_exists, not_and] at hnd
    simp only [setUsed, List.map_cons]
    split
    · rename_i h
      congr 1
      symm
      calc ps.map (fun p => if p.id = id then { p with used := b } else p)
          = ps.map (fun p => p) := by
            apply List.map_congr_left
            intro q hq
            have : q.id ≠ id := fun e => hnd.1 q hq (by rw [e, h])
            simp [this]
        _ = ps := by simp
    · rw [ih hnd.2]

/-- With pairwise distinct ids, `find` by the id of a tile of the pool returns it. -/
theorem find_of_mem (pool : List Tile) (t : Tile) (hnd : (pool.map Tile.id).Nodup)
    (ht : t ∈ pool) : pool.find? (fun p => p.id == t.id) = some t := by
  induction pool with
  | nil => simp at ht
  | cons p ps ih =>
    simp only [List.map_cons, List.nodup_cons, List.mem_map, not_exists, not_and] at hnd
    rcases List.mem_cons.mp ht with rfl | hmem
    · simp [List.find?]
    · have hne : p.id ≠ t.id := fun e => hnd.1 t hmem e.symm
      have hne2 : (p.id == t.id) = false := by simpa using hne
      simp only [List.find?, hne2]
      exact ih hnd.2 hmem

theorem find_some_mem (pool : List Tile) (id : Nat) (item : Tile)
    (h : pool.find? (fun p => p.id == id) = some item) : item ∈ pool ∧ item.id = id := by
  have h1 := List.mem_of_find?_eq_some h
  have h2 := List.find?_some h
  exact ⟨h1, by simpa using h2⟩

/-- The pool after the loop of `clearFilled`, with pairwise distinct ids. -/
theorem clear_pool_eq_map (filled pool : List Tile) (hnd : (pool.map Tile.id).Nodup) :
    filled.foldl (fun pool f => setUsed pool f.id false) pool =
      pool.map (fun p => if p.id ∈ filled.map Tile.id then { p with used := false } else p) := by
  induction filled generalizing pool with
  | nil => simp
  | cons f fs ih =>
    simp only [List.foldl_cons]
    rw [ih _ (by simpa using hnd), setUsed_eq_map _ _ _ hnd, List.map_map]
    apply List.map_congr_left
    intro p _
    by_cases h1 : p.id = f.id
    · simp [h1]
    · by_cases h2 : p.id ∈ fs.map Tile.id
      · have h2' := h2
        simp only [List.mem_map] at h2'
        simp [h1, h2, h2']
      · have h2' := h2
        simp only [List.mem_map] at h2'
        simp [h1, h2']

@[simp] theorem clear_pool_map_id (filled pool : List Tile) :
    (filled.foldl (fun pool f => setUsed pool f.id false) pool).map Tile.id =
      pool.map Tile.id := by
  induction filled generalizing pool with
  | nil => rfl
  | cons f fs ih => simp [ih]

@[simp] theorem clear_pool_map_letter (filled pool : List Tile) :
    (filled.foldl (fun pool f => setUsed pool f.id false) pool).map Tile.letter =
      pool.map Tile.letter := by
  induction filled generalizing pool with
  | nil => rfl
  | cons f fs ih => simp [ih]

/-! ## The branches of the actions -/

theorem wordAt_mem (idx : Int) (word : String) (h : wordAt idx = some word) : word ∈ WORDS := by
  unfold wordAt at h
  split at h
  · obtain ⟨hlt, rfl⟩ := List.getElem?_eq_some_iff.mp h
    exact List.getElem_mem hlt
  · cases h

theorem wordAt_some_of_range (idx : Int) (h0 : 0 ≤ idx) (h1 : idx < (WORDS.length : Int)) :
    ∃ word, wordAt idx = some word := by
  unfold wordAt
  rw [if_pos h0]
  have : idx.toNat < WORDS.length := by omega
  exact ⟨WORDS[idx.toNat], List.getElem?_eq_getElem this⟩

theorem wordAt_none_iff (idx : Int) :
    wordAt idx = none ↔ (idx < 0 ∨ idx ≥ (WORDS.length : Int)) := by
  unfold wordAt
  split
  · rw [List.getElem?_eq_none_iff]; omega
  · simp; omega

theorem WORDS_ne_empty (word : String) (h : word ∈ WORDS) : word ≠ "" := by
  simp only [WORDS, List.mem_cons, List.mem_singleton, List.not_mem_nil, or_false] at h
  rcases h with rfl | rfl | rfl | rfl | rfl <;> decide

theorem WORDS_length_le (word : String) (h : word ∈ WORDS) : word.length ≤ TILE_COUNT := by
  simp only [WORDS, List.mem_cons, List.mem_singleton, List.not_mem_nil, or_false] at h
  rcases h with rfl | rfl | rfl | rfl | rfl <;> decide

/-- The two branches of `checkAnswer`. -/
theorem checkAnswer_cases (w : World) :
    (∃ word, activeWord w.state = some word ∧
      String.mk (w.state.filled.map (fun f => f.letter)) = word ∧
      checkAnswer w =
        { setStatus { w with
            checkCalls := w.checkCalls + 1
            state := { w.state with found := setAdd w.state.found word } }
            "Correct!" "good" with timers := w.timers ++ [Timer.afterMatch] }) ∨
    (activeWord w.state ≠ some (String.mk (w.state.filled.map (fun f => f.letter))) ∧
      checkAnswer w =
        { setStatus { w with checkCalls := w.checkCalls + 1 } "Wrong! Try again." "bad" with
            timers := w.timers ++ [Timer.afterWrong] }) := by
  obtain ⟨o, haw⟩ : ∃ o, activeWord w.state = o := ⟨_, rfl⟩
  cases o with
  | none =>
    right
    have haw2 : activeWord { w with checkCalls := w.checkCalls + 1 }.state = none := haw
    refine ⟨by rw [haw]; exact fun h => Option.noConfusion h, ?_⟩
    unfold checkAnswer
    simp only [haw2]
  | some word =>
    have haw2 : activeWord { w with checkCalls := w.checkCalls + 1 }.state = some word := haw
    by_cases hg : String.mk (w.state.filled.map (fun f => f.letter)) = word
    · left
      refine ⟨word, haw, hg, ?_⟩
      unfold checkAnswer
      simp only [haw2]
      rw [if_pos hg]
    · right
      refine ⟨by rw [haw]; exact fun h => hg (Option.some.inj h).symm, ?_⟩
      unfold checkAnswer
      simp only [haw2]
      rw [if_neg hg]

/-- The branches of `tapTile`: nothing, a tile placed, a tile placed and the
answer checked. -/
theorem tapTile_cases (w : World) (id : Nat) :
    tapTile w id = w ∨
    ∃ item word, activeWord w.state = some word ∧ word ≠ "" ∧
      w.state.filled.length < word.length ∧
      w.state.pool.find? (fun p => p.id == id) = some item ∧ item.used = false ∧
      ((w.state.filled.length + 1 ≠ word.length ∧ tapTile w id = placed w id item) ∨
       (w.state.filled.length + 1 = word.length ∧
          tapTile w id = checkAnswer (placed w id item))) := by
  unfold tapTile
  cases haw : activeWord w.state with
  | none => left; rfl
  | some word =>
    simp only []
    by_cases hne : word = ""
    · left; rw [if_pos hne]
    · rw [if_neg hne]
      by_cases hlen : w.state.filled.length ≥ word.length
      · left; rw [if_pos hlen]
      · rw [if_neg hlen]
        cases hfind : w.state.pool.find? (fun p => p.id == id) with
        | none => left; rfl
        | some item =>
          simp only []
          by_cases hused : item.used = true
          · left; rw [if_pos hused]
          · rw [if_neg hused]
            right
            refine ⟨item, word, rfl, hne, by omega, rfl, by simpa using hused, ?_⟩
            by_cases hfull : w.state.filled.length + 1 = word.length
            · right
              refine ⟨hfull, ?_⟩
              have : (placed w id item).state.filled.length = word.length := by
                simp [placed, setStatus, hfull]
              exact if_pos this
            · left
              refine ⟨hfull, ?_⟩
              have : ¬ (placed w id item).state.filled.length = word.length := by
                simp [placed, setStatus, hfull]
              exact if_neg this

/-- The tap that `tapTile_cases` calls effective, when its guards hold. -/
theorem tapTile_of_guards (w : World) (id : Nat) (item : Tile) (word : String)
    (hw : activeWord w.state = some word) (hne : word ≠ "")
    (hlen : w.state.filled.length < word.length)
    (hfind : w.state.pool.find? (fun p => p.id == id) = some item)
    (hused : item.used = false) :
    (w.state.filled.length + 1 ≠ word.length → tapTile w id = placed w id item) ∧
    (w.state.filled.length + 1 = word.length →
      tapTile w id = checkAnswer (placed w id item)) := by
  have hlen2 : ¬ w.state.filled.length ≥ word.length := by omega
  have hused2 : ¬ item.used = true := by simp [hused]
  constructor
  · intro hfull
    have : ¬ (placed w id item).state.filled.length = word.length := by
      simp [placed, setStatus, hfull]
    unfold tapTile
    simp only [hw, hfind, if_neg hne, if_neg hlen2, if_neg hused2]
    exact if_neg this
  · intro hfull
    have : (placed w id item).state.filled.length = word.length := by
      simp [placed, setStatus, hfull]
    unfold tapTile
    simp only [hw, hfind, if_neg hne, if_neg hlen2, if_neg hused2]
    exact if_pos this

/-- The branches of `undo`. -/
theorem undo_cases (w : World) :
    (w.state.filled = [] ∧ undo w = w) ∨
    ∃ last, w.state.filled.getLast? = some last ∧
      undo w = setStatus
        { w with state := { w.state with
            filled := w.state.filled.dropLast
            pool := setUsed w.state.pool last.id false } }
        "" "" := by
  unfold undo
  cases h : w.state.filled.getLast? with
  | none => left; exact ⟨List.getLast?_eq_none_iff.mp h, rfl⟩
  | some last => right; exact ⟨last, rfl, rfl⟩

/-- The function `renderStats` either only writes the hint, or writes the hint and shows the
won variant of the reveal. -/
theorem renderStats_cases (w : World) :
    (∃ hint, renderStats w = { w with hintText := hint } ∧
      ¬ (w.state.found.length = WORDS.length ∧ w.revealedByGiveUp = false)) ∨
    (w.state.found.length = WORDS.length ∧ w.revealedByGiveUp = false ∧
      renderStats w = showReveal { w with hintText := "All done!" } true) := by
  unfold renderStats
  by_cases h : w.state.found.length = WORDS.length ∧ w.revealedByGiveUp = false
  · right; exact ⟨h.1, h.2, if_pos h⟩
  · left
    rw [if_neg h]
    cases activeWord w.state with
    | none => exact ⟨_, rfl, h⟩
    | some wd =>
      simp only []
      by_cases hwd : wd ≠ ""
      · rw [if_pos hwd]; exact ⟨_, rfl, h⟩
      · rw [if_neg hwd]; exact ⟨_, rfl, h⟩

@[simp] theorem renderStats_state (w : World) : (renderStats w).state = w.state := by
  rcases renderStats_cases w with ⟨hint, h, -⟩ | ⟨-, -, h⟩
  · rw [h]
  · rw [h]; rfl

@[simp] theorem render_state (w : World) : (render w).state = w.state :=
  renderStats_state w

@[simp] theorem setStatus_state (w : World) (a b : String) : (setStatus w a b).state = w.state :=
  rfl

@[simp] theorem showReveal_state (w : World) (b : Bool) : (showReveal w b).state = w.state :=
  rfl

@[simp] theorem clearFilled_state (w : World) :
    (clearFilled w).state = { w.state with
      pool := w.state.filled.foldl (fun pool f => setUsed pool f.id false) w.state.pool
      filled := [] } :=
  rfl

@[simp] theorem placed_state (w : World) (id : Nat) (item : Tile) :
    (placed w id item).state = { w.state with
      pool := setUsed w.state.pool id true
      filled := w.state.filled ++ [markUsed item] } :=
  rfl

/-! ## Every turn of the event loop is a `StateStep` -/

theorem State.eq_of_fields (s t : State) (h1 : s.found = t.found)
    (h2 : s.activeIdx = t.activeIdx) (h3 : s.filled = t.filled) (h4 : s.pool = t.pool)
    (h5 : s.nextId = t.nextId) : s = t := by
  cases s; cases t; simp_all

/-- The call `buildPool(activeWord())` after `state.activeIdx` was set to `idx`,
seen from the state `s` before the assignment. -/
theorem buildPool_rebuild (s : State) (w : World) (idx : Int) (word : String)
    (hw : wordAt idx = some word) (hs : w.state = { s with activeIdx := idx }) :
    ∃ w2, buildPool w (activeWord w.state) = some w2 ∧ StateStep s w2.state ∧
      w2.noCount = w.noCount ∧ w2.revealedByGiveUp = w.revealedByGiveUp ∧
      w2.timers = w.timers ∧ w2.saved = w.saved ∧
      w2.checkCalls = w.checkCalls ∧ w2.revealCalls = w.revealCalls := by
  have haw : activeWord w.state = some word := by
    rw [hs]; exact hw
  obtain ⟨w2, letters, hb, hpre, hl, hperm, hids, hunused, hnext, hfilled, hfound, hact,
    g1, g2, g3, g4, g5, g6⟩ := buildPool_some w word
  refine ⟨w2, by rw [haw]; exact hb, ?_, g1, g2, g3, g4, g5, g6⟩
  have hstep := StateStep.rebuild s idx word letters w2.state.pool hw hpre hl hperm
    (by rw [hids, hs]) hunused
  have heq : w2.state = { s with
      activeIdx := idx, pool := w2.state.pool, nextId := s.nextId + letters.length,
      filled := [] } := by
    apply State.eq_of_fields
    · rw [hfound, hs]
    · rw [hact, hs]
    · exact hfilled
    · rfl
    · rw [hnext, hs]
  rw [heq]
  exact hstep

theorem checkAnswer_activeIdx (w : World) :
    (checkAnswer w).state.activeIdx = w.state.activeIdx := by
  rcases checkAnswer_cases w with ⟨word, -, -, h⟩ | ⟨-, h⟩ <;> rw [h] <;> rfl

theorem tapTile_stateStep (w : World) (id : Nat) : StateStep w.state (tapTile w id).state := by
  rcases tapTile_cases w id with h | ⟨item, word, hw, hne, hlen, hfind, hused, h | h⟩
  · rw [h]; exact StateStep.same _
  · rw [h.2]
    exact StateStep.place w.state id item word w.state.found hw hne hlen hfind hused (Or.inl rfl)
  · rw [h.2]
    rcases checkAnswer_cases (placed w id item) with ⟨word2, hw2, hg, hc⟩ | ⟨-, hc⟩
    · have hww : word2 = word := by
        have : activeWord (placed w id item).state = activeWord w.state := rfl
        rw [this, hw] at hw2
        exact (Option.some.inj hw2).symm
      subst hww
      rw [hc]
      exact StateStep.place w.state id item word2 (setAdd w.state.found word2) hw hne hlen hfind
        hused (Or.inr ⟨rfl, h.1, hg⟩)
    · rw [hc]
      exact StateStep.place w.state id item word w.state.found hw hne hlen hfind hused
        (Or.inl rfl)

theorem undo_stateStep (w : World) : StateStep w.state (undo w).state := by
  rcases undo_cases w with ⟨-, h⟩ | ⟨last, hl, h⟩
  · rw [h]; exact StateStep.same _
  · rw [h]; exact StateStep.undo w.state last hl

theorem clearFilled_stateStep (w : World) : StateStep w.state (clearFilled w).state :=
  StateStep.clear w.state

theorem clearAction_stateStep (w : World) : StateStep w.state (clearAction w).state := by
  unfold clearAction
  rw [render_state]
  exact StateStep.clear w.state

theorem afterWrong_stateStep (w : World) : StateStep w.state (afterWrong w).state := by
  unfold afterWrong
  rw [render_state]
  exact StateStep.clear w.state

/-- The function `switchWord` either returns at one of its guards or builds a pool for the
word of `idx`, which is not found. -/
theorem switchWord_cases (w : World) (idx : Int) :
    ((idx < 0 ∨ idx ≥ (WORDS.length : Int) ∨ setHas w.state.found (wordAt idx) = true) ∧
      switchWord w idx = w) ∨
    (0 ≤ idx ∧ idx < (WORDS.length : Int) ∧ setHas w.state.found (wordAt idx) = false ∧
      ∃ w2, buildPool { w with state := { w.state with activeIdx := idx } }
          (wordAt idx) = some w2 ∧
        switchWord w idx = render (setStatus w2 "" "")) := by
  unfold switchWord
  by_cases h1 : idx < 0 ∨ idx ≥ (WORDS.length : Int)
  · left
    rw [if_pos h1]
    exact ⟨by tauto, rfl⟩
  · rw [if_neg h1]
    by_cases h2 : setHas w.state.found (wordAt idx) = true
    · left
      rw [if_pos h2]
      exact ⟨Or.inr (Or.inr h2), rfl⟩
    · rw [if_neg h2]
      right
      have h0 : 0 ≤ idx := by omega
      have h5 : idx < (WORDS.length : Int) := by omega
      obtain ⟨word, hword⟩ := wordAt_some_of_range idx h0 h5
      obtain ⟨w2, hb, -⟩ := buildPool_rebuild w.state
        { w with state := { w.state with activeIdx := idx } } idx word hword rfl
      refine ⟨h0, h5, by simpa using h2, w2, hb, ?_⟩
      simp only []
      rw [hb]

theorem switchWord_stateStep (w : World) (idx : Int) :
    StateStep w.state (switchWord w idx).state := by
  rcases switchWord_cases w idx with ⟨-, h⟩ | ⟨h0, h5, -, w2, hb, h⟩
  · rw [h]; exact StateStep.same _
  · obtain ⟨word, hword⟩ := wordAt_some_of_range idx h0 h5
    obtain ⟨w3, hb3, hstep, -⟩ := buildPool_rebuild w.state
      { w with state := { w.state with activeIdx := idx } } idx word hword rfl
    have : w3 = w2 := Option.some.inj (hb3.symm.trans hb)
    subst this
    rw [h, render_state, setStatus_state]
    exact hstep

theorem skipWordLoop_stateStep (w : World) (k i : Nat) :
    StateStep w.state (skipWordLoop w k i).state := by
  induction k generalizing i with
  | zero => exact StateStep.same _
  | succ k ih =>
    simp only [skipWordLoop]
    split
    · exact switchWord_stateStep w _
    · exact ih (i + 1)

theorem skipWord_stateStep (w : World) : StateStep w.state (skipWord w).state :=
  skipWordLoop_stateStep w _ _

theorem giveUp_stateStep (w : World) : StateStep w.state (giveUp w).state := by
  unfold giveUp
  simp only [render_state]
  exact StateStep.giveUp w.state

/-- The index chosen by `pickNextUnfound` is an index of `WORDS`. -/
theorem pickNextUnfound_wordAt (w : World) :
    ∃ word, wordAt (pickNextUnfound w).state.activeIdx = some word := by
  unfold pickNextUnfound
  simp only []
  cases h : WORDS.findIdx? (fun x => !(w.state.found.contains x)) with
  | none => exact ⟨"WILL", rfl⟩
  | some i =>
    simp only []
    have hlt : i < WORDS.length := by
      have := List.findIdx?_eq_some_iff_getElem.mp h
      exact this.1
    exact wordAt_some_of_range i (by omega) (by omega)

/-- The branches of the callback of a match. -/
theorem afterMatch_cases (w : World) :
    (¬ w.state.found.length < WORDS.length ∧ afterMatch w = render w) ∨
    (w.state.found.length < WORDS.length ∧
      ∃ w2, buildPool (pickNextUnfound w) (activeWord (pickNextUnfound w).state) = some w2 ∧
        afterMatch w = render (setStatus w2 "" "")) := by
  unfold afterMatch
  by_cases h : w.state.found.length < WORDS.length
  · right
    rw [if_pos h]
    obtain ⟨word, hword⟩ := pickNextUnfound_wordAt w
    obtain ⟨w2, hb, -⟩ := buildPool_rebuild w.state (pickNextUnfound w)
      (pickNextUnfound w).state.activeIdx word hword rfl
    refine ⟨h, w2, hb, ?_⟩
    simp only []
    rw [hb]
  · left
    rw [if_neg h]
    exact ⟨h, rfl⟩

theorem afterMatch_stateStep (w : World) : StateStep w.state (afterMatch w).state := by
  rcases afterMatch_cases w with ⟨-, h⟩ | ⟨-, w2, hb, h⟩
  · rw [h, render_state]; exact StateStep.same _
  · obtain ⟨word, hword⟩ := pickNextUnfound_wordAt w
    obtain ⟨w3, hb3, hstep, -⟩ := buildPool_rebuild w.state (pickNextUnfound w)
      (pickNextUnfound w).state.activeIdx word hword rfl
    have : w3 = w2 := Option.some.inj (hb3.symm.trans hb)
    subst this
    rw [h, render_state, setStatus_state]
    exact hstep

/-- The branches of the end of `submitNickname`. -/
theorem submitNickname_cases (w : World) :
    (activeWord w.state = none ∧ submitNickname w = w) ∨
    (∃ word w2, activeWord w.state = some word ∧ buildPool w (some word) = some w2 ∧
      submitNickname w = render w2) := by
  unfold submitNickname
  cases haw : activeWord w.state with
  | none => left; exact ⟨rfl, rfl⟩
  | some word =>
    right
    obtain ⟨w2, -, hb, -⟩ := buildPool_some w word
    exact ⟨word, w2, rfl, hb, by rw [hb]⟩

theorem submitNickname_stateStep (w : World) :
    StateStep w.state (submitNickname w).state := by
  rcases submitNickname_cases w with ⟨-, h⟩ | ⟨word, w2, haw, hb, h⟩
  · rw [h]; exact StateStep.same _
  · obtain ⟨w3, hb3, hstep, -⟩ := buildPool_rebuild w.state w w.state.activeIdx word haw rfl
    rw [haw] at hb3
    have : w3 = w2 := Option.some.inj (hb3.symm.trans hb)
    subst this
    rw [h, render_state]
    exact hstep

@[simp] theorem addHeart_state (w : World) (count : Nat) : (addHeart w count).state = w.state := by
  unfold addHeart
  split <;> rfl

@[simp] theorem handleYes_state (w : World) : (handleYes w).state = w.state := by
  unfold handleYes spawnHearts saveAnswer
  simp

@[simp] theorem handleNo_state (w : World) : (handleNo w).state = w.state := by
  unfold handleNo
  simp only []
  split
  · rfl
  · split <;> rfl

theorem keydownUpper_stateStep (w : World) (tagName key upper : String) :
    StateStep w.state (keydownUpper w tagName key upper).state := by
  unfold keydownUpper
  split
  · exact StateStep.same _
  · split
    · exact undo_stateStep w
    · split
      · exact clearAction_stateStep w
      · split
        · split
          · split
            · exact tapTile_stateStep w _
            · exact StateStep.same _
          · exact StateStep.same _
        · exact StateStep.same _

theorem keydown_stateStep (w : World) (tagName key : String) :
    StateStep w.state (keydown w tagName key).state :=
  keydownUpper_stateStep w tagName key _

theorem runTimer_stateStep (w : World) (t : Timer) : StateStep w.state (runTimer w t).state := by
  cases t with
  | afterMatch => exact afterMatch_stateStep w
  | afterWrong => exact afterWrong_stateStep w
  | giveUpReveal => exact StateStep.same _
  | closeWindow => exact StateStep.same _
  | addHeart count =>
    show StateStep w.state (addHeart w count).state
    rw [addHeart_state]; exact StateStep.same _

theorem step_stateStep (w : World) (e : Event) : StateStep w.state (step w e).state := by
  cases e with
  | tapTile id => exact tapTile_stateStep w id
  | keydown tagName key => exact keydown_stateStep w tagName key
  | undo => exact undo_stateStep w
  | clearAction => exact clearAction_stateStep w
  | skipWord => exact skipWord_stateStep w
  | giveUp => exact giveUp_stateStep w
  | handleYes => show StateStep w.state (handleYes w).state; rw [handleYes_state]; exact StateStep.same _
  | handleNo => show StateStep w.state (handleNo w).state; rw [handleNo_state]; exact StateStep.same _
  | switchWord idx => exact switchWord_stateStep w idx
  | submitNickname => exact submitNickname_stateStep w
  | fire k =>
    show StateStep w.state (match w.timers[k]? with
      | none => w
      | some t => runTimer { w with timers := w.timers.eraseIdx k } t).state
    cases w.timers[k]? with
    | none => exact StateStep.same _
    | some t => exact runTimer_stateStep { w with timers := w.timers.eraseIdx k } t

/-! ## The found set, and the invariant of reachable worlds -/

theorem mem_setAdd (found : List String) (x y : String) :
    y ∈ setAdd found x ↔ y ∈ found ∨ y = x := by
  unfold setAdd
  split
  · rename_i h
    have hx : x ∈ found := by simpa using h
    constructor
    · exact Or.inl
    · rintro (h1 | rfl)
      · exact h1
      · exact hx
  · simp

theorem setAdd_nodup (found : List String) (x : String) (h : found.Nodup) :
    (setAdd found x).Nodup := by
  unfold setAdd
  split
  · exact h
  · rename_i hx
    have hx2 : x ∉ found := by simpa using hx
    rw [List.nodup_append]
    refine ⟨h, List.nodup_singleton x, ?_⟩
    intro a ha hb
    rw [List.mem_singleton] at hb
    exact hx2 (hb ▸ ha)

theorem setAdd_of_not_mem (found : List String) (x : String) (h : x ∉ found) :
    setAdd found x = found ++ [x] := by
  unfold setAdd
  rw [if_neg]
  simpa using h

theorem mem_foldl_setAdd (l found : List String) (y : String) :
    y ∈ l.foldl setAdd found ↔ y ∈ found ∨ y ∈ l := by
  induction l generalizing found with
  | nil => simp
  | cons a l ih =>
    rw [List.foldl_cons, ih, mem_setAdd, List.mem_cons]
    tauto

theorem foldl_setAdd_nodup (l found : List String) (h : found.Nodup) :
    (l.foldl setAdd found).Nodup := by
  induction l generalizing found with
  | nil => exact h
  | cons a l ih => exact ih _ (setAdd_nodup found a h)

theorem Inv_step (s t : State) (hst : StateStep s t) (h : Inv s) : Inv t := by
  obtain ⟨hsub, hnd, hids, hused⟩ := h
  cases hst with
  | same => exact ⟨hsub, hnd, hids, hused⟩
  | place id item word found hw hne hlen hfind hitem hfound =>
    obtain ⟨hmem, hid⟩ := find_some_mem _ _ _ hfind
    refine ⟨?_, ?_, by simpa using hids, ?_⟩
    · rcases hfound with rfl | ⟨rfl, -, -⟩
      · exact hsub
      · intro x hx
        rcases (mem_setAdd _ _ _).mp hx with h1 | rfl
        · exact hsub x h1
        · exact wordAt_mem _ _ hw
    · rcases hfound with rfl | ⟨rfl, -, -⟩
      · exact hnd
      · exact setAdd_nodup _ _ hnd
    · intro p hp hpu
      rw [setUsed_eq_map _ _ _ hids] at hp
      obtain ⟨q, hq, rfl⟩ := List.mem_map.mp hp
      simp only [List.map_append, List.map_cons, List.map_nil, List.mem_append,
        List.mem_singleton, markUsed]
      by_cases hqi : q.id = id
      · right; simp [hqi, hid]
      · left
        simp only [hqi, if_false] at hpu ⊢
        exact hused q hq hpu
  | undo last hl =>
    refine ⟨hsub, hnd, by simpa using hids, ?_⟩
    intro p hp hpu
    rw [setUsed_eq_map _ _ _ hids] at hp
    obtain ⟨q, hq, rfl⟩ := List.mem_map.mp hp
    by_cases hqi : q.id = last.id
    · simp [hqi] at hpu
    · simp only [hqi, if_false] at hpu ⊢
      have := hused q hq hpu
      have hsplit : s.filled = s.filled.dropLast ++ [last] := by
        have h1 := List.dropLast_append_getLast? last (Option.mem_def.mpr hl)
        exact h1.symm
      rw [hsplit] at this
      simp only [List.map_append, List.map_cons, List.map_nil, List.mem_append,
        List.mem_singleton] at this
      rcases this with h1 | h1
      · exact h1
      · exact absurd h1 hqi
  | clear =>
    refine ⟨hsub, hnd, by simpa using hids, ?_⟩
    intro p hp hpu
    rw [clear_pool_eq_map _ _ hids] at hp
    obtain ⟨q, hq, rfl⟩ := List.mem_map.mp hp
    by_cases hqi : q.id ∈ s.filled.map Tile.id
    · simp [hqi] at hpu
    · simp only [hqi, if_false] at hpu
      exact absurd (hused q hq hpu) hqi
  | rebuild idx word letters pool hw hpre hlen hperm hids2 hunused =>
    refine ⟨hsub, hnd, ?_, ?_⟩
    · show (pool.map Tile.id).Nodup
      rw [hids2]; exact List.nodup_range' _ _
    · intro p hp hpu
      have := hunused p hp
      rw [this] at hpu
      cases hpu
  | giveUp =>
    refine ⟨?_, foldl_setAdd_nodup _ _ hnd, hids, hused⟩
    intro x hx
    rcases (mem_foldl_setAdd _ _ _).mp hx with h1 | h1
    · exact hsub x h1
    · exact h1

theorem run_append (w : World) (evs : List Event) (e : Event) :
    run w (evs ++ [e]) = step (run w evs) e := by
  simp [run, List.foldl_append]

theorem run_cons (w : World) (evs : List Event) (e : Event) :
    run w (e :: evs) = run (step w e) evs := rfl

theorem Reachable.after_step {w : World} (h : Reachable w) (e : Event) : Reachable (step w e) := by
  obtain ⟨r, evs, rfl⟩ := h
  exact ⟨r, evs ++ [e], (run_append _ _ _).symm⟩

theorem Reachable.after_run {w : World} (h : Reachable w) (evs : List Event) :
    Reachable (run w evs) := by
  induction evs generalizing w with
  | nil => exact h
  | cons e evs ih => exact ih (h.after_step e)

/-- Induction over the runs of the event loop. -/
theorem Reachable.induct {P : World → Prop} (h0 : ∀ r, P (initWorld r))
    (hstep : ∀ w e, Reachable w → P w → P (step w e)) {w : World} (h : Reachable w) : P w := by
  obtain ⟨r, evs, rfl⟩ := h
  induction evs using List.reverseRecOn with
  | nil => exact h0 r
  | append_singleton evs e ih =>
    rw [run_append]
    exact hstep _ e ⟨r, evs, rfl⟩ ih

theorem Inv_init (r : Rand) : Inv (initWorld r).state := by
  refine ⟨?_, List.nodup_nil, List.nodup_nil, ?_⟩
  · intro x hx; cases hx
  · intro p hp; cases hp

theorem Reachable.inv {w : World} (h : Reachable w) : Inv w.state :=
  Reachable.induct (P := fun w => Inv w.state) Inv_init
    (fun w e _ hw => Inv_step _ _ (step_stateStep w e) hw) h

theorem Inv_run (w : World) (evs : List Event) (h : Inv w.state) : Inv (run w evs).state := by
  induction evs generalizing w with
  | nil => exact h
  | cons e evs ih => exact ih (step w e) (Inv_step _ _ (step_stateStep w e) h)

theorem sampleWorld_reachable : Reachable sampleWorld :=
  ⟨sampleRand, [Event.submitNickname], rfl⟩

/-! ## Placing tiles -/

/-- Firing the `k`-th pending timer removes it and runs its callback. -/
theorem step_fire (w : World) (k : Nat) (t : Timer) (hk : w.timers[k]? = some t) :
    step w (Event.fire k) = runTimer { w with timers := w.timers.eraseIdx k } t := by
  show (match w.timers[k]? with
    | none => w
    | some t => runTimer { w with timers := w.timers.eraseIdx k } t) = _
  rw [hk]

theorem step_fire_afterWrong (w : World) (k : Nat) (hk : w.timers[k]? = some Timer.afterWrong) :
    step w (Event.fire k) = afterWrong { w with timers := w.timers.eraseIdx k } :=
  step_fire w k Timer.afterWrong hk

theorem step_fire_afterMatch (w : World) (k : Nat) (hk : w.timers[k]? = some Timer.afterMatch) :
    step w (Event.fire k) = afterMatch { w with timers := w.timers.eraseIdx k } :=
  step_fire w k Timer.afterMatch hk

/-- The timer that was scheduled last is the one at the old length of the list. -/
theorem timers_last (ts : List Timer) (t : Timer) : (ts ++ [t])[ts.length]? = some t := by
  simp

/-- The world in which `tapTile` calls `checkAnswer` is well formed. -/
theorem placed_inv (w : World) (id : Nat) (item : Tile) (word : String) (hinv : Inv w.state)
    (hw : activeWord w.state = some word) (hne : word ≠ "")
    (hlen : w.state.filled.length < word.length)
    (hfind : w.state.pool.find? (fun p => p.id == id) = some item)
    (hused : item.used = false) : Inv (placed w id item).state :=
  Inv_step _ _
    (StateStep.place w.state id item word w.state.found hw hne hlen hfind hused (Or.inl rfl))
    hinv

theorem run_taps (w : World) (ids : List Nat) :
    run w (ids.map Event.tapTile) = ids.foldl tapTile w := by
  induction ids generalizing w with
  | nil => rfl
  | cons i ids ih => exact ih (tapTile w i)

/-- A tile of the pool other than the one written is still in the pool. -/
theorem mem_setUsed_of_ne (pool : List Tile) (id : Nat) (b : Bool) (t : Tile)
    (hnd : (pool.map Tile.id).Nodup) (ht : t ∈ pool) (hne : t.id ≠ id) :
    t ∈ setUsed pool id b := by
  rw [setUsed_eq_map _ _ _ hnd, List.mem_map]
  exact ⟨t, ht, by simp [hne]⟩

/-- Effective taps that do not fill the placement: the tiles are marked and
pushed in order; no answer is checked and no timer is set. -/
theorem taps_prefix (word : String) (ts : List Tile) (w : World)
    (hnd : (w.state.pool.map Tile.id).Nodup) (hw : activeWord w.state = some word)
    (hne : word ≠ "") (hts : ∀ t ∈ ts, t ∈ w.state.pool ∧ t.used = false)
    (hdist : (ts.map Tile.id).Nodup)
    (hlen : w.state.filled.length + ts.length < word.length) :
    ((ts.map Tile.id).foldl tapTile w).state = { w.state with
        pool := w.state.pool.map (fun p => if p.id ∈ ts.map Tile.id then markUsed p else p)
        filled := w.state.filled ++ ts.map markUsed } ∧
      ((ts.map Tile.id).foldl tapTile w).timers = w.timers ∧
      ((ts.map Tile.id).foldl tapTile w).checkCalls = w.checkCalls ∧
      ((ts.map Tile.id).foldl tapTile w).revealCalls = w.revealCalls ∧
      ((ts.map Tile.id).foldl tapTile w).revealedByGiveUp = w.revealedByGiveUp := by
  induction ts generalizing w with
  | nil =>
    refine ⟨?_, rfl, rfl, rfl, rfl⟩
    apply State.eq_of_fields <;> simp
  | cons t rest ih =>
    have ht := hts t (List.mem_cons_self _ _)
    have hfind := find_of_mem _ t hnd ht.1
    simp only [List.length_cons] at hlen
    have htap : tapTile w t.id = placed w t.id t :=
      (tapTile_of_guards w t.id t word hw hne (by omega) hfind ht.2).1 (by omega)
    simp only [List.map_cons, List.nodup_cons] at hdist
    simp only [List.map_cons, List.foldl_cons]
    rw [htap]
    obtain ⟨h1, h2, h3, h4, h5⟩ := ih (placed w t.id t) (by simpa using hnd) hw
      (by
        intro t2 ht2
        have h2 := hts t2 (List.mem_cons_of_mem _ ht2)
        refine ⟨?_, h2.2⟩
        rw [placed_state]
        refine mem_setUsed_of_ne _ _ _ _ hnd h2.1 ?_
        intro he
        exact hdist.1 (he ▸ List.mem_map_of_mem Tile.id ht2))
      hdist.2
      (by rw [placed_state]; simp; omega)
    refine ⟨?_, h2, h3, h4, h5⟩
    rw [h1]
    apply State.eq_of_fields
    · rfl
    · rfl
    · simp
    · simp only [placed_state, setUsed_eq_map _ _ _ hnd, List.map_map]
      apply List.map_congr_left
      intro p _
      by_cases hp : p.id = t.id
      · simp [hp, markUsed]
      · by_cases hp2 : p.id ∈ rest.map Tile.id
        · have hp3 := hp2
          simp only [List.mem_map] at hp3
          simp [hp, hp2, hp3]
        · have hp3 := hp2
          simp only [List.mem_map] at hp3
          simp [hp, hp3]
    · rfl

/-- The cardinality test of the callbacks: with a well-formed found set,
`found.size < WORDS.length` says that some word is not found. -/
theorem found_length_lt_iff (s : State) (h : Inv s) :
    s.found.length < WORDS.length ↔ ∃ x ∈ WORDS, x ∉ s.found := by
  obtain ⟨hsub, hnd, -, -⟩ := h
  have hsp : s.found.Subperm WORDS := List.subperm_of_subset hnd hsub
  constructor
  · intro hlt
    by_contra hall
    push_neg at hall
    have hW : WORDS.Nodup := by decide
    have := (List.subperm_of_subset hW hall).length_le
    omega
  · rintro ⟨x, hx, hnx⟩
    by_contra hge
    have hperm := hsp.perm_of_length_le (by omega)
    exact hnx (hperm.mem_iff.mpr hx)

/-- The callback of a match, on a well-formed state. -/
theorem afterMatch_spec (w : World) (hinv : Inv w.state) :
    ((∃ x ∈ WORDS, x ∉ w.state.found) →
      ∃ (i : Nat) (word : String), WORDS[i]? = some word ∧ word ∉ w.state.found ∧
        (∀ j v, j < i → WORDS[j]? = some v → v ∈ w.state.found) ∧
        (afterMatch w).state.activeIdx = (i : Int) ∧
        (afterMatch w).state.filled = [] ∧
        (afterMatch w).state.pool.map Tile.id = List.range' w.state.nextId TILE_COUNT ∧
        (∀ t ∈ (afterMatch w).state.pool, t.used = false) ∧
        (∀ c, word.toList.count c ≤ ((afterMatch w).state.pool.map Tile.letter).count c) ∧
        (afterMatch w).state.nextId = w.state.nextId + TILE_COUNT ∧
        (afterMatch w).state.found = w.state.found) ∧
    ((∀ x ∈ WORDS, x ∈ w.state.found) → (afterMatch w).state = w.state) := by
  constructor
  · intro hex
    have hlt := (found_length_lt_iff _ hinv).mpr hex
    rcases afterMatch_cases w with ⟨hn, -⟩ | ⟨-, w2, hb, hw2⟩
    · exact absurd hlt hn
    · cases hfi : WORDS.findIdx? (fun x => !(w.state.found.contains x)) with
      | none =>
        exfalso
        rw [List.findIdx?_eq_none_iff] at hfi
        obtain ⟨x, hx, hnx⟩ := hex
        have := hfi x hx
        simp at this
        exact hnx this
      | some i =>
        obtain ⟨hi, hp, hmin⟩ := List.findIdx?_eq_some_iff_getElem.mp hfi
        have hact : (pickNextUnfound w).state.activeIdx = (i : Int) := by
          unfold pickNextUnfound
          simp only [hfi]
        have hword : activeWord (pickNextUnfound w).state = some WORDS[i] := by
          unfold activeWord wordAt
          rw [hact, if_pos (by omega)]
          simp [List.getElem?_eq_getElem hi]
        rw [hword] at hb
        obtain ⟨w3, letters, hb3, ⟨extra, hpre⟩, hl, hperm, hids, hunused, hnext, hfilled,
          hfound, hidx, -⟩ := buildPool_some (pickNextUnfound w) WORDS[i]
        have : w3 = w2 := Option.some.inj (hb3.symm.trans hb)
        subst this
        have hlen : letters.length = TILE_COUNT :=
          hl (WORDS_length_le _ (List.getElem_mem hi))
        refine ⟨i, WORDS[i], List.getElem?_eq_getElem hi, by simpa using hp, ?_, ?_, ?_, ?_,
          ?_, ?_, ?_, ?_⟩
        · intro j v hj hv
          obtain ⟨hjlt, rfl⟩ := List.getElem?_eq_some_iff.mp hv
          have := hmin j hj
          simpa using this
        · rw [hw2, render_state, setStatus_state, hidx, hact]
        · rw [hw2, render_state, setStatus_state, hfilled]
        · rw [hw2, render_state, setStatus_state, hids, hlen]; rfl
        · rw [hw2, render_state, setStatus_state]; exact hunused
        · intro c
          rw [hw2, render_state, setStatus_state, hperm.count_eq, hpre, List.count_append]
          exact Nat.le_add_right _ _
        · rw [hw2, render_state, setStatus_state, hnext, hlen]; rfl
        · rw [hw2, render_state, setStatus_state, hfound]; rfl
  · intro hall
    have hn : ¬ w.state.found.length < WORDS.length := by
      intro hlt
      obtain ⟨x, hx, hnx⟩ := (found_length_lt_iff _ hinv).mp hlt
      exact hnx (hall x hx)
    rcases afterMatch_cases w with ⟨-, h⟩ | ⟨hlt, -⟩
    · rw [h, render_state]
    · exact absurd hlt hn

/-! ## What `checkAnswer` leaves alone -/

theorem checkAnswer_frame (w : World) :
    (checkAnswer w).checkCalls = w.checkCalls + 1 ∧
    (checkAnswer w).state.filled = w.state.filled ∧
    (checkAnswer w).state.pool = w.state.pool ∧
    (checkAnswer w).state.activeIdx = w.state.activeIdx ∧
    (checkAnswer w).state.nextId = w.state.nextId ∧
    (checkAnswer w).revealCalls = w.revealCalls ∧
    (checkAnswer w).revealedByGiveUp = w.revealedByGiveUp := by
  rcases checkAnswer_cases w with ⟨word, -, -, h⟩ | ⟨-, h⟩ <;> rw [h] <;>
    exact ⟨rfl, rfl, rfl, rfl, rfl, rfl, rfl⟩

/-- What a tap does to the placement, the active index and the count of checks. -/
theorem tapTile_summary (w : World) (id : Nat) :
    (tapTile w id).state.activeIdx = w.state.activeIdx ∧
    (((tapTile w id).state.filled = w.state.filled ∧
        (tapTile w id).checkCalls = w.checkCalls) ∨
     (∃ item word, activeWord w.state = some word ∧
        (tapTile w id).state.filled = w.state.filled ++ [markUsed item] ∧
        w.state.filled.length < word.length ∧
        (tapTile w id).checkCalls =
          w.checkCalls + (if w.state.filled.length + 1 = word.length then 1 else 0))) := by
  rcases tapTile_cases w id with h | ⟨item, word, hw, hne, hlen, hfind, hused, h | h⟩
  · rw [h]; exact ⟨rfl, Or.inl ⟨rfl, rfl⟩⟩
  · rw [h.2]
    refine ⟨rfl, Or.inr ⟨item, word, hw, rfl, hlen, ?_⟩⟩
    rw [if_neg h.1]; rfl
  · rw [h.2]
    obtain ⟨h1, h2, -, h4, -⟩ := checkAnswer_frame (placed w id item)
    refine ⟨h4, Or.inr ⟨item, word, hw, by rw [h2]; rfl, hlen, ?_⟩⟩
    rw [if_pos h.1, h1]; rfl

/-! ## C2 -/

/-- C2: in a reachable world whose active word is not yet found and whose
placement is empty, tapping in order distinct unused tiles of the pool whose
letters spell the word adds the word to the found set and schedules the
callback of a match; the taps themselves reset nothing (the pool keeps its ids
and letters in order, the placement holds the tapped tiles and is full,
`activeIdx` and `nextId` are unchanged); the callback, when its timer fires,
rebuilds pool and placement if a word is left to advance to, and leaves
`state` alone if none is. -/
theorem match_round_trip (w : World) (word : String) (ts : List Tile)
    (hr : Reachable w) (hw : activeWord w.state = some word)
    (hnf : word ∉ w.state.found) (hempty : w.state.filled = [])
    (hts : ∀ t ∈ ts, t ∈ w.state.pool ∧ t.used = false)
    (hdist : (ts.map Tile.id).Nodup)
    (hspell : ts.map Tile.letter = word.toList) :
    let w1 := run w (ts.map (fun t => Event.tapTile t.id))
    w1.state.found = w.state.found ++ [word] ∧
    w1.state.pool.map Tile.id = w.state.pool.map Tile.id ∧
    w1.state.pool.map Tile.letter = w.state.pool.map Tile.letter ∧
    w1.state.filled = ts.map markUsed ∧
    w1.state.filled.length = word.length ∧
    w1.state.activeIdx = w.state.activeIdx ∧
    w1.state.nextId = w.state.nextId ∧
    w1.timers = w.timers ++ [Timer.afterMatch] ∧
    w1.checkCalls = w.checkCalls + 1 ∧
    ((∃ x ∈ WORDS, x ∉ w1.state.found) →
      (step w1 (Event.fire w.timers.length)).state.filled = [] ∧
      (step w1 (Event.fire w.timers.length)).state.pool.map Tile.id
        = List.range' w.state.nextId TILE_COUNT) ∧
    ((∀ x ∈ WORDS, x ∈ w1.state.found) →
      (step w1 (Event.fire w.timers.length)).state = w1.state) := by
  intro w1
  have hinv1 : Inv w1.state := (hr.after_run _).inv
  have hw1 : w1 = (ts.map Tile.id).foldl tapTile w := by
    show run w (ts.map (fun t => Event.tapTile t.id)) = _
    rw [← run_taps, List.map_map]; rfl
  have hnd := hr.inv.2.2.1
  have hne : word ≠ "" := WORDS_ne_empty _ (wordAt_mem _ _ hw)
  have hlen : ts.length = word.length := by
    have := congrArg List.length hspell
    rw [List.length_map] at this
    exact this
  have hpos : 0 < word.length := by
    rcases Nat.eq_zero_or_pos word.length with h0 | h0
    · exfalso
      apply hne
      have : word.data = [] := List.length_eq_zero.mp h0
      cases word
      simp_all
    · exact h0
  have htsne : ts ≠ [] := by
    intro h; rw [h] at hlen; simp at hlen; omega
  have hsplit := List.dropLast_append_getLast htsne
  generalize ts.dropLast = front at hsplit
  generalize ts.getLast htsne = last at hsplit
  subst hsplit
  simp only [List.map_append, List.map_cons, List.map_nil, List.foldl_append, List.foldl_cons,
    List.foldl_nil] at hw1
  simp only [List.length_append, List.length_singleton] at hlen
  have hdist2 := hdist
  simp only [List.map_append, List.map_cons, List.map_nil] at hdist2
  rw [List.nodup_append] at hdist2
  obtain ⟨hdf, -, hdisj⟩ := hdist2
  obtain ⟨p1, p2, p3, -, -⟩ := taps_prefix word front w hnd hw hne
    (fun t ht => hts t (List.mem_append_left _ ht)) hdf (by rw [hempty]; simp; omega)
  generalize (front.map Tile.id).foldl tapTile w = wp at hw1 p1 p2 p3
  have hlast := hts last (List.mem_append_right _ (List.mem_singleton_self _))
  have hlastid : last.id ∉ front.map Tile.id := fun h =>
    hdisj h (List.mem_singleton_self _)
  have hwpw : activeWord wp.state = some word := by rw [p1]; exact hw
  have hwpnd : (wp.state.pool.map Tile.id).Nodup := by
    rw [p1]; simpa [List.map_map, Function.comp_def, apply_ite, markUsed] using hnd
  have hlastmem : last ∈ wp.state.pool := by
    rw [p1]
    exact List.mem_map.mpr ⟨last, hlast.1, if_neg hlastid⟩
  have hwplen : wp.state.filled.length = front.length := by
    rw [p1, hempty]; simp
  have htap : tapTile wp last.id = checkAnswer (placed wp last.id last) :=
    (tapTile_of_guards wp last.id last word hwpw hne (by omega)
      (find_of_mem _ _ hwpnd hlastmem) hlast.2).2 (by omega)
  have hguess : String.mk ((placed wp last.id last).state.filled.map (fun f => f.letter))
      = word := by
    rw [placed_state, p1, hempty]
    have : (([] ++ front.map markUsed) ++ [markUsed last]).map (fun f : Tile => f.letter)
        = (front ++ [last]).map Tile.letter := by
      simp [List.map_map, Function.comp_def, markUsed]
    rw [this, hspell]
    cases word
    rfl
  have hfoundp : wp.state.found = w.state.found := by rw [p1]
  rcases checkAnswer_cases (placed wp last.id last) with ⟨word2, hw2, -, hc⟩ | ⟨hbad, -⟩
  · have hww : word2 = word := by
      have : activeWord (placed wp last.id last).state = activeWord wp.state := rfl
      rw [this, hwpw] at hw2
      exact (Option.some.inj hw2).symm
    subst hww
    have hw1eq := hw1.trans (htap.trans hc)
    have hfound1 : w1.state.found = w.state.found ++ [word2] := by
      rw [hw1eq]
      show setAdd wp.state.found word2 = _
      rw [hfoundp]
      exact setAdd_of_not_mem _ _ hnf
    have hnext1 : w1.state.nextId = w.state.nextId := by
      rw [hw1eq]
      show wp.state.nextId = _
      rw [p1]
    have htimers1 : w1.timers = w.timers ++ [Timer.afterMatch] := by
      rw [hw1eq]
      show wp.timers ++ [Timer.afterMatch] = _
      rw [p2]
    have hfire : step w1 (Event.fire w.timers.length)
        = afterMatch { w1 with timers := w1.timers.eraseIdx w.timers.length } :=
      step_fire w1 _ Timer.afterMatch (by rw [htimers1]; exact timers_last _ _)
    obtain ⟨hadv, hstay⟩ :=
      afterMatch_spec { w1 with timers := w1.timers.eraseIdx w.timers.length } hinv1
    rw [← hfire] at hadv hstay
    refine ⟨hfound1, ?_, ?_, ?_, ?_, ?_, hnext1, htimers1, ?_, ?_, hstay⟩
    · rw [hw1eq]
      show (setUsed wp.state.pool last.id true).map Tile.id = _
      rw [setUsed_map_id, p1]
      simp [List.map_map, Function.comp_def, apply_ite, markUsed]
    · rw [hw1eq]
      show (setUsed wp.state.pool last.id true).map Tile.letter = _
      rw [setUsed_map_letter, p1]
      simp [List.map_map, Function.comp_def, apply_ite, markUsed]
    · rw [hw1eq]
      show wp.state.filled ++ [markUsed last] = _
      rw [p1, hempty]; simp
    · rw [hw1eq]
      show (wp.state.filled ++ [markUsed last]).length = _
      rw [List.length_append, hwplen]; simpa using hlen
    · rw [hw1eq]
      show wp.state.activeIdx = _
      rw [p1]
    · rw [hw1eq]
      show wp.checkCalls + 1 = _
      rw [p3]
    · intro hex
      obtain ⟨i, wd, -, -, -, -, hf, hids, -, -, hn, -⟩ := hadv hex
      exact ⟨hf, by rw [hids]; exact congrArg (fun n => List.range' n TILE_COUNT) hnext1⟩
  · exfalso
    apply hbad
    have : activeWord (placed wp last.id last).state = activeWord wp.state := rfl
    rw [this, hwpw, hguess]

/-- C2 on `sampleWorld`: tapping `W`, `I`, `L`, `L`. -/
theorem match_round_trip_witness :
    Reachable sampleWorld ∧
    (run sampleWorld (sampleTiles.map (fun t => Event.tapTile t.id))).state.found
      = sampleWorld.state.found ++ ["WILL"] ∧
    (run sampleWorld (sampleTiles.map (fun t => Event.tapTile t.id))).state.filled
      = sampleTiles.map markUsed :=
  have h := match_round_trip sampleWorld "WILL" sampleTiles
    ⟨sampleRand, [Event.submitNickname], rfl⟩ (by decide) (by decide) (by decide)
    (by decide) (by decide) (by decide)
  ⟨⟨sampleRand, [Event.submitNickname], rfl⟩, h.1, h.2.2.2.1⟩

/-! ## C3 -/

/-- The callback of a wrong guess on a well-formed state: the placement is
empty, every tile is unused, the pool keeps its ids and letters in order. -/
theorem afterWrong_spec (w : World) (hinv : Inv w.state) :
    (afterWrong w).state.filled = [] ∧
    (∀ t ∈ (afterWrong w).state.pool, t.used = false) ∧
    (afterWrong w).state.pool.map Tile.id = w.state.pool.map Tile.id ∧
    (afterWrong w).state.pool.map Tile.letter = w.state.pool.map Tile.letter ∧
    (afterWrong w).state.nextId = w.state.nextId ∧
    (afterWrong w).state.found = w.state.found ∧
    (afterWrong w).state.activeIdx = w.state.activeIdx := by
  obtain ⟨-, -, hids, hused⟩ := hinv
  unfold afterWrong
  rw [render_state, clearFilled_state]
  refine ⟨rfl, ?_, by simp, by simp, rfl, rfl, rfl⟩
  intro t ht
  simp only [] at ht
  rw [clear_pool_eq_map _ _ hids] at ht
  obtain ⟨q, hq, rfl⟩ := List.mem_map.mp ht
  by_cases hqi : q.id ∈ w.state.filled.map Tile.id
  · rw [if_pos hqi]
  · rw [if_neg hqi]
    cases hu : q.used with
    | false => rfl
    | true => exact absurd (hused q hq hu) hqi

/-- C3: in a world with a well-formed state whose placement is full and
spells something other than the active word, `checkAnswer` adds nothing to the
found set (it leaves the whole of `state` alone) and schedules the reset; when
the timer of the reset fires, the placement is empty, every tile of the pool
is unused, and the pool has the same ids and letters in the same order, with
`nextId` unchanged.  When other events run before a reset timer fires, the
callback still empties the placement and frees every tile of the pool it
finds, whose ids, letters and order it keeps.  The state is well formed
(`Inv`) in every reachable world (`Reachable.inv`) and in the world in which
`tapTile` calls `checkAnswer` (`placed_inv`). -/
theorem wrong_guess_reset (w : World) (word : String) (hinv : Inv w.state)
    (hw : activeWord w.state = some word)
    (_hfull : w.state.filled.length = word.length)
    (hdiff : String.mk (w.state.filled.map (fun f => f.letter)) ≠ word) :
    (checkAnswer w).state = w.state ∧
    (checkAnswer w).timers = w.timers ++ [Timer.afterWrong] ∧
    (step (checkAnswer w) (Event.fire w.timers.length)).state.found = w.state.found ∧
    (step (checkAnswer w) (Event.fire w.timers.length)).state.filled = [] ∧
    (∀ t ∈ (step (checkAnswer w) (Event.fire w.timers.length)).state.pool, t.used = false) ∧
    (step (checkAnswer w) (Event.fire w.timers.length)).state.pool.map Tile.id
      = w.state.pool.map Tile.id ∧
    (step (checkAnswer w) (Event.fire w.timers.length)).state.pool.map Tile.letter
      = w.state.pool.map Tile.letter ∧
    (step (checkAnswer w) (Event.fire w.timers.length)).state.nextId = w.state.nextId ∧
    (∀ (evs : List Event) (k : Nat),
      (run (checkAnswer w) evs).timers[k]? = some Timer.afterWrong →
      (step (run (checkAnswer w) evs) (Event.fire k)).state.filled = [] ∧
      (∀ t ∈ (step (run (checkAnswer w) evs) (Event.fire k)).state.pool, t.used = false) ∧
      (step (run (checkAnswer w) evs) (Event.fire k)).state.pool.map Tile.id
        = (run (checkAnswer w) evs).state.pool.map Tile.id ∧
      (step (run (checkAnswer w) evs) (Event.fire k)).state.pool.map Tile.letter
        = (run (checkAnswer w) evs).state.pool.map Tile.letter ∧
      (step (run (checkAnswer w) evs) (Event.fire k)).state.nextId
        = (run (checkAnswer w) evs).state.nextId) := by
  have hstate : (checkAnswer w).state = w.state ∧
      (checkAnswer w).timers = w.timers ++ [Timer.afterWrong] := by
    rcases checkAnswer_cases w with ⟨word2, hw2, hg, -⟩ | ⟨-, hc⟩
    · exfalso
      rw [hw] at hw2
      exact hdiff (hg.trans (Option.some.inj hw2).symm)
    · rw [hc]; exact ⟨rfl, rfl⟩
  have hinv1 : Inv (checkAnswer w).state := by rw [hstate.1]; exact hinv
  have hfire : step (checkAnswer w) (Event.fire w.timers.length)
      = afterWrong { checkAnswer w with
          timers := (checkAnswer w).timers.eraseIdx w.timers.length } :=
    step_fire _ _ Timer.afterWrong (by rw [hstate.2]; exact timers_last _ _)
  obtain ⟨h1, h2, h3, h4, h5, h6, -⟩ := afterWrong_spec
    { checkAnswer w with timers := (checkAnswer w).timers.eraseIdx w.timers.length } hinv1
  rw [← hfire] at h1 h2 h3 h4 h5 h6
  have e3 := h3.trans (congrArg (fun s => s.pool.map Tile.id) hstate.1)
  have e4 := h4.trans (congrArg (fun s => s.pool.map Tile.letter) hstate.1)
  have e5 := h5.trans (congrArg State.nextId hstate.1)
  have e6 := h6.trans (congrArg State.found hstate.1)
  refine ⟨hstate.1, hstate.2, e6, h1, h2, e3, e4, e5, ?_⟩
  intro evs k hk
  have hfire2 := step_fire_afterWrong (run (checkAnswer w) evs) k hk
  obtain ⟨k1, k2, k3, k4, k5, -, -⟩ := afterWrong_spec
    { run (checkAnswer w) evs with timers := (run (checkAnswer w) evs).timers.eraseIdx k }
    (Inv_run _ evs hinv1)
  rw [← hfire2] at k1 k2 k3 k4 k5
  exact ⟨k1, k2, k3, k4, k5⟩

/-- C3 in the world in which the fourth tap of `W`, `I`, `L`, `A` on
`sampleWorld` calls `checkAnswer`: the placement spells `WILA`; the check sets
the timer of the reset, and the reset empties the placement. -/
theorem wrong_guess_reset_witness :
    (placed (run sampleWorld [Event.tapTile 10, Event.tapTile 1, Event.tapTile 2]) 11
      { letter := 'A', id := 11, used := false }).state.filled.map (fun f => f.letter)
      = ['W', 'I', 'L', 'A'] ∧
    tapTile (run sampleWorld [Event.tapTile 10, Event.tapTile 1, Event.tapTile 2]) 11
      = checkAnswer (placed (run sampleWorld [Event.tapTile 10, Event.tapTile 1,
          Event.tapTile 2]) 11 { letter := 'A', id := 11, used := false }) ∧
    (step (checkAnswer (placed (run sampleWorld [Event.tapTile 10, Event.tapTile 1,
        Event.tapTile 2]) 11 { letter := 'A', id := 11, used := false }))
      (Event.fire 0)).state.filled = [] :=
  ⟨by decide,
   (tapTile_of_guards _ 11 { letter := 'A', id := 11, used := false } "WILL" (by decide)
      (by decide) (by decide) (by decide) (by decide)).2 (by decide),
   (wrong_guess_reset
      (placed (run sampleWorld [Event.tapTile 10, Event.tapTile 1, Event.tapTile 2]) 11
        { letter := 'A', id := 11, used := false })
      "WILL"
      (placed_inv _ 11 { letter := 'A', id := 11, used := false } "WILL"
        (Reachable.inv (sampleWorld_reachable.after_run _))
        (by decide) (by decide) (by decide) (by decide) (by decide))
      (by decide) (by decide) (by decide)).2.2.2.1⟩

/-! ## C4 -/

/-- C4: in a reachable world, for an unused tile `t` of the pool that can be
placed (there is an active word and the placement is not full), `tapTile(t.id)`
places `t`, and `undo()` right after it restores the placement and the pool
exactly: `t` is unused again, and every other flag, the order and the ids are
as before. -/
theorem undo_inverts_tap (w : World) (t : Tile) (word : String) (hr : Reachable w)
    (ht : t ∈ w.state.pool) (hu : t.used = false)
    (hw : activeWord w.state = some word)
    (hroom : w.state.filled.length < word.length) :
    (tapTile w t.id).state.filled = w.state.filled ++ [markUsed t] ∧
    (tapTile w t.id).state.pool = setUsed w.state.pool t.id true ∧
    markUsed t ∈ (tapTile w t.id).state.pool ∧
    (undo (tapTile w t.id)).state.filled = w.state.filled ∧
    (undo (tapTile w t.id)).state.pool = w.state.pool ∧
    (undo (tapTile w t.id)).state.activeIdx = w.state.activeIdx ∧
    (undo (tapTile w t.id)).state.nextId = w.state.nextId := by
  have hnd := hr.inv.2.2.1
  have hne : word ≠ "" := WORDS_ne_empty _ (wordAt_mem _ _ hw)
  have hfind := find_of_mem _ t hnd ht
  obtain ⟨g1, g2⟩ := tapTile_of_guards w t.id t word hw hne hroom hfind hu
  have hshape : (tapTile w t.id).state.filled = w.state.filled ++ [markUsed t] ∧
      (tapTile w t.id).state.pool = setUsed w.state.pool t.id true ∧
      (tapTile w t.id).state.activeIdx = w.state.activeIdx ∧
      (tapTile w t.id).state.nextId = w.state.nextId := by
    by_cases hfull : w.state.filled.length + 1 = word.length
    · rw [g2 hfull]
      obtain ⟨-, h2, h3, h4, h5, -⟩ := checkAnswer_frame (placed w t.id t)
      rw [h2, h3, h4, h5]
      exact ⟨rfl, rfl, rfl, rfl⟩
    · rw [g1 hfull]
      exact ⟨rfl, rfl, rfl, rfl⟩
  obtain ⟨s1, s2, s3, s4⟩ := hshape
  have hmem : markUsed t ∈ (tapTile w t.id).state.pool := by
    rw [s2, setUsed_eq_map _ _ _ hnd]
    exact List.mem_map.mpr ⟨t, ht, by simp [markUsed]⟩
  refine ⟨s1, s2, hmem, ?_⟩
  rcases undo_cases (tapTile w t.id) with ⟨hnil, -⟩ | ⟨last, hl, hundo⟩
  · rw [s1] at hnil
    simp at hnil
  · rw [s1] at hl
    have hlast : last = markUsed t := by simpa using hl.symm
    subst hlast
    rw [hundo]
    simp only [setStatus_state]
    refine ⟨?_, ?_, s3, s4⟩
    · rw [s1]; simp
    · rw [s2]
      show setUsed (setUsed w.state.pool t.id true) t.id false = w.state.pool
      rw [setUsed_setUsed, ← hu]
      exact setUsed_of_find _ _ _ hfind

/-- C4 on `sampleWorld` after the tap on `W`: tapping `I` and undoing. -/
theorem undo_inverts_tap_witness :
    (undo (tapTile (run sampleWorld [Event.tapTile 10]) 1)).state.filled
      = (run sampleWorld [Event.tapTile 10]).state.filled ∧
    (undo (tapTile (run sampleWorld [Event.tapTile 10]) 1)).state.pool
      = (run sampleWorld [Event.tapTile 10]).state.pool :=
  have h := undo_inverts_tap (run sampleWorld [Event.tapTile 10])
    { letter := 'I', id := 1, used := false } "WILL"
    ⟨sampleRand, [Event.submitNickname, Event.tapTile 10], rfl⟩
    (by decide) (by decide) (by decide) (by decide)
  ⟨h.2.2.2.1, h.2.2.2.2.1⟩

/-! ## C5 -/

/-- Taps from a placement that is not full: the active word stays, the
placement never outgrows it, and `checkAnswer` has run once if the placement
is now full and not at all if it is not. -/
theorem taps_checkCalls (w : World) (word : String) (ids : List Nat)
    (hw : activeWord w.state = some word)
    (hlen : w.state.filled.length < word.length) :
    activeWord (ids.foldl tapTile w).state = some word ∧
    (ids.foldl tapTile w).state.filled.length ≤ word.length ∧
    (ids.foldl tapTile w).checkCalls =
      w.checkCalls + (if (ids.foldl tapTile w).state.filled.length = word.length then 1 else 0) := by
  induction ids using List.reverseRecOn with
  | nil =>
    refine ⟨hw, Nat.le_of_lt hlen, ?_⟩
    have : ¬ w.state.filled.length = word.length := by omega
    simp [this]
  | append_singleton ids i ih =>
    obtain ⟨ih1, ih2, ih3⟩ := ih
    simp only [List.foldl_append, List.foldl_cons, List.foldl_nil]
    generalize ids.foldl tapTile w = wp at ih1 ih2 ih3
    obtain ⟨hact, hcase⟩ := tapTile_summary wp i
    have haw : activeWord (tapTile wp i).state = some word := by
      unfold activeWord at ih1 ⊢
      rw [hact]; exact ih1
    rcases hcase with ⟨hf, hc⟩ | ⟨item, word2, hw2, hf, hlt, hc⟩
    · rw [hf, hc]
      exact ⟨haw, ih2, ih3⟩
    · have hww : word2 = word := by
        rw [ih1] at hw2
        exact (Option.some.inj hw2).symm
      subst hww
      have hlen2 : (tapTile wp i).state.filled.length = wp.state.filled.length + 1 := by
        rw [hf]; simp
      refine ⟨haw, by omega, ?_⟩
      rw [hc, ih3, hlen2]
      have : ¬ wp.state.filled.length = word2.length := by omega
      simp [this]

/-- C5: `tapTile` runs `checkAnswer` exactly once when the tap is effective (a
tile is appended to the placement) and the placement then has the length of
the active word, and does not run it otherwise; so along any sequence of taps
from an empty placement, `checkAnswer` has not run while the placement is
shorter than the active word, and has run exactly once when it is full. -/
theorem validation_exactly_when_full (w : World) (id : Nat) (ids : List Nat) :
    ((∃ t word, (tapTile w id).state.filled = w.state.filled ++ [t] ∧
        activeWord w.state = some word ∧
        (tapTile w id).state.filled.length = word.length) →
      (tapTile w id).checkCalls = w.checkCalls + 1) ∧
    ((¬ ∃ t word, (tapTile w id).state.filled = w.state.filled ++ [t] ∧
        activeWord w.state = some word ∧
        (tapTile w id).state.filled.length = word.length) →
      (tapTile w id).checkCalls = w.checkCalls) ∧
    (∀ word, activeWord w.state = some word → w.state.filled = [] →
      ((run w (ids.map Event.tapTile)).state.filled.length < word.length →
        (run w (ids.map Event.tapTile)).checkCalls = w.checkCalls) ∧
      ((run w (ids.map Event.tapTile)).state.filled.length = word.length →
        (run w (ids.map Event.tapTile)).checkCalls = w.checkCalls + 1)) := by
  obtain ⟨-, hcase⟩ := tapTile_summary w id
  refine ⟨?_, ?_, ?_⟩
  · rintro ⟨t, word, hf, hw, hfull⟩
    rcases hcase with ⟨hf2, -⟩ | ⟨item, word2, hw2, hf2, hlt, hc⟩
    · rw [hf2] at hf
      have := congrArg List.length hf
      simp at this
    · have hww : word2 = word := by
        rw [hw] at hw2
        exact (Option.some.inj hw2).symm
      subst hww
      rw [hf2] at hfull
      simp only [List.length_append, List.length_singleton] at hfull
      rw [hc, if_pos hfull]
  · intro hno
    rcases hcase with ⟨-, hc⟩ | ⟨item, word2, hw2, hf2, hlt, hc⟩
    · exact hc
    · rw [hc]
      by_cases hfull : w.state.filled.length + 1 = word2.length
      · exfalso
        apply hno
        refine ⟨markUsed item, word2, hf2, hw2, ?_⟩
        rw [hf2]; simpa using hfull
      · rw [if_neg hfull]; rfl
  · intro word hw hempty
    have hne : word ≠ "" := WORDS_ne_empty _ (wordAt_mem _ _ hw)
    have hpos : 0 < word.length := by
      rcases Nat.eq_zero_or_pos word.length with h0 | h0
      · exfalso
        apply hne
        have : word.data = [] := List.length_eq_zero.mp h0
        cases word
        simp_all
      · exact h0
    obtain ⟨-, -, h3⟩ := taps_checkCalls w word ids hw (by rw [hempty]; exact hpos)
    rw [run_taps]
    constructor
    · intro hlt
      rw [h3, if_neg (by omega)]; rfl
    · intro hfull
      rw [h3, if_pos hfull]

/-- C5 on `sampleWorld`: no check after `W`, `I`, `L`; one check after the
fourth tile. -/
theorem validation_exactly_when_full_witness :
    (run sampleWorld ([10, 1, 2].map Event.tapTile)).state.filled.length = 3 ∧
    (run sampleWorld ([10, 1, 2].map Event.tapTile)).checkCalls = sampleWorld.checkCalls ∧
    (tapTile (run sampleWorld ([10, 1, 2].map Event.tapTile)) 9).checkCalls
      = (run sampleWorld ([10, 1, 2].map Event.tapTile)).checkCalls + 1 :=
  ⟨by decide,
   ((validation_exactly_when_full sampleWorld 0 [10, 1, 2]).2.2 "WILL" (by decide)
      (by decide)).1 (by decide),
   (validation_exactly_when_full (run sampleWorld ([10, 1, 2].map Event.tapTile)) 9 []).1
      ⟨{ letter := 'L', id := 9, used := true }, "WILL", by decide, by decide, by decide⟩⟩

/-! ## C10 -/

/-- C10: when the timer of the callback of a match fires in a reachable world
with a word still unfound, `activeIdx` becomes the smallest index of `WORDS`
whose word is not found, and a pool is built for that word: `TILE_COUNT` fresh
unused tiles containing its letters, with an empty placement; when every word
is found the callback changes neither `activeIdx` nor the pool (nothing of
`state`). -/
theorem afterMatch_advances_to_lowest (w : World) (k : Nat) (hr : Reachable w)
    (hk : w.timers[k]? = some Timer.afterMatch) :
    ((∃ x ∈ WORDS, x ∉ w.state.found) →
      ∃ (i : Nat) (word : String), WORDS[i]? = some word ∧ word ∉ w.state.found ∧
        (∀ j v, j < i → WORDS[j]? = some v → v ∈ w.state.found) ∧
        (step w (Event.fire k)).state.activeIdx = (i : Int) ∧
        (step w (Event.fire k)).state.filled = [] ∧
        (step w (Event.fire k)).state.pool.map Tile.id
          = List.range' w.state.nextId TILE_COUNT ∧
        (∀ t ∈ (step w (Event.fire k)).state.pool, t.used = false) ∧
        (∀ c, word.toList.count c
          ≤ ((step w (Event.fire k)).state.pool.map Tile.letter).count c)) ∧
    ((∀ x ∈ WORDS, x ∈ w.state.found) →
      (step w (Event.fire k)).state.activeIdx = w.state.activeIdx ∧
      (step w (Event.fire k)).state.pool = w.state.pool ∧
      (step w (Event.fire k)).state = w.state) := by
  have hfire := step_fire_afterMatch w k hk
  obtain ⟨hadv, hstay⟩ := afterMatch_spec { w with timers := w.timers.eraseIdx k } hr.inv
  rw [← hfire] at hadv hstay
  constructor
  · intro hex
    obtain ⟨i, word, h1, h2, h3, h4, h5, h6, h7, h8, -, -⟩ := hadv hex
    exact ⟨i, word, h1, h2, h3, h4, h5, h6, h7, h8⟩
  · intro hall
    have := hstay hall
    exact ⟨congrArg State.activeIdx this, congrArg State.pool this, this⟩

set_option maxRecDepth 100000 in
/-- C10 after `"YOU"` was found first: the callback goes back to index `0`,
not on to index `2`. -/
theorem afterMatch_advances_to_lowest_witness :
    (run (initWorld sampleRand) [Event.submitNickname, Event.switchWord 1,
        Event.keydown "BODY" "Y", Event.keydown "BODY" "O", Event.keydown "BODY" "U"]).state.activeIdx = 1 ∧
    (step (run (initWorld sampleRand) [Event.submitNickname, Event.switchWord 1,
        Event.keydown "BODY" "Y", Event.keydown "BODY" "O", Event.keydown "BODY" "U"])
      (Event.fire 0)).state.activeIdx = 0 ∧
    ∃ (i : Nat) (word : String), WORDS[i]? = some word ∧
      (step (run (initWorld sampleRand) [Event.submitNickname, Event.switchWord 1,
        Event.keydown "BODY" "Y", Event.keydown "BODY" "O", Event.keydown "BODY" "U"])
      (Event.fire 0)).state.activeIdx = (i : Int) :=
  ⟨by decide, by decide,
   have h := (afterMatch_advances_to_lowest
      (run (initWorld sampleRand) [Event.submitNickname, Event.switchWord 1,
        Event.keydown "BODY" "Y", Event.keydown "BODY" "O", Event.keydown "BODY" "U"]) 0
      ⟨sampleRand, _, rfl⟩ (by decide)).1 ⟨"WILL", by decide, by decide⟩
   match h with
   | ⟨i, word, h1, _, _, h4, _⟩ => ⟨i, word, h1, h4⟩⟩

/-! ## C6 -/

theorem wordAt_inj (i j : Int) (x : String) (hi : wordAt i = some x) (hj : wordAt j = some x) :
    i = j := by
  unfold wordAt at hi hj
  split at hi
  · split at hj
    · rename_i h0 h1
      have hlt : i.toNat < WORDS.length := (List.getElem?_eq_some_iff.mp hi).1
      have := List.getElem?_inj hlt (by decide) (hi.trans hj.symm)
      omega
    · cases hj
  · cases hi

/-- The loop of `skipWord`: it switches to the index of the first value of the
loop variable whose word is not found, or runs out. -/
theorem skipWordLoop_spec (w : World) (k i : Nat) :
    (∃ j, i ≤ j ∧ j < i + k ∧ setHas w.state.found (wordAt (scanIdx w j)) = false ∧
      (∀ m, i ≤ m → m < j → setHas w.state.found (wordAt (scanIdx w m)) = true) ∧
      skipWordLoop w k i = switchWord w (scanIdx w j)) ∨
    ((∀ m, i ≤ m → m < i + k → setHas w.state.found (wordAt (scanIdx w m)) = true) ∧
      skipWordLoop w k i = w) := by
  induction k generalizing i with
  | zero =>
    right
    exact ⟨fun m h1 h2 => by omega, rfl⟩
  | succ k ih =>
    simp only [skipWordLoop]
    by_cases hfound : setHas w.state.found (wordAt (scanIdx w i)) = true
    · have hcond : ¬ ((!setHas w.state.found (wordAt (Int.tmod (w.state.activeIdx + (i : Int))
          (WORDS.length : Int)))) = true) := by
        have : setHas w.state.found (wordAt (Int.tmod (w.state.activeIdx + (i : Int))
          (WORDS.length : Int))) = true := hfound
        simp [this]
      rw [if_neg hcond]
      rcases ih (i + 1) with ⟨j, h1, h2, h3, h4, h5⟩ | ⟨h1, h2⟩
      · left
        refine ⟨j, by omega, by omega, h3, ?_, h5⟩
        intro m hm1 hm2
        rcases Nat.eq_or_lt_of_le hm1 with rfl | hlt
        · exact hfound
        · exact h4 m (by omega) hm2
      · right
        refine ⟨?_, h2⟩
        intro m hm1 hm2
        rcases Nat.eq_or_lt_of_le hm1 with rfl | hlt
        · exact hfound
        · exact h1 m (by omega) (by omega)
    · have hf : setHas w.state.found (wordAt (scanIdx w i)) = false := by
        simpa using hfound
      have hcond : (!setHas w.state.found (wordAt (Int.tmod (w.state.activeIdx + (i : Int))
          (WORDS.length : Int)))) = true := by
        have : setHas w.state.found (wordAt (Int.tmod (w.state.activeIdx + (i : Int))
          (WORDS.length : Int))) = false := hf
        simp [this]
      rw [if_pos hcond]
      left
      exact ⟨i, le_refl _, by omega, hf, fun m h1 h2 => by omega, rfl⟩

theorem scanIdx_range (w : World) (j : Nat) (h0 : 0 ≤ w.state.activeIdx) :
    0 ≤ scanIdx w j ∧ scanIdx w j < (WORDS.length : Int) := by
  unfold scanIdx
  constructor
  · exact Int.tmod_nonneg _ (by omega)
  · exact Int.tmod_lt_of_pos _ (by decide)

theorem scanIdx_last (w : World) (h0 : 0 ≤ w.state.activeIdx)
    (h1 : w.state.activeIdx < (WORDS.length : Int)) :
    scanIdx w WORDS.length = w.state.activeIdx := by
  unfold scanIdx
  rw [Int.tmod_eq_emod (by omega) (by omega)]
  have : ((WORDS.length : Nat) : Int) = 5 := by decide
  rw [this] at h1 ⊢
  omega

/-- What the loop of `skipWord` does with its bound `i <= WORDS.length`: it
looks at the indices `(activeIdx + i) % WORDS.length` for
`i = 1, …, WORDS.length` in this order, so the current index comes last, and
calls `switchWord` on the first one whose word is not found; when every word is
found it leaves the world unchanged; when the active word is the only word not
found it selects the current index again and builds a new pool for it. -/
theorem skipWord_scan (w : World) :
    ((∃ j, 1 ≤ j ∧ j ≤ WORDS.length ∧
        setHas w.state.found (wordAt (scanIdx w j)) = false ∧
        (∀ m, 1 ≤ m → m < j → setHas w.state.found (wordAt (scanIdx w m)) = true) ∧
        skipWord w = switchWord w (scanIdx w j)) ∨
      ((∀ m, 1 ≤ m → m ≤ WORDS.length →
          setHas w.state.found (wordAt (scanIdx w m)) = true) ∧
        skipWord w = w)) ∧
    ((∀ x ∈ WORDS, x ∈ w.state.found) → skipWord w = w) ∧
    (∀ word, activeWord w.state = some word → word ∉ w.state.found →
      (∀ x ∈ WORDS, x ≠ word → x ∈ w.state.found) →
      skipWord w = switchWord w w.state.activeIdx ∧
      (skipWord w).state.activeIdx = w.state.activeIdx ∧
      (skipWord w).state.filled = [] ∧
      (skipWord w).state.pool.map Tile.id = List.range' w.state.nextId TILE_COUNT ∧
      (skipWord w).state.nextId = w.state.nextId + TILE_COUNT) := by
  have hloop := skipWordLoop_spec w WORDS.length 1
  have hmain : (∃ j, 1 ≤ j ∧ j ≤ WORDS.length ∧
        setHas w.state.found (wordAt (scanIdx w j)) = false ∧
        (∀ m, 1 ≤ m → m < j → setHas w.state.found (wordAt (scanIdx w m)) = true) ∧
        skipWord w = switchWord w (scanIdx w j)) ∨
      ((∀ m, 1 ≤ m → m ≤ WORDS.length →
          setHas w.state.found (wordAt (scanIdx w m)) = true) ∧
        skipWord w = w) := by
    rcases hloop with ⟨j, h1, h2, h3, h4, h5⟩ | ⟨h1, h2⟩
    · left; exact ⟨j, h1, by omega, h3, h4, h5⟩
    · right; exact ⟨fun m hm1 hm2 => h1 m hm1 (by omega), h2⟩
  refine ⟨hmain, ?_, ?_⟩
  · intro hall
    rcases hmain with ⟨j, -, -, h3, -, h5⟩ | ⟨-, h2⟩
    · rw [h5]
      rcases switchWord_cases w (scanIdx w j) with ⟨-, h⟩ | ⟨g0, g5, hnot, -⟩
      · exact h
      · exfalso
        obtain ⟨v, hv⟩ := wordAt_some_of_range _ g0 g5
        have hvf : v ∈ w.state.found := hall v (wordAt_mem _ _ hv)
        rw [hv] at hnot
        simp [setHas, hvf] at hnot
    · exact h2
  · intro word hw hnf hothers
    have h0 : 0 ≤ w.state.activeIdx := by
      by_contra hneg
      unfold activeWord wordAt at hw
      rw [if_neg hneg] at hw
      cases hw
    have h5 : w.state.activeIdx < (WORDS.length : Int) := by
      by_contra hge
      have := (wordAt_none_iff w.state.activeIdx).mpr (Or.inr (by omega))
      unfold activeWord at hw
      rw [this] at hw
      cases hw
    have hcur : skipWord w = switchWord w w.state.activeIdx := by
      rcases hmain with ⟨j, hj1, hj5, h3, -, hsw⟩ | ⟨hall, -⟩
      · obtain ⟨r0, r5⟩ := scanIdx_range w j h0
        obtain ⟨v, hv⟩ := wordAt_some_of_range _ r0 r5
        have hvnf : v ∉ w.state.found := by
          rw [hv] at h3
          simpa [setHas] using h3
        have hvw : v = word := by
          by_contra hne
          exact hvnf (hothers v (wordAt_mem _ _ hv) hne)
        subst hvw
        have := wordAt_inj _ _ _ hv hw
        rw [hsw, this]
      · exfalso
        have := hall WORDS.length (by decide) (le_refl _)
        rw [scanIdx_last w h0 h5] at this
        unfold activeWord at hw
        rw [hw] at this
        apply hnf
        simpa [setHas] using this
    rcases switchWord_cases w w.state.activeIdx with ⟨hg, -⟩ | ⟨-, -, -, w2, hb, hsw⟩
    · exfalso
      rcases hg with hg | hg | hg
      · omega
      · omega
      · unfold activeWord at hw
        rw [hw] at hg
        apply hnf
        simpa [setHas] using hg
    · have hword : wordAt w.state.activeIdx = some word := hw
      rw [hword] at hb
      obtain ⟨w3, letters, hb3, -, hl, -, hids, -, hnext, hfilled, -, hidx, -⟩ :=
        buildPool_some { w with state := { w.state with activeIdx := w.state.activeIdx } } word
      have : w3 = w2 := Option.some.inj (hb3.symm.trans hb)
      subst this
      have hlen : letters.length = TILE_COUNT := hl (WORDS_length_le _ (wordAt_mem _ _ hw))
      refine ⟨hcur, ?_, ?_, ?_, ?_⟩
      · rw [hcur, hsw, render_state, setStatus_state, hidx]
      · rw [hcur, hsw, render_state, setStatus_state, hfilled]
      · rw [hcur, hsw, render_state, setStatus_state, hids, hlen]
      · rw [hcur, hsw, render_state, setStatus_state, hnext, hlen]

set_option maxRecDepth 100000 in
/-- C6 fails on the code, against the comment of `skipWord` itself (`Find next
unfound word after current index`): in the reachable world `lastWordWorld` the
current index is `4` and its word is the only one not found; the last round of
the loop, `i = WORDS.length`, comes back to the current index, so `skipWord`
selects index `4` again and replaces its pool (ids `48 .. 59`) by a new one
(ids `60 .. 71`). -/
theorem skipWord_selects_current :
    Reachable lastWordWorld ∧
    lastWordWorld.state.activeIdx = 4 ∧
    lastWordWorld.state.found = ["WILL", "YOU", "BE", "MY"] ∧
    (skipWord lastWordWorld).state.activeIdx = 4 ∧
    lastWordWorld.state.pool.map Tile.id = List.range' 48 12 ∧
    (skipWord lastWordWorld).state.pool.map Tile.id = List.range' 60 12 ∧
    (skipWord lastWordWorld).state.pool ≠ lastWordWorld.state.pool :=
  ⟨⟨sampleRand, fourWordsEvents, rfl⟩, by decide, by decide, by decide, by decide, by decide,
    by decide⟩

set_option maxRecDepth 100000 in
/-- The loop of `skipWord` on `lastWordWorld`: the index is kept and a new pool
is built. -/
theorem skipWord_scan_witness :
    (skipWord lastWordWorld).state.activeIdx = lastWordWorld.state.activeIdx ∧
    (skipWord lastWordWorld).state.nextId = lastWordWorld.state.nextId + TILE_COUNT :=
  have h := (skipWord_scan lastWordWorld).2.2 "VALENTINE" (by decide) (by decide) (by decide)
  ⟨h.2.1, h.2.2.2.2⟩

/-! ## C9 -/

/-- C9: from a freshly shown reveal (count `0`), the first and the second
`handleNo` keep the controls shown, record no answer, set no timer and show
two pleading phrases that differ from the question and from each other; the
third one takes the closing branch: farewell phrase, controls hidden, the
answer `NO (x3) — closed tab 💔` recorded with `noPressCount = 3`, the closing
timer set.  In any world `handleNo` takes the closing branch exactly when the
incremented count is at least `3`. -/
theorem decline_counter (w0 : World) (won : Bool) (w : World) :
    (showReveal w0 won).noCount = 0 ∧
    (showReveal w0 won).phrase = PHRASE ∧
    (showReveal w0 won).revealActionsDisplay = "flex" ∧
    (handleNo (showReveal w0 won)).noCount = 1 ∧
    (handleNo (showReveal w0 won)).saved = w0.saved ∧
    (handleNo (showReveal w0 won)).timers = w0.timers ∧
    (handleNo (showReveal w0 won)).revealActionsDisplay = "flex" ∧
    (handleNo (showReveal w0 won)).phrase = "Will you be my Valentine? Please 🥺🙏" ∧
    (handleNo (handleNo (showReveal w0 won))).noCount = 2 ∧
    (handleNo (handleNo (showReveal w0 won))).saved = w0.saved ∧
    (handleNo (handleNo (showReveal w0 won))).timers = w0.timers ∧
    (handleNo (handleNo (showReveal w0 won))).revealActionsDisplay = "flex" ∧
    (handleNo (handleNo (showReveal w0 won))).phrase
      = "Will you be my Valentine? Pleaseee 😭🙏" ∧
    PHRASE ≠ "Will you be my Valentine? Please 🥺🙏" ∧
    PHRASE ≠ "Will you be my Valentine? Pleaseee 😭🙏" ∧
    "Will you be my Valentine? Please 🥺🙏" ≠ "Will you be my Valentine? Pleaseee 😭🙏" ∧
    (handleNo (handleNo (handleNo (showReveal w0 won)))).noCount = 3 ∧
    (handleNo (handleNo (handleNo (showReveal w0 won)))).phrase = "Oki... goodbyeee 😭💔" ∧
    (handleNo (handleNo (handleNo (showReveal w0 won)))).revealActionsDisplay = "none" ∧
    (handleNo (handleNo (handleNo (showReveal w0 won)))).saved = w0.saved ++
      [{ answer := "NO (x3) — closed tab 💔", noPressCount := 3,
         completedWithoutGiveUp := !(showReveal w0 won).revealedByGiveUp }] ∧
    (handleNo (handleNo (handleNo (showReveal w0 won)))).timers
      = w0.timers ++ [Timer.closeWindow] ∧
    (w.noCount + 1 ≥ 3 →
      (handleNo w).noCount = w.noCount + 1 ∧
      (handleNo w).phrase = "Oki... goodbyeee 😭💔" ∧
      (handleNo w).revealActionsDisplay = "none" ∧
      (handleNo w).saved = w.saved ++
        [{ answer := "NO (x" ++ toString (w.noCount + 1) ++ ") — closed tab 💔",
           noPressCount := w.noCount + 1,
           completedWithoutGiveUp := !w.revealedByGiveUp }] ∧
      (handleNo w).timers = w.timers ++ [Timer.closeWindow]) ∧
    (¬ w.noCount + 1 ≥ 3 →
      (handleNo w).noCount = w.noCount + 1 ∧
      (handleNo w).phrase ≠ "Oki... goodbyeee 😭💔" ∧
      (handleNo w).revealActionsDisplay = w.revealActionsDisplay ∧
      (handleNo w).saved = w.saved ∧
      (handleNo w).timers = w.timers) := by
  refine ⟨rfl, rfl, rfl, rfl, rfl, rfl, rfl, rfl, rfl, rfl, rfl, rfl, rfl, by decide, by decide,
    by decide, rfl, rfl, rfl, ?_, rfl, ?_, ?_⟩
  · have h3 : "NO (x" ++ toString 3 ++ ") — closed tab 💔" = "NO (x3) — closed tab 💔" := by
      decide
    show w0.saved ++ [Answer.mk ("NO (x" ++ toString 3 ++ ") — closed tab 💔") 3
      (!(showReveal w0 won).revealedByGiveUp)] = _
    rw [h3]
  · intro h
    unfold handleNo
    simp only []
    rw [if_pos h]
    exact ⟨rfl, rfl, rfl, rfl, rfl⟩
  · intro h
    unfold handleNo
    simp only []
    rw [if_neg h]
    have e1 : "Will you be my Valentine? Pleaseee 😭🙏" ≠ "Oki... goodbyeee 😭💔" := by decide
    have e2 : "Will you be my Valentine? Please 🥺🙏" ≠ "Oki... goodbyeee 😭💔" := by decide
    split
    · exact ⟨rfl, e1, rfl, rfl, rfl⟩
    · exact ⟨rfl, e2, rfl, rfl, rfl⟩

/-! ## The footprint of the event loop on the reveal -/

theorem Quiet.refl (w : World) : Quiet w w :=
  ⟨rfl, rfl, fun h => h⟩

theorem Quiet.trans {a b c : World} (h1 : Quiet a b) (h2 : Quiet b c) : Quiet a c :=
  ⟨h2.1.trans h1.1, h2.2.1.trans h1.2.1, fun h => h1.2.2 (h2.2.2 h)⟩

/-- A world that differs from `w` only by a timer other than the give-up timer,
or by no timer at all, is quiet. -/
theorem Quiet.of_fields (w w1 : World) (h1 : w1.revealedByGiveUp = w.revealedByGiveUp)
    (h2 : w1.revealCalls = w.revealCalls)
    (h3 : w1.timers = w.timers ∨ ∃ t, t ≠ Timer.giveUpReveal ∧ w1.timers = w.timers ++ [t]) :
    Quiet w w1 := by
  refine ⟨h1, h2, ?_⟩
  intro hm
  rcases h3 with h3 | ⟨t, ht, h3⟩
  · rw [h3] at hm; exact hm
  · rw [h3, List.mem_append, List.mem_singleton] at hm
    rcases hm with hm | hm
    · exact hm
    · exact absurd hm.symm ht

theorem RevealStep.of_quiet_left {a b c : World} (h1 : Quiet a b) (h2 : RevealStep b c) :
    RevealStep a c := by
  obtain ⟨q1, q2, q3⟩ := h1
  rcases h2 with h | ⟨g1, g2, g3, g4⟩ | ⟨g1, g2⟩ | ⟨g1, g2, g3, g4⟩
  · exact Or.inl (Quiet.trans ⟨q1, q2, q3⟩ h)
  · exact Or.inr (Or.inl ⟨by rw [← q1]; exact g1, g2, by rw [g3, q2], fun h => q3 (g4 h)⟩)
  · exact Or.inr (Or.inr (Or.inl ⟨g1, by rw [g2, q2]⟩))
  · exact Or.inr (Or.inr (Or.inr ⟨q3 g1, by rw [g2, q1], by rw [g3, q2],
      fun h => q3 (g4 h)⟩))

theorem checkAnswer_quiet (w : World) : Quiet w (checkAnswer w) := by
  rcases checkAnswer_cases w with ⟨word, -, -, h⟩ | ⟨-, h⟩ <;> rw [h]
  · exact Quiet.of_fields _ _ rfl rfl (Or.inr ⟨Timer.afterMatch, by decide, rfl⟩)
  · exact Quiet.of_fields _ _ rfl rfl (Or.inr ⟨Timer.afterWrong, by decide, rfl⟩)

theorem placed_quiet (w : World) (id : Nat) (item : Tile) : Quiet w (placed w id item) :=
  Quiet.of_fields _ _ rfl rfl (Or.inl rfl)

theorem tapTile_quiet (w : World) (id : Nat) : Quiet w (tapTile w id) := by
  rcases tapTile_cases w id with h | ⟨item, word, -, -, -, -, -, h | h⟩
  · rw [h]; exact Quiet.refl w
  · rw [h.2]; exact placed_quiet w id item
  · rw [h.2]; exact (placed_quiet w id item).trans (checkAnswer_quiet _)

theorem undo_quiet (w : World) : Quiet w (undo w) := by
  rcases undo_cases w with ⟨-, h⟩ | ⟨last, -, h⟩ <;> rw [h]
  · exact Quiet.refl w
  · exact Quiet.of_fields _ _ rfl rfl (Or.inl rfl)

theorem clearFilled_quiet (w : World) : Quiet w (clearFilled w) :=
  Quiet.of_fields _ _ rfl rfl (Or.inl rfl)

theorem render_revealStep (w : World) : RevealStep w (render w) := by
  rcases renderStats_cases w with ⟨hint, h, -⟩ | ⟨-, hflag, h⟩
  · left
    have hr : render w = { w with hintText := hint } := h
    rw [hr]
    exact Quiet.of_fields _ _ rfl rfl (Or.inl rfl)
  · right; left
    have hr : render w = showReveal { w with hintText := "All done!" } true := h
    rw [hr]
    exact ⟨hflag, rfl, rfl, fun hm => hm⟩

theorem clearAction_revealStep (w : World) : RevealStep w (clearAction w) :=
  RevealStep.of_quiet_left (clearFilled_quiet w) (render_revealStep _)

theorem afterWrong_revealStep (w : World) : RevealStep w (afterWrong w) :=
  RevealStep.of_quiet_left (clearFilled_quiet w) (render_revealStep _)

/-- The pool built after an assignment to `state` leaves the reveal alone. -/
theorem buildPool_quiet (w v w2 : World) (word : String)
    (hv1 : v.revealedByGiveUp = w.revealedByGiveUp) (hv2 : v.revealCalls = w.revealCalls)
    (hv3 : v.timers = w.timers) (hb : buildPool v (some word) = some w2) :
    Quiet w (setStatus w2 "" "") := by
  obtain ⟨w3, letters, hb3, -, -, -, -, -, -, -, -, -, -, g2, g3, -, -, g6⟩ := buildPool_some v word
  have : w3 = w2 := Option.some.inj (hb3.symm.trans hb)
  subst this
  exact Quiet.of_fields _ _ (g2.trans hv1) (g6.trans hv2) (Or.inl (g3.trans hv3))

theorem switchWord_revealStep (w : World) (idx : Int) : RevealStep w (switchWord w idx) := by
  rcases switchWord_cases w idx with ⟨-, h⟩ | ⟨h0, h5, -, w2, hb, h⟩
  · rw [h]; exact Or.inl (Quiet.refl w)
  · rw [h]
    obtain ⟨word, hword⟩ := wordAt_some_of_range idx h0 h5
    rw [hword] at hb
    exact RevealStep.of_quiet_left
      (buildPool_quiet w { w with state := { w.state with activeIdx := idx } } w2 word
        rfl rfl rfl hb)
      (render_revealStep _)

theorem skipWordLoop_revealStep (w : World) (k i : Nat) :
    RevealStep w (skipWordLoop w k i) := by
  induction k generalizing i with
  | zero => exact Or.inl (Quiet.refl w)
  | succ k ih =>
    simp only [skipWordLoop]
    split
    · exact switchWord_revealStep w _
    · exact ih (i + 1)

theorem afterMatch_revealStep (w : World) : RevealStep w (afterMatch w) := by
  rcases afterMatch_cases w with ⟨-, h⟩ | ⟨-, w2, hb, h⟩
  · rw [h]; exact render_revealStep w
  · rw [h]
    obtain ⟨word, hword⟩ := pickNextUnfound_wordAt w
    have haw : activeWord (pickNextUnfound w).state = some word := hword
    rw [haw] at hb
    exact RevealStep.of_quiet_left
      (buildPool_quiet w (pickNextUnfound w) w2 word rfl rfl rfl hb)
      (render_revealStep _)

theorem submitNickname_revealStep (w : World) : RevealStep w (submitNickname w) := by
  rcases submitNickname_cases w with ⟨-, h⟩ | ⟨word, w2, -, hb, h⟩
  · rw [h]; exact Or.inl (Quiet.refl w)
  · rw [h]
    have hq : Quiet w w2 := by
      have := buildPool_quiet w w w2 word rfl rfl rfl hb
      exact ⟨this.1, this.2.1, this.2.2⟩
    exact RevealStep.of_quiet_left hq (render_revealStep _)

theorem giveUp_revealStep (w : World) : RevealStep w (giveUp w) := by
  right; right; left
  unfold giveUp
  simp only []
  generalize hv : ({ w with
    revealedByGiveUp := true
    state := { w.state with found := WORDS.foldl setAdd w.state.found } } : World) = v
  have hv1 : v.revealedByGiveUp = true := by rw [← hv]
  have hv2 : v.revealCalls = w.revealCalls := by rw [← hv]
  rcases renderStats_cases v with ⟨hint, h, -⟩ | ⟨-, hflag, -⟩
  · show (render v).revealedByGiveUp = true ∧ (render v).revealCalls = w.revealCalls
    have : render v = { v with hintText := hint } := h
    rw [this]
    exact ⟨hv1, hv2⟩
  · rw [hv1] at hflag; cases hflag

theorem addHeart_quiet (w : World) (count : Nat) : Quiet w (addHeart w count) := by
  unfold addHeart
  split
  · exact Quiet.refl w
  · exact Quiet.of_fields _ _ rfl rfl (Or.inr ⟨Timer.addHeart (count + 1), by simp, rfl⟩)

theorem handleYes_quiet (w : World) : Quiet w (handleYes w) := by
  unfold handleYes spawnHearts saveAnswer
  simp only []
  have h := addHeart_quiet { w with
    phrase := "<span class=\"phraseText\">Yayyy!</span> 🥰🥳🎉"
    overlayWon := true
    revealActionsDisplay := "none"
    nextBtnDisplay := "inline-block" } 0
  exact ⟨h.1, h.2.1, h.2.2⟩

theorem handleNo_quiet (w : World) : Quiet w (handleNo w) := by
  unfold handleNo
  simp only []
  split
  · exact Quiet.of_fields _ _ rfl rfl (Or.inr ⟨Timer.closeWindow, by decide, rfl⟩)
  · split
    · exact Quiet.of_fields _ _ rfl rfl (Or.inl rfl)
    · exact Quiet.of_fields _ _ rfl rfl (Or.inl rfl)

theorem keydownUpper_revealStep (w : World) (tagName key upper : String) :
    RevealStep w (keydownUpper w tagName key upper) := by
  unfold keydownUpper
  split
  · exact Or.inl (Quiet.refl w)
  · split
    · exact Or.inl (undo_quiet w)
    · split
      · exact clearAction_revealStep w
      · split
        · split
          · split
            · exact Or.inl (tapTile_quiet w _)
            · exact Or.inl (Quiet.refl w)
          · exact Or.inl (Quiet.refl w)
        · exact Or.inl (Quiet.refl w)

theorem keydown_revealStep (w : World) (tagName key : String) :
    RevealStep w (keydown w tagName key) :=
  keydownUpper_revealStep w tagName key _

theorem fire_revealStep (w : World) (k : Nat) : RevealStep w (step w (Event.fire k)) := by
  show RevealStep w (match w.timers[k]? with
      | none => w
      | some t => runTimer { w with timers := w.timers.eraseIdx k } t)
  cases ht : w.timers[k]? with
  | none => exact Or.inl (Quiet.refl w)
  | some t =>
    simp only []
    have hq : Quiet w { w with timers := w.timers.eraseIdx k } :=
      ⟨rfl, rfl, fun hm => List.mem_of_mem_eraseIdx hm⟩
    cases t with
    | afterMatch => exact RevealStep.of_quiet_left hq (afterMatch_revealStep _)
    | afterWrong => exact RevealStep.of_quiet_left hq (afterWrong_revealStep _)
    | giveUpReveal =>
      right; right; right
      obtain ⟨hk, hget⟩ := List.getElem?_eq_some_iff.mp ht
      refine ⟨hget ▸ List.getElem_mem hk, rfl, rfl, fun hm => ?_⟩
      exact List.mem_of_mem_eraseIdx hm
    | closeWindow => exact Or.inl hq
    | addHeart count => exact Or.inl (hq.trans (addHeart_quiet _ count))

theorem step_revealStep (w : World) (e : Event) : RevealStep w (step w e) := by
  cases e with
  | tapTile id => exact Or.inl (tapTile_quiet w id)
  | keydown tagName key => exact keydown_revealStep w tagName key
  | undo => exact Or.inl (undo_quiet w)
  | clearAction => exact clearAction_revealStep w
  | skipWord => exact skipWordLoop_revealStep w _ _
  | giveUp => exact giveUp_revealStep w
  | handleYes => exact Or.inl (handleYes_quiet w)
  | handleNo => exact Or.inl (handleNo_quiet w)
  | switchWord idx => exact switchWord_revealStep w idx
  | submitNickname => exact submitNickname_revealStep w
  | fire k => exact fire_revealStep w k

/-- Once the give-up flag is set, a turn of the event loop keeps it set and
shows at most the give-up variant. -/
theorem flag_step (w w1 : World) (h : RevealStep w w1) (hflag : w.revealedByGiveUp = true) :
    w1.revealedByGiveUp = true ∧
    ∃ rest, w1.revealCalls = w.revealCalls ++ rest ∧ ∀ b ∈ rest, b = false := by
  rcases h with ⟨q1, q2, -⟩ | ⟨g1, -⟩ | ⟨g1, g2⟩ | ⟨-, g2, g3, -⟩
  · exact ⟨q1.trans hflag, [], by rw [q2]; simp, fun b hb => by cases hb⟩
  · rw [hflag] at g1; cases g1
  · exact ⟨g1, [], by rw [g2]; simp, fun b hb => by cases hb⟩
  · exact ⟨g2.trans hflag, [false], g3, fun b hb => List.mem_singleton.mp hb⟩

theorem flag_run (w : World) (evs : List Event) (hflag : w.revealedByGiveUp = true) :
    (run w evs).revealedByGiveUp = true ∧
    ∃ rest, (run w evs).revealCalls = w.revealCalls ++ rest ∧ ∀ b ∈ rest, b = false := by
  induction evs generalizing w with
  | nil => exact ⟨hflag, [], by simp [run], fun b hb => by cases hb⟩
  | cons e evs ih =>
    obtain ⟨h1, r1, h2, h3⟩ := flag_step w (step w e) (step_revealStep w e) hflag
    obtain ⟨h4, r2, h5, h6⟩ := ih (step w e) h1
    refine ⟨h4, r1 ++ r2, ?_, ?_⟩
    · rw [run_cons, h5, h2, List.append_assoc]
    · intro b hb
      rcases List.mem_append.mp hb with hb | hb
      · exact h3 b hb
      · exact h6 b hb

/-- The world after `giveUp()`. -/
theorem giveUp_eq (w : World) :
    ∃ hint, giveUp w = { w with
      revealedByGiveUp := true
      state := { w.state with found := WORDS.foldl setAdd w.state.found }
      hintText := hint
      timers := w.timers ++ [Timer.giveUpReveal] } := by
  unfold giveUp
  simp only []
  generalize hv : ({ w with
    revealedByGiveUp := true
    state := { w.state with found := WORDS.foldl setAdd w.state.found } } : World) = v
  have hv1 : v.revealedByGiveUp = true := by rw [← hv]
  rcases renderStats_cases v with ⟨hint, h, -⟩ | ⟨-, hflag, -⟩
  · have hr : render v = { v with hintText := hint } := h
    refine ⟨hint, ?_⟩
    rw [hr, ← hv]
  · rw [hv1] at hflag; cases hflag

/-- In a reachable world, a pending give-up timer or a give-up variant already
shown means that the give-up flag is set. -/
theorem Reachable.giveUp_flag {w : World} (h : Reachable w) :
    (Timer.giveUpReveal ∈ w.timers ∨ false ∈ w.revealCalls) → w.revealedByGiveUp = true := by
  refine Reachable.induct
    (P := fun w => (Timer.giveUpReveal ∈ w.timers ∨ false ∈ w.revealCalls) →
      w.revealedByGiveUp = true) ?_ ?_ h
  · intro r hm
    rcases hm with hm | hm <;> cases hm
  · intro w e _ ih hm
    rcases step_revealStep w e with ⟨q1, q2, q3⟩ | ⟨g1, g2, g3, g4⟩ | ⟨g1, -⟩ | ⟨g1, g2, g3, g4⟩
    · rw [q1]
      apply ih
      rcases hm with hm | hm
      · exact Or.inl (q3 hm)
      · rw [q2] at hm; exact Or.inr hm
    · exfalso
      have : w.revealedByGiveUp = true := by
        apply ih
        rcases hm with hm | hm
        · exact Or.inl (g4 hm)
        · rw [g3] at hm
          simp at hm
          exact Or.inr hm
      rw [g1] at this; cases this
    · exact g1
    · rw [g2]
      exact ih (Or.inl g1)

/-! ## C7 -/

set_option maxRecDepth 100000 in
/-- C7 refuted as stated: `showReveal` runs twice in one session, and the
second run resets the count of negative responses.  First run of the events:
all five words are typed, the won variant is shown, `No` is pressed twice
(count `2`), and the `Escape` key renders again: the won variant is shown a
second time and the count is `0`.  Second run: `giveUp` is pressed twice, the
first timer shows the give-up variant, `No` is pressed (count `1`), and the
second timer shows the variant again with the count back at `0`. -/
theorem showReveal_runs_twice :
    (run (initWorld sampleRand) (wonEvents ++ [Event.handleNo, Event.handleNo])).revealCalls
      = [true] ∧
    (run (initWorld sampleRand) (wonEvents ++ [Event.handleNo, Event.handleNo])).noCount = 2 ∧
    (run (initWorld sampleRand)
      (wonEvents ++ [Event.handleNo, Event.handleNo, Event.keydown "BODY" "Escape"])).revealCalls
      = [true, true] ∧
    (run (initWorld sampleRand)
      (wonEvents ++ [Event.handleNo, Event.handleNo, Event.keydown "BODY" "Escape"])).noCount = 0 ∧
    (run (initWorld sampleRand) [Event.submitNickname, Event.giveUp, Event.giveUp,
      Event.fire 0, Event.handleNo]).revealCalls = [false] ∧
    (run (initWorld sampleRand) [Event.submitNickname, Event.giveUp, Event.giveUp,
      Event.fire 0, Event.handleNo]).noCount = 1 ∧
    (run (initWorld sampleRand) [Event.submitNickname, Event.giveUp, Event.giveUp,
      Event.fire 0, Event.handleNo, Event.fire 0]).revealCalls = [false, false] ∧
    (run (initWorld sampleRand) [Event.submitNickname, Event.giveUp, Event.giveUp,
      Event.fire 0, Event.handleNo, Event.fire 0]).noCount = 0 := by
  refine ⟨?_, ?_, ?_, ?_, ?_, ?_, ?_, ?_⟩ <;> decide

/-- C7, as the code has it: there is no re-entry guard on `showReveal`, but
the won variant never fires after the reveal was shown via give-up.  In a
reachable world in which the give-up variant has been shown, the give-up flag
is set, and along every further run of events it stays set and every further
call of `showReveal` is a give-up variant. -/
theorem won_not_after_giveUp (w : World) (hr : Reachable w) (hshown : false ∈ w.revealCalls)
    (evs : List Event) :
    w.revealedByGiveUp = true ∧
    (run w evs).revealedByGiveUp = true ∧
    ∃ rest, (run w evs).revealCalls = w.revealCalls ++ rest ∧ ∀ b ∈ rest, b = false := by
  have hflag := hr.giveUp_flag (Or.inr hshown)
  exact ⟨hflag, flag_run w evs hflag⟩

set_option maxRecDepth 100000 in
/-- C7, as the code has it, after a give-up whose variant was shown: the
`Escape` key, a second give-up and its timer show no won variant. -/
theorem won_not_after_giveUp_witness :
    (run (initWorld sampleRand) [Event.submitNickname, Event.giveUp, Event.fire 0]).revealCalls
      = [false] ∧
    ∃ rest, (run (run (initWorld sampleRand) [Event.submitNickname, Event.giveUp, Event.fire 0])
        [Event.keydown "BODY" "Escape", Event.giveUp, Event.fire 0]).revealCalls
      = (run (initWorld sampleRand) [Event.submitNickname, Event.giveUp,
          Event.fire 0]).revealCalls ++ rest ∧ ∀ b ∈ rest, b = false :=
  ⟨by decide,
   (won_not_after_giveUp
      (run (initWorld sampleRand) [Event.submitNickname, Event.giveUp, Event.fire 0])
      ⟨sampleRand, _, rfl⟩ (by decide)
      [Event.keydown "BODY" "Escape", Event.giveUp, Event.fire 0]).2.2⟩

/-! ## C8 -/

/-- C8: in every reachable world, whatever was found before, `giveUp` makes the
found set the set of `WORDS` (the same words, each once), sets the give-up flag
and schedules the reveal; whatever events run in between, the flag is still
set when a pending give-up timer fires, and the timer shows the give-up
variant with the flag set. -/
theorem giveUp_marks_all (w : World) (hr : Reachable w) (evs : List Event) :
    (giveUp w).state.found.Perm WORDS ∧
    (∀ x, x ∈ (giveUp w).state.found ↔ x ∈ WORDS) ∧
    (giveUp w).revealedByGiveUp = true ∧
    (giveUp w).timers = w.timers ++ [Timer.giveUpReveal] ∧
    (run (giveUp w) evs).revealedByGiveUp = true ∧
    (∀ k, (run (giveUp w) evs).timers[k]? = some Timer.giveUpReveal →
      (step (run (giveUp w) evs) (Event.fire k)).revealCalls
        = (run (giveUp w) evs).revealCalls ++ [false] ∧
      (step (run (giveUp w) evs) (Event.fire k)).revealedByGiveUp = true) := by
  obtain ⟨hsub, hnd, -, -⟩ := hr.inv
  obtain ⟨hint, hg⟩ := giveUp_eq w
  have hfound : (giveUp w).state.found = WORDS.foldl setAdd w.state.found := by rw [hg]
  have hflag : (giveUp w).revealedByGiveUp = true := by rw [hg]
  have hmem : ∀ x, x ∈ (giveUp w).state.found ↔ x ∈ WORDS := by
    intro x
    rw [hfound, mem_foldl_setAdd]
    constructor
    · rintro (h | h)
      · exact hsub x h
      · exact h
    · exact Or.inr
  have hrun := (flag_run (giveUp w) evs hflag).1
  refine ⟨?_, hmem, hflag, by rw [hg], hrun, ?_⟩
  · rw [List.perm_ext_iff_of_nodup (by rw [hfound]; exact foldl_setAdd_nodup _ _ hnd)
      (by decide)]
    exact hmem
  · intro k hk
    have hstep : step (run (giveUp w) evs) (Event.fire k) =
        showReveal { run (giveUp w) evs with
          timers := (run (giveUp w) evs).timers.eraseIdx k } false := by
      show (match (run (giveUp w) evs).timers[k]? with
        | none => run (giveUp w) evs
        | some t => runTimer { run (giveUp w) evs with
            timers := (run (giveUp w) evs).timers.eraseIdx k } t) = _
      rw [hk]
      rfl
    rw [hstep]
    exact ⟨rfl, hrun⟩

set_option maxRecDepth 100000 in
/-- C8 after `"WILL"` was found: give up, then press `Escape`. -/
theorem giveUp_marks_all_witness :
    (run sampleWorld [Event.tapTile 10, Event.tapTile 1, Event.tapTile 2,
      Event.tapTile 9]).state.found = ["WILL"] ∧
    (giveUp (run sampleWorld [Event.tapTile 10, Event.tapTile 1, Event.tapTile 2,
      Event.tapTile 9])).state.found.Perm WORDS ∧
    (run (giveUp (run sampleWorld [Event.tapTile 10, Event.tapTile 1, Event.tapTile 2,
      Event.tapTile 9])) [Event.keydown "BODY" "Escape"]).revealedByGiveUp = true :=
  ⟨by decide,
   (giveUp_marks_all _ (sampleWorld_reachable.after_run _) []).1,
   (giveUp_marks_all _ (sampleWorld_reachable.after_run _) _).2.2.2.2.1⟩

/-! ## C11 -/

theorem shuffleMemLoop_spec {α : Type} (i : Nat) (m : ShuffleMem α) (r : Rand) :
    (shuffleMemLoop i m r).1.arr = m.arr ∧
    (shuffleMemLoop i m r).1.a = (shuffleLoop i m.a r).1 ∧
    (shuffleMemLoop i m r).2 = (shuffleLoop i m.a r).2 := by
  induction i generalizing m r with
  | zero => exact ⟨rfl, rfl, rfl⟩
  | succ i ih =>
    simp only [shuffleMemLoop, shuffleLoop]
    exact ih _ _

/-- C11: for every input array and every random source, `shuffle` returns an
array that is a permutation of the input (the same elements with the same
multiplicities, hence the same length); the array it returns is the copy it
works on, and the input array is as it was. -/
theorem shuffle_permutation {α : Type} (arr : List α) (r : Rand) :
    (shuffle arr r).1.Perm arr ∧
    (shuffle arr r).1.length = arr.length ∧
    (shuffleMem arr r).1.arr = arr ∧
    (shuffleMem arr r).1.a = (shuffle arr r).1 := by
  obtain ⟨h1, h2, -⟩ := shuffleMemLoop_spec (arr.length - 1) { arr := arr, a := arr } r
  exact ⟨shuffle_perm arr r, (shuffle_perm arr r).length_eq, h1, h2⟩

/-! ## C12 -/

theorem swap_length {α : Type} (a : List α) (i j : Nat) : (swap a i j).length = a.length := by
  unfold swap
  split <;> simp

theorem swap_append {α : Type} (f b : List α) (i j : Nat) (hi : i < f.length)
    (hj : j < f.length) : swap (f ++ b) i j = swap f i j ++ b := by
  unfold swap
  rw [List.getElem?_append_left hi, List.getElem?_append_left hj,
    List.getElem?_eq_getElem hi, List.getElem?_eq_getElem hj]
  simp only []
  rw [List.set_append_left _ _ hi, List.set_append_left _ _ (by simpa using hj)]

/-- The loop entered with `i` works on the first `i + 1` cells only. -/
theorem shuffleLoop_append {α : Type} (i : Nat) (f b : List α) (r : Rand)
    (hi : i < f.length) :
    shuffleLoop i (f ++ b) r = ((shuffleLoop i f r).1 ++ b, (shuffleLoop i f r).2) := by
  induction i generalizing f r with
  | zero => rfl
  | succ i ih =>
    simp only [shuffleLoop, randomBelow]
    have hj : r 0 % (i + 2) < f.length :=
      Nat.lt_of_lt_of_le (Nat.mod_lt _ (by omega)) (by omega)
    rw [swap_append f b (i + 1) _ hi hj]
    exact ih _ _ (by rw [swap_length]; omega)

/-- The first round on an array of `i + 2` cells puts the cell drawn in the
last place. -/
theorem swap_last {α : Type} (a : List α) (i j : Nat) (hlen : a.length = i + 2)
    (hj : j ≤ i + 1) :
    ∃ f1 y, a[j]? = some y ∧ swap a (i + 1) j = f1 ++ [y] ∧ f1.length = i + 1 := by
  have hi1 : i + 1 < a.length := by omega
  have hj1 : j < a.length := by omega
  have hne : swap a (i + 1) j ≠ [] := by
    intro h
    have := congrArg List.length h
    rw [swap_length, List.length_nil] at this
    omega
  refine ⟨(swap a (i + 1) j).dropLast, a[j], List.getElem?_eq_getElem hj1, ?_, ?_⟩
  · have hlast : (swap a (i + 1) j).getLast hne = a[j] := by
      rw [List.getLast_eq_getElem]
      have hidx : (swap a (i + 1) j).length - 1 = i + 1 := by rw [swap_length]; omega
      simp only [hidx]
      unfold swap
      simp only [List.getElem?_eq_getElem hi1, List.getElem?_eq_getElem hj1]
      rw [List.getElem_set]
      split
      · rename_i h; subst h; rfl
      · rw [List.getElem_set]; simp
    rw [← hlast]
    exact (List.dropLast_append_getLast hne).symm
  · rw [List.length_dropLast, swap_length]; omega

theorem streamOf_cons (d : Nat) (ds : List Nat) :
    (fun n => streamOf (d :: ds) (n + 1)) = streamOf ds := by
  funext n
  rfl

/-- One round of the loop, on a valid draw. -/
theorem shuffleLoop_cons {α : Type} (i d : Nat) (ds : List Nat) (a : List α) (hd : d ≤ i + 1) :
    shuffleLoop (i + 1) a (streamOf (d :: ds)) = shuffleLoop i (swap a (i + 1) d) (streamOf ds) := by
  simp only [shuffleLoop, randomBelow]
  rw [streamOf_cons]
  have : streamOf (d :: ds) 0 % (i + 2) = d := by
    show d % (i + 2) = d
    exact Nat.mod_eq_of_lt (by omega)
  rw [this]

/-- The loop of `shuffle` on an array of `i + 1` pairwise distinct cells: every
arrangement of the cells comes from exactly one valid sequence of draws. -/
theorem shuffleLoop_bijection {α : Type} (i : Nat) (a : List α) (hnd : a.Nodup)
    (hlen : a.length = i + 1) (p : List α) (hp : p.Perm a) :
    ∃! ds, validDraws i ds = true ∧ (shuffleLoop i a (streamOf ds)).1 = p := by
  induction i generalizing a p with
  | zero =>
    refine ⟨[], ⟨rfl, ?_⟩, ?_⟩
    · show a = p
      obtain ⟨x, rfl⟩ := List.length_eq_one.mp hlen
      exact (List.perm_singleton.mp hp).symm
    · rintro ds ⟨hv, -⟩
      cases ds with
      | nil => rfl
      | cons d ds => simp [validDraws] at hv
  | succ i ih =>
    have hplen : p.length = i + 2 := hp.length_eq.trans hlen
    have hpne : p ≠ [] := by
      intro h; rw [h] at hplen; simp at hplen
    have hsplit := List.dropLast_append_getLast hpne
    generalize p.dropLast = q at hsplit
    generalize p.getLast hpne = y at hsplit
    subst hsplit
    have hy : y ∈ a := hp.mem_iff.mp (by simp)
    obtain ⟨j, hj, hjy⟩ := List.getElem_of_mem hy
    have hjle : j ≤ i + 1 := by omega
    obtain ⟨f1, y1, hy1, hswap, hf1len⟩ := swap_last a i j hlen hjle
    have hyy : y1 = y := by
      rw [List.getElem?_eq_getElem hj, hjy] at hy1
      exact (Option.some.inj hy1).symm
    subst hyy
    have hperm1 : (f1 ++ [y1]).Perm a := hswap ▸ swap_perm a (i + 1) j
    have hf1nd : f1.Nodup := by
      have : (f1 ++ [y1]).Nodup := hperm1.nodup_iff.mpr hnd
      exact (List.nodup_append.mp this).1
    have hq : q.Perm f1 := by
      have : (q ++ [y1]).Perm (f1 ++ [y1]) := hp.trans hperm1.symm
      exact (List.perm_append_right_iff [y1]).mp this
    obtain ⟨ds1, ⟨hv1, hr1⟩, huniq⟩ := ih f1 hf1nd hf1len q hq
    have hrun : ∀ d ds, d ≤ i + 1 → ∀ g z, swap a (i + 1) d = g ++ [z] → g.length = i + 1 →
        (shuffleLoop (i + 1) a (streamOf (d :: ds))).1
          = (shuffleLoop i g (streamOf ds)).1 ++ [z] := by
      intro d ds hd g z hg hglen
      rw [shuffleLoop_cons i d ds a hd, hg, shuffleLoop_append i g [z] _ (by omega)]
    refine ⟨j :: ds1, ⟨?_, ?_⟩, ?_⟩
    · simp [validDraws, hjle, hv1]
    · rw [hrun j ds1 hjle f1 y1 hswap hf1len, hr1]
    · rintro ds ⟨hv, hr⟩
      cases ds with
      | nil => simp [validDraws] at hv
      | cons d ds0 =>
        simp only [validDraws, Bool.and_eq_true, decide_eq_true_eq] at hv
        obtain ⟨g, z, hz, hg, hglen⟩ := swap_last a i d hlen hv.1
        rw [hrun d ds0 hv.1 g z hg hglen] at hr
        have hlens : (shuffleLoop i g (streamOf ds0)).1.length = q.length := by
          have h1 := (shuffleLoop_perm i g (streamOf ds0)).length_eq
          have h2 := hq.length_eq
          omega
        obtain ⟨hpre, hlast⟩ := List.append_inj hr hlens
        have hzy : z = y1 := by simpa using hlast
        subst hzy
        have hdj : d = j := by
          have hdlt : d < a.length := by omega
          exact List.getElem?_inj hdlt hnd (hz.trans hy1.symm)
        subst hdj
        have hgf : g = f1 := by
          have := hg.symm.trans hswap
          exact (List.append_inj this (by omega)).1
        subst hgf
        have := huniq ds0 ⟨hv.2, hpre⟩
        rw [this]

/-- C12: for every array of pairwise distinct elements, the map from the valid
sequences of index draws (one draw `j` in `0 .. i` for each `i` from
`n - 1` down to `1`) to the output of `shuffle` is a bijection onto the
permutations of the input: every output is a permutation of the input, and
every permutation of the input is the output of exactly one valid sequence of
draws.  The permutations of the input are `n!` pairwise distinct arrays, so
under draws that are uniform and independent each of them has the same
probability `1 / n!`. -/
theorem shuffle_bijection {α : Type} (arr : List α) (hnd : arr.Nodup) :
    (∀ ds, validDraws (arr.length - 1) ds = true →
      (shuffle arr (streamOf ds)).1.Perm arr) ∧
    (∀ p, p.Perm arr →
      ∃! ds, validDraws (arr.length - 1) ds = true ∧ (shuffle arr (streamOf ds)).1 = p) ∧
    (∀ p, p ∈ arr.permutations ↔ p.Perm arr) ∧
    arr.permutations.Nodup ∧
    arr.permutations.length = arr.length.factorial := by
  refine ⟨fun ds _ => shuffle_perm arr _, ?_, fun p => List.mem_permutations,
    List.nodup_permutations arr hnd, List.length_permutations arr⟩
  intro p hp
  cases arr with
  | nil =>
    have hpnil : p = [] := List.perm_nil.mp hp
    subst hpnil
    refine ⟨[], ⟨rfl, rfl⟩, ?_⟩
    rintro ds ⟨hv, -⟩
    cases ds with
    | nil => rfl
    | cons d ds => simp [validDraws] at hv
  | cons x xs =>
    exact shuffleLoop_bijection xs.length (x :: xs) hnd rfl p hp

/-- C12 on the array `[1, 2, 3]`: the arrangement `[3, 1, 2]` comes from
exactly one sequence of draws. -/
theorem shuffle_bijection_witness :
    (shuffle [1, 2, 3] (streamOf [0, 0])).1 = [2, 3, 1] ∧
    ∃! ds, validDraws ([1, 2, 3].length - 1) ds = true ∧
      (shuffle [1, 2, 3] (streamOf ds)).1 = [3, 1, 2] :=
  ⟨by decide, (shuffle_bijection [1, 2, 3] (by decide)).2.1 [3, 1, 2] (by decide)⟩

/-! ## C13 -/

/-- C13: in a reachable world the documented invalid actions change nothing at
all (so the found set, `activeIdx`, the pool with its flags, the placement and
`nextId` are as before, no answer is checked and no timer is set): `tapTile`
with an id that no tile of the pool has, with the id of a used tile, with the
placement already full, or with no active word; `undo` with an empty
placement; `switchWord` with an index out of range or with the index of a
found word. -/
theorem invalid_actions_noop (w : World) (hr : Reachable w) (id : Nat) (idx : Int) :
    ((∀ p ∈ w.state.pool, p.id ≠ id) → tapTile w id = w) ∧
    ((∃ p ∈ w.state.pool, p.id = id ∧ p.used = true) → tapTile w id = w) ∧
    ((∃ word, activeWord w.state = some word ∧ word.length ≤ w.state.filled.length) →
      tapTile w id = w) ∧
    (activeWord w.state = none → tapTile w id = w) ∧
    (w.state.filled = [] → undo w = w) ∧
    ((idx < 0 ∨ (WORDS.length : Int) ≤ idx) → switchWord w idx = w) ∧
    ((∃ word, wordAt idx = some word ∧ word ∈ w.state.found) → switchWord w idx = w) := by
  have hnd := hr.inv.2.2.1
  refine ⟨?_, ?_, ?_, ?_, ?_, ?_, ?_⟩
  · intro hno
    rcases tapTile_cases w id with h | ⟨item, word, -, -, -, hfind, -, -⟩
    · exact h
    · obtain ⟨hmem, hid⟩ := find_some_mem _ _ _ hfind
      exact absurd hid (hno item hmem)
  · rintro ⟨p, hp, hpid, hpu⟩
    rcases tapTile_cases w id with h | ⟨item, word, -, -, -, hfind, hused, -⟩
    · exact h
    · exfalso
      have := find_of_mem _ p hnd hp
      rw [hpid, hfind] at this
      have hip : item = p := Option.some.inj this
      rw [hip, hpu] at hused
      cases hused
  · rintro ⟨word, hw, hfull⟩
    rcases tapTile_cases w id with h | ⟨item, word2, hw2, -, hlen, -, -, -⟩
    · exact h
    · exfalso
      rw [hw] at hw2
      have : word = word2 := Option.some.inj hw2
      subst this
      omega
  · intro hnone
    rcases tapTile_cases w id with h | ⟨item, word2, hw2, -⟩
    · exact h
    · rw [hnone] at hw2; cases hw2
  · intro hempty
    rcases undo_cases w with ⟨-, h⟩ | ⟨last, hl, -⟩
    · exact h
    · rw [hempty] at hl; cases hl
  · intro hout
    rcases switchWord_cases w idx with ⟨-, h⟩ | ⟨h0, h5, -⟩
    · exact h
    · omega
  · rintro ⟨word, hword, hfound⟩
    rcases switchWord_cases w idx with ⟨-, h⟩ | ⟨-, -, hnot, -⟩
    · exact h
    · exfalso
      rw [hword] at hnot
      simp [setHas, hfound] at hnot

/-- C13 on `sampleWorld` after the tap on `W`: tapping `W` again, tapping an id
that no tile has, undoing in `sampleWorld`, switching to index `7`. -/
theorem invalid_actions_noop_witness :
    tapTile (run sampleWorld [Event.tapTile 10]) 10 = run sampleWorld [Event.tapTile 10] ∧
    tapTile (run sampleWorld [Event.tapTile 10]) 99 = run sampleWorld [Event.tapTile 10] ∧
    undo sampleWorld = sampleWorld ∧
    switchWord sampleWorld 7 = sampleWorld :=
  ⟨(invalid_actions_noop _ (sampleWorld_reachable.after_run _) 10 0).2.1
      ⟨{ letter := 'W', id := 10, used := true }, by decide, by decide, by decide⟩,
   (invalid_actions_noop _ (sampleWorld_reachable.after_run _) 99 0).1 (by decide),
   (invalid_actions_noop sampleWorld sampleWorld_reachable 0 0).2.2.2.2.1 (by decide),
   (invalid_actions_noop sampleWorld sampleWorld_reachable 0 7).2.2.2.2.2.1 (by decide)⟩

/-! ## C15 -/

/-- The tile that `find` returns for an id after `setUsed`. -/
theorem find_setUsed (pool : List Tile) (i j : Nat) (b : Bool) :
    (setUsed pool i b).find? (fun p => p.id == j) =
      if i = j then (pool.find? (fun p => p.id == j)).map (fun p => { p with used := b })
      else pool.find? (fun p => p.id == j) := by
  induction pool with
  | nil => simp [setUsed]
  | cons p ps ih =>
    simp only [setUsed]
    by_cases hpi : p.id = i
    · rw [if_pos hpi]
      by_cases hij : i = j
      · have hpj : p.id = j := hpi.trans hij
        rw [if_pos hij, List.find?_cons_of_pos _ (by simpa using hpj),
          List.find?_cons_of_pos _ (by simpa using hpj)]
        rfl
      · have hpj : ¬ p.id = j := fun h => hij (hpi.symm.trans h)
        rw [if_neg hij, List.find?_cons_of_neg _ (by simpa using hpj),
          List.find?_cons_of_neg _ (by simpa using hpj)]
    · rw [if_neg hpi]
      by_cases hpj : p.id = j
      · have hij : ¬ i = j := fun h => hpi (hpj.trans h.symm)
        rw [if_neg hij, List.find?_cons_of_pos _ (by simpa using hpj),
          List.find?_cons_of_pos _ (by simpa using hpj)]
      · rw [List.find?_cons_of_neg _ (by simpa using hpj),
          List.find?_cons_of_neg _ (by simpa using hpj)]
        exact ih

/-- The tile that `find` returns for an id after the loop of `clearFilled`. -/
theorem find_clear (filled pool : List Tile) (j : Nat) :
    (filled.foldl (fun pool f => setUsed pool f.id false) pool).find? (fun p => p.id == j) =
      if j ∈ filled.map Tile.id then
        (pool.find? (fun p => p.id == j)).map (fun p => { p with used := false })
      else pool.find? (fun p => p.id == j) := by
  induction filled generalizing pool with
  | nil => simp
  | cons f fs ih =>
    rw [List.foldl_cons, ih, find_setUsed]
    by_cases hfj : f.id = j
    · subst hfj
      by_cases hfs : f.id ∈ fs.map Tile.id
      · simp [hfs, Option.map_map, Function.comp_def]
      · simp [hfs]
    · have hjf : ¬ j = f.id := fun h => hfj h.symm
      by_cases hfs : j ∈ fs.map Tile.id
      · simp [hfj, hjf, hfs]
      · simp [hfj, hjf, hfs]

theorem mem_setUsed_false (pool : List Tile) (i : Nat) (q : Tile)
    (hq : q ∈ setUsed pool i false) (hu : q.used = true) : q ∈ pool := by
  induction pool with
  | nil => simp [setUsed] at hq
  | cons p ps ih =>
    simp only [setUsed] at hq
    split at hq
    · rcases List.mem_cons.mp hq with h | h
      · rw [h] at hu; cases hu
      · exact List.mem_cons_of_mem _ h
    · rcases List.mem_cons.mp hq with h | h
      · rw [h]; exact List.mem_cons_self _ _
      · exact List.mem_cons_of_mem _ (ih h)

theorem mem_clear_used (filled pool : List Tile) (q : Tile)
    (hq : q ∈ filled.foldl (fun pool f => setUsed pool f.id false) pool)
    (hu : q.used = true) : q ∈ pool := by
  induction filled generalizing pool with
  | nil => exact hq
  | cons f fs ih => exact mem_setUsed_false _ _ _ (ih _ hq) hu

/-- C15: for every world, `clearFilled` empties the placement and marks unused
the tile that each placed tile designates (the tile `find` returns for its id),
leaving the ids, the letters and the order of the pool as they were, and no
tile used that was not; nothing else of `state` changes.  Applying it twice
gives the same world as applying it once, and `clearAction` is `clearFilled`
followed by a render.  On a well-formed state every tile of the pool is
unused afterwards. -/
theorem clearFilled_idempotent (w : World) :
    (clearFilled w).state.filled = [] ∧
    (∀ f ∈ w.state.filled, ∀ item,
      (clearFilled w).state.pool.find? (fun p => p.id == f.id) = some item →
      item.used = false) ∧
    (clearFilled w).state.pool.map Tile.id = w.state.pool.map Tile.id ∧
    (clearFilled w).state.pool.map Tile.letter = w.state.pool.map Tile.letter ∧
    (∀ p ∈ (clearFilled w).state.pool, p.used = true → p ∈ w.state.pool) ∧
    (clearFilled w).state.found = w.state.found ∧
    (clearFilled w).state.activeIdx = w.state.activeIdx ∧
    (clearFilled w).state.nextId = w.state.nextId ∧
    clearFilled (clearFilled w) = clearFilled w ∧
    clearAction w = render (clearFilled w) ∧
    (clearAction w).state = (clearFilled w).state ∧
    (clearAction (clearAction w)).state = (clearAction w).state ∧
    (Inv w.state → ∀ p ∈ (clearFilled w).state.pool, p.used = false) := by
  refine ⟨rfl, ?_, by simp, by simp, ?_, rfl, rfl, rfl, rfl, rfl, ?_, ?_, ?_⟩
  · intro f hf item hitem
    rw [clearFilled_state] at hitem
    simp only [] at hitem
    rw [find_clear, if_pos (List.mem_map_of_mem Tile.id hf)] at hitem
    cases hfind : w.state.pool.find? (fun p => p.id == f.id) with
    | none => rw [hfind] at hitem; cases hitem
    | some q =>
      rw [hfind] at hitem
      have : item = { q with used := false } := (Option.some.inj hitem).symm
      rw [this]
  · intro p hp hu
    exact mem_clear_used _ _ _ hp hu
  · show (render (clearFilled w)).state = _
    rw [render_state]
  · show (render (clearFilled (render (clearFilled w)))).state = (render (clearFilled w)).state
    rw [render_state, render_state, clearFilled_state, clearFilled_state, render_state,
      clearFilled_state]
    rfl
  · intro hinv p hp
    have h := (afterWrong_spec w hinv).2.1 p
    unfold afterWrong at h
    rw [render_state] at h
    exact h hp

/-! ## C16 -/

/-- With the upper-casing of `toUpperCase`, a key whose upper-cased form is one
character is neither `Backspace` nor `Escape`. -/
theorem toUpperCase_single (key : String) (c : Char) (h : (toUpperCase key).toList = [c]) :
    key ≠ "Backspace" ∧ key ≠ "Escape" := by
  have hlen : key.toList.length = 1 := by
    have := congrArg List.length h
    simpa [toUpperCase] using this
  constructor
  · intro hk; rw [hk] at hlen; revert hlen; decide
  · intro hk; rw [hk] at hlen; revert hlen; decide

/-- The upper-casing of `toUpperCase` on the keys that JavaScript maps to a
letter: `l` and `L` to `L`, the dotless i to `I`, the long s to `S`. -/
theorem toUpperCase_letters :
    toUpperCase "l" = "L" ∧ toUpperCase "L" = "L" ∧
    toUpperCase (String.mk [Char.ofNat 0x131]) = "I" ∧
    toUpperCase (String.mk [Char.ofNat 0x17F]) = "S" := by
  decide

/-- C16 refuted as stated: in `sampleWorld` the first unused tile with the
letter `L` has id `2` and the upper-cased form of the key `l` is the letter
`L`, but for a key event whose target is an `INPUT` element the listener
returns at once: the world is as before and the placement stays empty, where
`tapTile` with that id places the tile. -/
theorem letter_key_in_input_ignored :
    (toUpperCase "l").toList = ['L'] ∧
    sampleWorld.state.pool.find? (fun p => !p.used && p.letter == 'L')
      = some { letter := 'L', id := 2, used := false } ∧
    keydown sampleWorld "INPUT" "l" = sampleWorld ∧
    (keydown sampleWorld "INPUT" "l").state.filled = [] ∧
    (tapTile sampleWorld 2).state.filled = [{ letter := 'L', id := 2, used := true }] ∧
    (keydown sampleWorld "INPUT" "l").state ≠ (tapTile sampleWorld 2).state :=
  ⟨by decide, by decide, rfl, by decide, by decide,
   fun h => absurd (congrArg (fun s => s.filled.length) h) (by decide)⟩

/-- C16, as the code has it: for every world and every key event whose key,
other than `Backspace` and `Escape`, has an upper-cased form that is one
letter `A` to `Z`: when the target of the event is an `INPUT` or a `TEXTAREA`
element the `keydown` listener changes nothing; otherwise it changes nothing
when no unused tile of the pool carries the letter, and else calls `tapTile`
with the id of the first tile in pool order that is unused and carries the
letter, used tiles with the letter before it being skipped; with pairwise
distinct ids and room in the placement this places that very tile.  With the
upper-casing of `toUpperCase` the condition on the key follows from the one on
its upper-cased form. -/
theorem letter_key_places_first (w : World) (tagName key upper : String) (c : Char)
    (hkey : key ≠ "Backspace" ∧ key ≠ "Escape")
    (hup : upper.toList = [c]) (hc : 'A' ≤ c ∧ c ≤ 'Z') :
    ((tagName = "INPUT" ∨ tagName = "TEXTAREA") → keydownUpper w tagName key upper = w) ∧
    ((tagName ≠ "INPUT" ∧ tagName ≠ "TEXTAREA") →
      ((∀ p ∈ w.state.pool, p.used = true ∨ p.letter ≠ c) →
        keydownUpper w tagName key upper = w) ∧
      (∀ front item back, w.state.pool = front ++ item :: back →
        item.used = false → item.letter = c →
        (∀ p ∈ front, p.used = true ∨ p.letter ≠ c) →
        keydownUpper w tagName key upper = tapTile w item.id ∧
        ((w.state.pool.map Tile.id).Nodup →
          ∀ word, activeWord w.state = some word → w.state.filled.length < word.length →
          (keydownUpper w tagName key upper).state.filled = w.state.filled ++ [markUsed item] ∧
          (keydownUpper w tagName key upper).state.pool
            = setUsed w.state.pool item.id true))) ∧
    (toUpperCase key = upper →
      keydown w tagName key = keydownUpper w tagName key upper ∧
      (toUpperCase key).toList = [c]) := by
  refine ⟨?_, ?_, ?_⟩
  · intro htag
    unfold keydownUpper
    rw [if_pos htag]
  · intro htag
    have htag2 : ¬ (tagName = "INPUT" ∨ tagName = "TEXTAREA") := by
      rintro (h | h)
      · exact htag.1 h
      · exact htag.2 h
    have hbody : keydownUpper w tagName key upper =
        match w.state.pool.find? (fun p => !p.used && p.letter == c) with
        | some item => tapTile w item.id
        | none => w := by
      unfold keydownUpper
      rw [if_neg htag2, if_neg hkey.1, if_neg hkey.2, hup]
      simp only []
      rw [if_pos hc]
    refine ⟨?_, ?_⟩
    · intro hno
      have hfind : w.state.pool.find? (fun p => !p.used && p.letter == c) = none := by
        rw [List.find?_eq_none]
        intro p hp
        rcases hno p hp with h | h
        · simp [h]
        · simp [h]
      rw [hbody, hfind]
    · intro front item back hpool hused hletter hfront
      have hfind : w.state.pool.find? (fun p => !p.used && p.letter == c) = some item := by
        rw [List.find?_eq_some]
        refine ⟨by simp [hused, hletter], front, back, hpool, ?_⟩
        intro p hp
        rcases hfront p hp with h | h
        · simp [h]
        · simp [h]
      have hkd : keydownUpper w tagName key upper = tapTile w item.id := by
        rw [hbody, hfind]
      refine ⟨hkd, ?_⟩
      intro hnd word hw hroom
      have hmem : item ∈ w.state.pool := by rw [hpool]; simp
      have hne : word ≠ "" := WORDS_ne_empty _ (wordAt_mem _ _ hw)
      obtain ⟨g1, g2⟩ := tapTile_of_guards w item.id item word hw hne hroom
        (find_of_mem _ item hnd hmem) hused
      rw [hkd]
      by_cases hfull : w.state.filled.length + 1 = word.length
      · rw [g2 hfull]
        obtain ⟨-, h2, h3, -⟩ := checkAnswer_frame (placed w item.id item)
        rw [h2, h3]
        exact ⟨rfl, rfl⟩
      · rw [g1 hfull]
        exact ⟨rfl, rfl⟩
  · intro h
    refine ⟨?_, ?_⟩
    · unfold keydown
      rw [h]
    · rw [h]
      exact hup

/-- C16, as the code has it, on `sampleWorld` after the tap on the first `L`
(id `2`): on the page body the key `l` skips that tile and places the second
`L` (id `9`) and the key `z` changes nothing; in a `TEXTAREA` the key `l`
changes nothing. -/
theorem letter_key_places_first_witness :
    keydown (run sampleWorld [Event.tapTile 2]) "BODY" "l"
      = tapTile (run sampleWorld [Event.tapTile 2]) 9 ∧
    keydown (run sampleWorld [Event.tapTile 2]) "BODY" "z"
      = run sampleWorld [Event.tapTile 2] ∧
    keydown (run sampleWorld [Event.tapTile 2]) "TEXTAREA" "l"
      = run sampleWorld [Event.tapTile 2] :=
  ⟨(((letter_key_places_first (run sampleWorld [Event.tapTile 2]) "BODY" "l" "L" 'L'
      (by decide) (by decide) (by decide)).2.1 (by decide)).2
      [{ letter := 'T', id := 0, used := false }, { letter := 'I', id := 1, used := false },
       { letter := 'L', id := 2, used := true }, { letter := 'D', id := 3, used := false },
       { letter := 'R', id := 4, used := false }, { letter := 'K', id := 5, used := false },
       { letter := 'M', id := 6, used := false }, { letter := 'Y', id := 7, used := false },
       { letter := 'F', id := 8, used := false }]
      { letter := 'L', id := 9, used := false }
      [{ letter := 'W', id := 10, used := false }, { letter := 'A', id := 11, used := false }]
      (by decide) (by decide) (by decide) (by decide)).1,
   ((letter_key_places_first (run sampleWorld [Event.tapTile 2]) "BODY" "z" "Z" 'Z'
      (by decide) (by decide) (by decide)).2.1 (by decide)).1 (by decide),
   (letter_key_places_first (run sampleWorld [Event.tapTile 2]) "TEXTAREA" "l" "L" 'L'
      (by decide) (by decide) (by decide)).1 (by decide)⟩

/-! ## C17 -/

theorem StateStep.found_subset {s t : State} (h : StateStep s t) :
    ∀ x ∈ s.found, x ∈ t.found := by
  cases h with
  | same => exact fun x hx => hx
  | place id item word found hw hne hlen hfind hitem hfound =>
    rcases hfound with rfl | ⟨rfl, -, -⟩
    · exact fun x hx => hx
    · exact fun x hx => (mem_setAdd _ _ _).mpr (Or.inl hx)
  | undo last hl => exact fun x hx => hx
  | clear => exact fun x hx => hx
  | rebuild idx word letters pool hw hpre hlen hperm hids hunused => exact fun x hx => hx
  | giveUp => exact fun x hx => (mem_foldl_setAdd _ _ _).mpr (Or.inl hx)

theorem FoundGrows.of_stateStep (w w1 : World) (hinv : Inv w.state)
    (h : StateStep w.state w1.state) : FoundGrows w w1 :=
  ⟨h.found_subset, (Inv_step _ _ h hinv).1⟩

/-- C17: in every reachable world the found set holds words of `WORDS` only,
and after any action or timer callback (`tapTile`, `checkAnswer`, `undo`,
`clearFilled`, `switchWord`, `skipWord`, `pickNextUnfound`, `giveUp`, the two
delayed callbacks of `checkAnswer`, and every turn of the event loop) the
found set contains the found set before it and still holds words of `WORDS`
only. -/
theorem found_grows (w : World) (hr : Reachable w) (e : Event) (id : Nat) (idx : Int) :
    (∀ x ∈ w.state.found, x ∈ WORDS) ∧
    FoundGrows w (tapTile w id) ∧
    FoundGrows w (checkAnswer w) ∧
    FoundGrows w (undo w) ∧
    FoundGrows w (clearFilled w) ∧
    FoundGrows w (switchWord w idx) ∧
    FoundGrows w (skipWord w) ∧
    FoundGrows w (pickNextUnfound w) ∧
    FoundGrows w (giveUp w) ∧
    FoundGrows w (afterMatch w) ∧
    FoundGrows w (afterWrong w) ∧
    FoundGrows w (step w e) := by
  have hinv := hr.inv
  refine ⟨hinv.1, FoundGrows.of_stateStep _ _ hinv (tapTile_stateStep w id), ?_,
    FoundGrows.of_stateStep _ _ hinv (undo_stateStep w),
    FoundGrows.of_stateStep _ _ hinv (clearFilled_stateStep w),
    FoundGrows.of_stateStep _ _ hinv (switchWord_stateStep w idx),
    FoundGrows.of_stateStep _ _ hinv (skipWord_stateStep w),
    ⟨fun x hx => hx, hinv.1⟩,
    FoundGrows.of_stateStep _ _ hinv (giveUp_stateStep w),
    FoundGrows.of_stateStep _ _ hinv (afterMatch_stateStep w),
    FoundGrows.of_stateStep _ _ hinv (afterWrong_stateStep w),
    FoundGrows.of_stateStep _ _ hinv (step_stateStep w e)⟩
  rcases checkAnswer_cases w with ⟨word, hw, -, h⟩ | ⟨-, h⟩
  · rw [h]
    constructor
    · exact fun x hx => (mem_setAdd _ _ _).mpr (Or.inl hx)
    · intro x hx
      rcases (mem_setAdd _ _ _).mp hx with h1 | rfl
      · exact hinv.1 x h1
      · exact wordAt_mem _ _ hw
  · rw [h]
    exact ⟨fun x hx => hx, hinv.1⟩

set_option maxRecDepth 100000 in
/-- C17 on the world in which `"WILL"` was just found: giving up keeps it. -/
theorem found_grows_witness :
    (run sampleWorld [Event.tapTile 10, Event.tapTile 1, Event.tapTile 2,
      Event.tapTile 9]).state.found = ["WILL"] ∧
    FoundGrows (run sampleWorld [Event.tapTile 10, Event.tapTile 1, Event.tapTile 2,
      Event.tapTile 9])
      (step (run sampleWorld [Event.tapTile 10, Event.tapTile 1, Event.tapTile 2,
        Event.tapTile 9]) Event.giveUp) :=
  ⟨by decide,
   (found_grows _ (sampleWorld_reachable.after_run _) Event.giveUp 0 0).2.2.2.2.2.2.2.2.2.2.2⟩

/-! ## Consistency of pool and placement -/

theorem pool_id_inj (pool : List Tile) (hnd : (pool.map Tile.id).Nodup) (p q : Tile)
    (hp : p ∈ pool) (hq : q ∈ pool) (h : p.id = q.id) : p = q :=
  List.inj_on_of_nodup_map hnd hp hq h

theorem clear_all_unused (s : State) (hinv : Inv s) :
    ∀ p ∈ s.filled.foldl (fun pool f => setUsed pool f.id false) s.pool, p.used = false := by
  obtain ⟨-, -, hids, hused⟩ := hinv
  intro t ht
  rw [clear_pool_eq_map _ _ hids] at ht
  obtain ⟨q, hq, rfl⟩ := List.mem_map.mp ht
  by_cases hqi : q.id ∈ s.filled.map Tile.id
  · rw [if_pos hqi]
  · rw [if_neg hqi]
    cases hu : q.used with
    | false => rfl
    | true => exact absurd (hused q hq hu) hqi

theorem Consistent_init (r : Rand) : Consistent (initWorld r).state := by
  refine ⟨List.nodup_nil, ?_, ?_, ?_⟩
  · intro f hf; cases hf
  · intro p hp; cases hp
  · intro word _; exact Nat.zero_le _

theorem Consistent_step (s t : State) (hst : StateStep s t) (hinv : Inv s)
    (hc : Consistent s) : Consistent t := by
  obtain ⟨hfn, hfp, hiff, hlen⟩ := hc
  have hnd := hinv.2.2.1
  cases hst with
  | same => exact ⟨hfn, hfp, hiff, hlen⟩
  | place id item word found hw hne hroom hfind hitem hfound =>
    obtain ⟨himem, hiid⟩ := find_some_mem _ _ _ hfind
    have hmark_id : (markUsed item).id = id := hiid
    have hnotin : markUsed item ∉ s.filled := by
      intro h
      have h1 := pool_id_inj _ hnd _ _ (hfp _ h) himem rfl
      have h2 := congrArg Tile.used h1
      rw [hitem] at h2
      cases h2
    have hpool : setUsed s.pool id true
        = s.pool.map (fun p => if p.id = id then { p with used := true } else p) :=
      setUsed_eq_map _ _ _ hnd
    refine ⟨?_, ?_, ?_, ?_⟩
    · show (s.filled ++ [markUsed item]).Nodup
      rw [List.nodup_append]
      refine ⟨hfn, List.nodup_singleton _, ?_⟩
      intro a ha hb
      rw [List.mem_singleton] at hb
      exact hnotin (hb ▸ ha)
    · show ∀ f ∈ s.filled ++ [markUsed item], f ∈ setUsed s.pool id true
      intro f hf
      rw [hpool]
      rcases List.mem_append.mp hf with h | h
      · have hfu : f.used = true := (hiff f (hfp f h)).mpr h
        have hfid : f.id ≠ id := by
          intro he
          have h1 := pool_id_inj _ hnd _ _ (hfp f h) himem (he.trans hiid.symm)
          rw [h1, hitem] at hfu
          cases hfu
        exact List.mem_map.mpr ⟨f, hfp f h, if_neg hfid⟩
      · rw [List.mem_singleton] at h
        rw [h]
        exact List.mem_map.mpr ⟨item, himem, by rw [if_pos hiid]; rfl⟩
    · show ∀ p ∈ setUsed s.pool id true, p.used = true ↔ p ∈ s.filled ++ [markUsed item]
      intro p hp
      rw [hpool] at hp
      obtain ⟨q, hq, rfl⟩ := List.mem_map.mp hp
      by_cases hqi : q.id = id
      · have hqitem : q = item := pool_id_inj _ hnd _ _ hq himem (hqi.trans hiid.symm)
        subst hqitem
        rw [if_pos hqi]
        constructor
        · intro _
          exact List.mem_append_right _ (List.mem_singleton.mpr rfl)
        · intro _; rfl
      · rw [if_neg hqi]
        constructor
        · intro hu
          exact List.mem_append_left _ ((hiff q hq).mp hu)
        · intro hm
          rcases List.mem_append.mp hm with h | h
          · exact (hiff q hq).mpr h
          · rw [List.mem_singleton] at h
            exact absurd (h ▸ hmark_id) hqi
    · intro word2 hw2
      have hww : word2 = word := by
        have : activeWord s = some word2 := hw2
        rw [hw] at this
        exact (Option.some.inj this).symm
      subst hww
      show (s.filled ++ [markUsed item]).length ≤ word2.length
      rw [List.length_append, List.length_singleton]
      omega
  | undo last hl =>
    have hsplit : s.filled = s.filled.dropLast ++ [last] :=
      (List.dropLast_append_getLast? last (Option.mem_def.mpr hl)).symm
    have hlastmem : last ∈ s.filled := by
      rw [hsplit]; exact List.mem_append_right _ (List.mem_singleton.mpr rfl)
    have hnd2 : (s.filled.dropLast ++ [last]).Nodup := hsplit ▸ hfn
    rw [List.nodup_append] at hnd2
    obtain ⟨hinit, -, hdisj⟩ := hnd2
    have hinitmem : ∀ f ∈ s.filled.dropLast, f ∈ s.filled := fun f hf => by
      rw [hsplit]; exact List.mem_append_left _ hf
    have hne_id : ∀ f ∈ s.filled.dropLast, f.id ≠ last.id := by
      intro f hf he
      have h1 := pool_id_inj _ hnd _ _ (hfp f (hinitmem f hf)) (hfp last hlastmem) he
      exact hdisj hf (List.mem_singleton.mpr h1)
    have hpool : setUsed s.pool last.id false
        = s.pool.map (fun p => if p.id = last.id then { p with used := false } else p) :=
      setUsed_eq_map _ _ _ hnd
    refine ⟨hinit, ?_, ?_, ?_⟩
    · show ∀ f ∈ s.filled.dropLast, f ∈ setUsed s.pool last.id false
      intro f hf
      rw [hpool]
      exact List.mem_map.mpr ⟨f, hfp f (hinitmem f hf), if_neg (hne_id f hf)⟩
    · show ∀ p ∈ setUsed s.pool last.id false, p.used = true ↔ p ∈ s.filled.dropLast
      intro p hp
      rw [hpool] at hp
      obtain ⟨q, hq, rfl⟩ := List.mem_map.mp hp
      by_cases hqi : q.id = last.id
      · rw [if_pos hqi]
        constructor
        · intro h; cases h
        · intro hm
          exact absurd hqi (hne_id { q with used := false } hm)
      · rw [if_neg hqi]
        constructor
        · intro hu
          have := (hiff q hq).mp hu
          rw [hsplit] at this
          rcases List.mem_append.mp this with h | h
          · exact h
          · rw [List.mem_singleton] at h
            exact absurd (congrArg Tile.id h) hqi
        · intro hm
          exact (hiff q hq).mpr (hinitmem q hm)
    · intro word hw
      have h1 := hlen word hw
      show s.filled.dropLast.length ≤ word.length
      rw [List.length_dropLast]
      omega
  | clear =>
    have hall := clear_all_unused s hinv
    refine ⟨List.nodup_nil, ?_, ?_, ?_⟩
    · intro f hf; cases hf
    · intro p hp
      have := hall p hp
      constructor
      · intro h; rw [this] at h; cases h
      · intro h; cases h
    · intro word _; exact Nat.zero_le _
  | rebuild idx word letters pool hw hpre hlen2 hperm hids hunused =>
    refine ⟨List.nodup_nil, ?_, ?_, ?_⟩
    · intro f hf; cases hf
    · intro p hp
      have := hunused p hp
      constructor
      · intro h; rw [this] at h; cases h
      · intro h; cases h
    · intro word _; exact Nat.zero_le _
  | giveUp => exact ⟨hfn, hfp, hiff, hlen⟩

theorem Reachable.consistent {w : World} (h : Reachable w) : Consistent w.state :=
  Reachable.induct (P := fun w => Consistent w.state) Consistent_init
    (fun w e hr hw => Consistent_step _ _ (step_stateStep w e) hr.inv hw) h

/-! ## The active index -/

theorem ActiveValid_step (s t : State) (hst : StateStep s t) (h : ActiveValid s) :
    ActiveValid t := by
  cases hst with
  | same => exact h
  | place id item word found hw hne hroom hfind hitem hfound => exact h
  | undo last hl => exact h
  | clear => exact h
  | rebuild idx word letters pool hw hpre hlen hperm hids hunused =>
    show 0 ≤ idx ∧ idx < (WORDS.length : Int)
    by_contra hno
    have : wordAt idx = none := (wordAt_none_iff idx).mpr (by omega)
    rw [this] at hw
    cases hw
  | giveUp => exact h

theorem Reachable.activeValid {w : World} (h : Reachable w) : ActiveValid w.state :=
  Reachable.induct (P := fun w => ActiveValid w.state)
    (fun _ => ⟨le_refl _, show (0 : Int) < (WORDS.length : Int) by decide⟩)
    (fun w e _ hw => ActiveValid_step _ _ (step_stateStep w e) hw) h

/-! ## Solvability -/

theorem Solvable_step (s t : State) (hst : StateStep s t)
    (h : s.pool = [] ∨ Solvable s) : t.pool = [] ∨ Solvable t := by
  cases hst with
  | same => exact h
  | place id item word found hw hne hroom hfind hitem hfound =>
    rcases h with h | ⟨wd, h1, h2⟩
    · rw [h] at hfind; cases hfind
    · right
      refine ⟨wd, h1, ?_⟩
      intro c
      show _ ≤ ((setUsed s.pool id true).map Tile.letter).count c
      rw [setUsed_map_letter]
      exact h2 c
  | undo last hl =>
    rcases h with h | ⟨wd, h1, h2⟩
    · left
      show setUsed s.pool last.id false = []
      rw [h]; rfl
    · right
      refine ⟨wd, h1, ?_⟩
      intro c
      show _ ≤ ((setUsed s.pool last.id false).map Tile.letter).count c
      rw [setUsed_map_letter]
      exact h2 c
  | clear =>
    rcases h with h | ⟨wd, h1, h2⟩
    · left
      show s.filled.foldl (fun pool f => setUsed pool f.id false) s.pool = []
      rw [h]
      exact List.map_eq_nil_iff.mp (clear_pool_map_id s.filled [])
    · right
      refine ⟨wd, h1, ?_⟩
      intro c
      show _ ≤ ((s.filled.foldl (fun pool f => setUsed pool f.id false) s.pool).map
        Tile.letter).count c
      rw [clear_pool_map_letter]
      exact h2 c
  | rebuild idx word letters pool hw hpre hlen hperm hids hunused =>
    right
    refine ⟨word, hw, ?_⟩
    intro c
    obtain ⟨extra, hex⟩ := hpre
    show _ ≤ (pool.map Tile.letter).count c
    rw [hperm.count_eq, hex, List.count_append]
    exact Nat.le_add_right _ _
  | giveUp =>
    rcases h with h | ⟨wd, h1, h2⟩
    · exact Or.inl h
    · exact Or.inr ⟨wd, h1, h2⟩

theorem Reachable.solvable {w : World} (h : Reachable w) :
    w.state.pool = [] ∨ Solvable w.state :=
  Reachable.induct (P := fun w => w.state.pool = [] ∨ Solvable w.state)
    (fun _ => Or.inl rfl)
    (fun w e _ hw => Solvable_step _ _ (step_stateStep w e) hw) h

/-- Once a pool is built there is always a pool. -/
theorem pool_ne_nil_step (s t : State) (hst : StateStep s t) (h : s.pool ≠ []) :
    t.pool ≠ [] := by
  cases hst with
  | same => exact h
  | place id item word found hw hne hroom hfind hitem hfound =>
    intro hnil
    have := congrArg List.length hnil
    simp only [setUsed_length, List.length_nil] at this
    exact h (List.length_eq_zero.mp this)
  | undo last hl =>
    intro hnil
    have := congrArg List.length hnil
    simp only [setUsed_length, List.length_nil] at this
    exact h (List.length_eq_zero.mp this)
  | clear =>
    intro hnil
    have hmap : (s.filled.foldl (fun pool f => setUsed pool f.id false) s.pool).map Tile.id
        = s.pool.map Tile.id := clear_pool_map_id _ _
    have hnil2 : s.filled.foldl (fun pool f => setUsed pool f.id false) s.pool = [] := hnil
    rw [hnil2] at hmap
    exact h (List.map_eq_nil_iff.mp hmap.symm)
  | rebuild idx word letters pool hw hpre hlen hperm hids hunused =>
    intro hnil
    have hnil2 : pool = [] := hnil
    obtain ⟨extra, hex⟩ := hpre
    have hwne := WORDS_ne_empty _ (wordAt_mem _ _ hw)
    rw [hnil2] at hperm
    have hl : letters = [] := List.perm_nil.mp hperm.symm
    rw [hl] at hex
    have : word.toList = [] := (List.append_eq_nil.mp hex.symm).1
    exact hwne (String.ext this)
  | giveUp => exact h

/-! ## C18 -/

/-- C18: in every reachable world, whatever the interleaving of actions and
delayed callbacks that led to it, the placement consists of pairwise distinct
tiles of the current pool, a tile of the pool is used if and only if it is in
the placement, and the placement is not longer than the active word; every
further turn of the event loop, and every further run of events, keeps this. -/
theorem pool_placement_consistent (w : World) (hr : Reachable w) (e : Event)
    (evs : List Event) :
    w.state.filled.Nodup ∧
    (∀ f ∈ w.state.filled, f ∈ w.state.pool) ∧
    (∀ p ∈ w.state.pool, p.used = true ↔ p ∈ w.state.filled) ∧
    (∀ word, activeWord w.state = some word → w.state.filled.length ≤ word.length) ∧
    Consistent (step w e).state ∧
    Consistent (run w evs).state := by
  obtain ⟨h1, h2, h3, h4⟩ := hr.consistent
  exact ⟨h1, h2, h3, h4, (hr.after_step e).consistent, (hr.after_run evs).consistent⟩

set_option maxRecDepth 100000 in
/-- C18 with input between a wrong guess and its reset: `W`, `I`, `L`, `A` is
wrong and sets the timer; the player undoes the `A` and taps the second `L`,
which is a match; then the reset of the wrong guess fires. -/
theorem pool_placement_consistent_witness :
    (run sampleWorld [Event.tapTile 10, Event.tapTile 1, Event.tapTile 2, Event.tapTile 11,
      Event.undo, Event.tapTile 9]).timers = [Timer.afterWrong, Timer.afterMatch] ∧
    (run sampleWorld [Event.tapTile 10, Event.tapTile 1, Event.tapTile 2, Event.tapTile 11,
      Event.undo, Event.tapTile 9]).state.filled.length = 4 ∧
    Consistent (step (run sampleWorld [Event.tapTile 10, Event.tapTile 1, Event.tapTile 2,
      Event.tapTile 11, Event.undo, Event.tapTile 9]) (Event.fire 0)).state :=
  ⟨by decide, by decide,
   (pool_placement_consistent _ (sampleWorld_reachable.after_run _) (Event.fire 0)
      []).2.2.2.2.1⟩

/-! ## C19 -/

theorem pickNextUnfound_activeValid (w : World) : ActiveValid (pickNextUnfound w).state := by
  obtain ⟨word, hword⟩ := pickNextUnfound_wordAt w
  show 0 ≤ (pickNextUnfound w).state.activeIdx ∧
    (pickNextUnfound w).state.activeIdx < (WORDS.length : Int)
  by_contra hno
  have : wordAt (pickNextUnfound w).state.activeIdx = none :=
    (wordAt_none_iff _).mpr (by omega)
  rw [this] at hword
  cases hword

/-- C19: in every reachable world `activeIdx` is an index of `WORDS`, so the
active word exists, is not empty and has at most `TILE_COUNT` letters; at each
call site of `buildPool` the argument is such a word and `buildPool` returns:
in `switchWord` when it passes its guards, in the callback of a match when a
word is left, and in `submitNickname`; and `pickNextUnfound` yields an index
of `WORDS` in every world, namely `0` when every word is found. -/
theorem activeIdx_valid (w : World) (hr : Reachable w) (idx : Int) :
    (0 ≤ w.state.activeIdx ∧ w.state.activeIdx < (WORDS.length : Int)) ∧
    (∃ word, activeWord w.state = some word ∧ word ≠ "" ∧ word.length ≤ TILE_COUNT) ∧
    (switchWord w idx = w ∨
      ∃ word w2, wordAt idx = some word ∧ word.length ≤ TILE_COUNT ∧
        buildPool { w with state := { w.state with activeIdx := idx } } (some word) = some w2 ∧
        switchWord w idx = render (setStatus w2 "" "")) ∧
    (afterMatch w = render w ∨
      ∃ word w2, activeWord (pickNextUnfound w).state = some word ∧
        word.length ≤ TILE_COUNT ∧
        buildPool (pickNextUnfound w) (some word) = some w2 ∧
        afterMatch w = render (setStatus w2 "" "")) ∧
    (∃ word w2, activeWord w.state = some word ∧ word.length ≤ TILE_COUNT ∧
      buildPool w (some word) = some w2 ∧ submitNickname w = render w2) ∧
    (0 ≤ (pickNextUnfound w).state.activeIdx ∧
      (pickNextUnfound w).state.activeIdx < (WORDS.length : Int)) ∧
    ((∀ x ∈ WORDS, x ∈ w.state.found) → (pickNextUnfound w).state.activeIdx = 0) := by
  have hav := hr.activeValid
  obtain ⟨word, hword⟩ := wordAt_some_of_range _ hav.1 hav.2
  have hmem := wordAt_mem _ _ hword
  refine ⟨hav, ⟨word, hword, WORDS_ne_empty _ hmem, WORDS_length_le _ hmem⟩, ?_, ?_, ?_,
    pickNextUnfound_activeValid w, ?_⟩
  · rcases switchWord_cases w idx with ⟨-, h⟩ | ⟨h0, h5, -, w2, hb, h⟩
    · exact Or.inl h
    · right
      obtain ⟨wd, hwd⟩ := wordAt_some_of_range idx h0 h5
      rw [hwd] at hb
      exact ⟨wd, w2, hwd, WORDS_length_le _ (wordAt_mem _ _ hwd), hb, h⟩
  · rcases afterMatch_cases w with ⟨-, h⟩ | ⟨-, w2, hb, h⟩
    · exact Or.inl h
    · right
      obtain ⟨wd, hwd⟩ := pickNextUnfound_wordAt w
      have haw : activeWord (pickNextUnfound w).state = some wd := hwd
      rw [haw] at hb
      exact ⟨wd, w2, haw, WORDS_length_le _ (wordAt_mem _ _ hwd), hb, h⟩
  · rcases submitNickname_cases w with ⟨hnone, -⟩ | ⟨wd, w2, hwd, hb, h⟩
    · have : activeWord w.state = some word := hword
      rw [hnone] at this
      cases this
    · exact ⟨wd, w2, hwd, WORDS_length_le _ (wordAt_mem _ _ hwd), hb, h⟩
  · intro hall
    have hnone : WORDS.findIdx? (fun x => !(w.state.found.contains x)) = none := by
      rw [List.findIdx?_eq_none_iff]
      intro x hx
      simp [hall x hx]
    unfold pickNextUnfound
    simp only [hnone]

set_option maxRecDepth 100000 in
/-- C19 after all five words were typed: the index is `4`, and
`pickNextUnfound` would yield `0`. -/
theorem activeIdx_valid_witness :
    (run (initWorld sampleRand) wonEvents).state.activeIdx = 4 ∧
    (0 ≤ (run (initWorld sampleRand) wonEvents).state.activeIdx ∧
      (run (initWorld sampleRand) wonEvents).state.activeIdx < (WORDS.length : Int)) ∧
    (pickNextUnfound (run (initWorld sampleRand) wonEvents)).state.activeIdx = 0 :=
  ⟨by decide,
   (activeIdx_valid _ ⟨sampleRand, wonEvents, rfl⟩ 0).1,
   (activeIdx_valid _ ⟨sampleRand, wonEvents, rfl⟩ 0).2.2.2.2.2.2 (by decide)⟩

/-! ## C20 -/

/-- The letters of the unused tiles when no tile is used. -/
theorem unusedLetters_of_all_unused (s : State) (h : ∀ p ∈ s.pool, p.used = false) :
    unusedLetters s = s.pool.map Tile.letter := by
  unfold unusedLetters
  rw [List.filter_eq_self.mpr]
  intro p hp
  simp [h p hp]

/-- C20: in every reachable world in which a pool was built, the letters of
the tiles of the pool, used or not, contain the letters of the active word
with their multiplicities, so after `clearFilled` the word can be spelled from
unused tiles; every turn of the event loop (`switchWord`, `skipWord`, `giveUp`,
both delayed callbacks, and the others) keeps a pool and keeps this. -/
theorem round_stays_solvable (w : World) (hr : Reachable w) (hbuilt : w.state.pool ≠ [])
    (e : Event) :
    (∃ word, activeWord w.state = some word ∧
      (∀ c, word.toList.count c ≤ (w.state.pool.map Tile.letter).count c) ∧
      (∀ c, word.toList.count c ≤ (unusedLetters (clearFilled w).state).count c)) ∧
    (step w e).state.pool ≠ [] ∧
    Solvable (step w e).state := by
  have hsolv : Solvable w.state := by
    rcases hr.solvable with h | h
    · exact absurd h hbuilt
    · exact h
  obtain ⟨word, hw, hcount⟩ := hsolv
  have hne : (step w e).state.pool ≠ [] :=
    pool_ne_nil_step _ _ (step_stateStep w e) hbuilt
  refine ⟨⟨word, hw, hcount, ?_⟩, hne, ?_⟩
  · intro c
    have hall : ∀ p ∈ (clearFilled w).state.pool, p.used = false := by
      rw [clearFilled_state]
      exact clear_all_unused w.state hr.inv
    rw [unusedLetters_of_all_unused _ hall, clearFilled_state]
    show _ ≤ ((w.state.filled.foldl (fun pool f => setUsed pool f.id false)
      w.state.pool).map Tile.letter).count c
    rw [clear_pool_map_letter]
    exact hcount c
  · rcases (hr.after_step e).solvable with h | h
    · exact absurd h hne
    · exact h

set_option maxRecDepth 100000 in
/-- C20 on `sampleWorld` after the taps `W`, `I`: the word is `"WILL"`, and
after a skip to the next word the new pool holds the new word. -/
theorem round_stays_solvable_witness :
    (run sampleWorld [Event.tapTile 10, Event.tapTile 1]).state.pool.length = 12 ∧
    Solvable (step (run sampleWorld [Event.tapTile 10, Event.tapTile 1]) Event.skipWord).state :=
  ⟨by decide,
   (round_stays_solvable _ (sampleWorld_reachable.after_run _) (by decide)
      Event.skipWord).2.2⟩

/-! ## C14 -/

/-- C14 refuted as stated: in the reachable world in which the `W` of `"WILL"`
was placed, the unused tiles of the pool carry no `W`, so the active word
cannot be spelled from the unused tiles alone. -/
theorem placed_letter_not_among_unused :
    Reachable (run sampleWorld [Event.tapTile 10]) ∧
    (run sampleWorld [Event.tapTile 10]).state.pool.length = 12 ∧
    activeWord (run sampleWorld [Event.tapTile 10]).state = some "WILL" ∧
    "WILL".toList.count 'W' = 1 ∧
    (unusedLetters (run sampleWorld [Event.tapTile 10]).state).count 'W' = 0 ∧
    ¬ (∀ c, "WILL".toList.count c
        ≤ (unusedLetters (run sampleWorld [Event.tapTile 10]).state).count c) :=
  ⟨sampleWorld_reachable.after_run _, by decide, by decide, by decide, by decide,
   fun h => absurd (h 'W') (by decide)⟩

/-- In a consistent state the used tiles of the pool are the placed tiles. -/
theorem used_tiles_perm_filled (s : State) (hinv : Inv s) (hc : Consistent s) :
    (s.pool.filter (fun p => p.used)).Perm s.filled := by
  obtain ⟨hfn, hfp, hiff, -⟩ := hc
  have hpn : s.pool.Nodup := List.Nodup.of_map Tile.id hinv.2.2.1
  rw [List.perm_ext_iff_of_nodup (hpn.filter _) hfn]
  intro p
  rw [List.mem_filter]
  constructor
  · rintro ⟨hp, hu⟩
    exact (hiff p hp).mp hu
  · intro hp
    exact ⟨hfp p hp, (hiff p (hfp p hp)).mpr hp⟩

/-- C14, as the code has it: in every reachable world in which a pool was
built, the letters of the active word are contained, with their
multiplicities, in the letters of the unused tiles together with the letters
of the placed tiles; so whenever the placement is empty the active word can
be spelled from the unused tiles of the pool. -/
theorem word_among_unused_and_placed (w : World) (hr : Reachable w)
    (hbuilt : w.state.pool ≠ []) :
    ∃ word, activeWord w.state = some word ∧
      (∀ c, word.toList.count c
        ≤ (unusedLetters w.state).count c + (w.state.filled.map Tile.letter).count c) ∧
      (w.state.filled = [] →
        ∀ c, word.toList.count c ≤ (unusedLetters w.state).count c) := by
  have hsolv : Solvable w.state := by
    rcases hr.solvable with h | h
    · exact absurd h hbuilt
    · exact h
  obtain ⟨word, hw, hcount⟩ := hsolv
  have hsplit : ∀ c, (w.state.pool.map Tile.letter).count c
      = (unusedLetters w.state).count c + (w.state.filled.map Tile.letter).count c := by
    intro c
    have h1 := List.filter_append_perm (fun p : Tile => p.used) w.state.pool
    have h2 := (h1.map Tile.letter).count_eq c
    rw [List.map_append, List.count_append] at h2
    have h3 := ((used_tiles_perm_filled w.state hr.inv hr.consistent).map
      Tile.letter).count_eq c
    rw [h3] at h2
    unfold unusedLetters
    omega
  refine ⟨word, hw, fun c => (hsplit c) ▸ hcount c, ?_⟩
  intro hempty c
  have := hsplit c
  rw [hempty] at this
  simp only [List.map_nil, List.count_nil, Nat.add_zero] at this
  rw [← this]
  exact hcount c

/-- C14, as the code has it, on `sampleWorld`, where nothing is placed. -/
theorem word_among_unused_and_placed_witness :
    sampleWorld.state.filled = [] ∧
    ∃ word, activeWord sampleWorld.state = some word ∧
      (∀ c, word.toList.count c
        ≤ (unusedLetters sampleWorld.state).count c
          + (sampleWorld.state.filled.map Tile.letter).count c) ∧
      (sampleWorld.state.filled = [] →
        ∀ c, word.toList.count c ≤ (unusedLetters sampleWorld.state).count c) :=
  ⟨by decide, word_among_unused_and_placed sampleWorld sampleWorld_reachable (by decide)⟩

end WordJungle
